import Mathlib

/-!
Verification of the Dispatch scheduling-simulator core against its
specification.  Each section shallowly embeds one part of the TypeScript
source (frontend/src/lib) into Lean: JS numbers that hold ticks, indices and
counters are modelled as `Nat`/`Int`, JS floating-point quotients as `ℚ`,
arrays as `List`, and `undefined`/exceptions as `Option`.
-/

/- ## Section 1: Replay projection (frontend/src/lib/replay.ts) -/

/-- Entry of `memory.recent_steps`; replay only inspects the tick field `t`,
the remaining payload is carried through unchanged by the object spread. -/
structure RecentStep where
  t : Nat
  deriving DecidableEq, Repr

/-- The sub-object `state.memory`; only the fields replay touches are
modelled, the rest is carried through unchanged by the object spread. -/
structure MemoryState where
  mem_gantt : List String
  recent_steps : List RecentStep
  deriving DecidableEq, Repr

/-- Live simulator snapshot (the fields used by replay.ts). -/
structure SimulatorState where
  time : Nat
  running : String
  io_active : String
  gantt : List String
  io_gantt : List String
  mem_gantt : List String
  event_log : List String
  memory : MemoryState
  deriving DecidableEq, Repr

/-- Whitespace test for the regex class in EVENT_TIME_REGEX. -/
def isWsChar (c : Char) : Bool :=
  c = ' ' || c = '\t' || c = '\n' || c = '\r'

/-- Numeric value of a decimal digit run (radix-10 parseInt on the capture). -/
def digitsToNat (l : List Char) : Nat :=
  l.foldl (fun a c => 10 * a + (c.toNat - '0'.toNat)) 0

/-- Attempt to match the tail of EVENT_TIME_REGEX right after a `t`:
whitespace*, `=`, whitespace*, then one or more digits. -/
def matchEqDigits (cs : List Char) : Option Nat :=
  match cs.dropWhile isWsChar with
  | '=' :: rest =>
      let ds := (rest.dropWhile isWsChar).takeWhile Char.isDigit
      if ds.isEmpty then none else some (digitsToNat ds)
  | _ => none

/-- Scan for the first position where EVENT_TIME_REGEX matches
(the regex is case-insensitive, so `t` or `T`). -/
def scanEventTime : List Char → Option Nat
  | [] => none
  | c :: rest =>
      match (if c = 't' || c = 'T' then matchEqDigits rest else none) with
      | some v => some v
      | none => scanEventTime rest

/-- Model of parseEventTime: first match of t\s*=\s*(\d+), case-insensitive.
(Digit runs long enough to overflow JS doubles are ignored by the model.) -/
def parseEventTime (s : String) : Option Nat :=
  scanEventTime s.data

/-- Model of getReplayMax.  JS computes max(time, |gantt|-1, |io_gantt|-1,
|mem_gantt|-1, 0); truncated Nat subtraction absorbs the trailing 0. -/
def getReplayMax (s : SimulatorState) : Nat :=
  max (max (max s.time (s.gantt.length - 1)) (s.io_gantt.length - 1))
    (s.mem_gantt.length - 1)

/-- Last `n` elements of a list (JS slice(-n) for n > 0). -/
def lastN (n : Nat) (l : List String) : List String :=
  l.drop (l.length - n)

/-- Model of getReplayEventLog: pair each entry with its parsed time, keep
the parseable ones; if any exist, keep those with time ≤ t (last 20),
otherwise fall back to the raw last 20 entries. -/
def getReplayEventLog (s : SimulatorState) (t : Nat) : List String :=
  let parsed := (s.event_log.map fun e => (e, parseEventTime e)).filter
    fun p => p.2.isSome
  if parsed.length > 0 then
    lastN 20 ((parsed.filter fun p =>
      match p.2 with
      | some v => decide (v ≤ t)
      | none => false).map fun p => p.1)
  else
    lastN 20 s.event_log

/-- Warning line prepended by the replay view when t differs from live time. -/
def replayQueueNote : String :=
  "Replay note: queue snapshots are latest-known; per-tick queue tape is unavailable."

/-- Model of getReplayViewState.  The requested time is a JS number, modelled
as `Int` after Math.floor; it is clamped into [0, replayMax]. -/
def getReplayViewState (liveState : SimulatorState) (requestedT : Int) :
    SimulatorState :=
  let replayMax := getReplayMax liveState
  let t : Nat := (max 0 (min requestedT (replayMax : Int))).toNat
  let running := liveState.gantt.getD t "IDLE"
  let ioActive := liveState.io_gantt.getD t "IDLE"
  let queueNote : List String :=
    if t = liveState.time then [] else [replayQueueNote]
  { liveState with
    time := t
    running := running
    io_active := ioActive
    mem_gantt := liveState.mem_gantt
    memory := { liveState.memory with
      mem_gantt :=
        if liveState.memory.mem_gantt.length > 0 then liveState.memory.mem_gantt
        else liveState.mem_gantt
      recent_steps := liveState.memory.recent_steps.filter
        fun step => decide (step.t ≤ t) }
    event_log := queueNote ++ getReplayEventLog liveState t }

/-- C1: for every live snapshot and every requested time 0 ≤ t ≤ replayMax,
the replay view has time = t, running = gantt[t] (IDLE when absent) and
io_active = io_gantt[t] (IDLE when absent). -/
theorem replay_view_time_running_io (s : SimulatorState) (t : Nat)
    (h : t ≤ getReplayMax s) :
    (getReplayViewState s (t : Int)).time = t ∧
    (getReplayViewState s (t : Int)).running = s.gantt.getD t "IDLE" ∧
    (getReplayViewState s (t : Int)).io_active = s.io_gantt.getD t "IDLE" := by
  have hclamp : (max 0 (min (t : Int) ((getReplayMax s : Nat) : Int))).toNat = t := by
    omega
  refine ⟨?_, ?_, ?_⟩ <;>
    simp only [getReplayViewState, hclamp]

/-- Concrete live snapshot used by witnesses. -/
def sampleState : SimulatorState :=
  { time := 2
    running := "P1"
    io_active := "IDLE"
    gantt := ["P1", "P2", "P1"]
    io_gantt := ["IDLE", "P2"]
    mem_gantt := []
    event_log := []
    memory := { mem_gantt := [], recent_steps := [] } }

/-- Witness for C1 at a concrete snapshot and t = 1. -/
theorem replay_view_time_running_io_witness :
    1 ≤ getReplayMax sampleState ∧
    ((getReplayViewState sampleState (1 : Int)).time = 1 ∧
      (getReplayViewState sampleState (1 : Int)).running =
        sampleState.gantt.getD 1 "IDLE" ∧
      (getReplayViewState sampleState (1 : Int)).io_active =
        sampleState.io_gantt.getD 1 "IDLE") :=
  ⟨by decide, replay_view_time_running_io sampleState 1 (by decide)⟩

/-- Concrete snapshot refuting the truncation clause of C2: two memory
timeline tokens, live time 1, replayed at t = 0. -/
def cexReplayState : SimulatorState :=
  { time := 1
    running := "P1"
    io_active := "IDLE"
    gantt := ["P1", "P1"]
    io_gantt := []
    mem_gantt := ["HIT:P1", "FAULT:P1"]
    event_log := []
    memory := { mem_gantt := ["HIT:P1", "FAULT:P1"], recent_steps := [] } }

/-- Counterexample to C2 as stated: at t = 0 ≤ replayMax with t ≠ live time,
neither memory timeline of the replay view is truncated to ticks 0..t —
both still hold the full two-token timeline. -/
theorem replay_memtimeline_not_truncated :
    0 ≤ getReplayMax cexReplayState ∧
    (0 : Nat) ≠ cexReplayState.time ∧
    (getReplayViewState cexReplayState 0).mem_gantt ≠
      cexReplayState.mem_gantt.take 1 ∧
    (getReplayViewState cexReplayState 0).memory.mem_gantt ≠
      cexReplayState.memory.mem_gantt.take 1 := by
  decide

/-- C2 (amended): for t ≤ replayMax with t ≠ live time, the replay view keeps
both memory timelines untruncated (memory.mem_gantt falling back to the
top-level timeline when empty), filters memory.recent_steps to steps with
tick ≤ t, and its event log is the warning note followed by the last 20
parseable entries with parsed time ≤ t when at least one entry parses,
otherwise the last 20 raw entries. -/
theorem replay_view_truncation_amended (s : SimulatorState) (t : Nat)
    (h : t ≤ getReplayMax s) (hne : t ≠ s.time) :
    (getReplayViewState s (t : Int)).mem_gantt = s.mem_gantt ∧
    (getReplayViewState s (t : Int)).memory.mem_gantt =
      (if s.memory.mem_gantt.length > 0 then s.memory.mem_gantt
        else s.mem_gantt) ∧
    (getReplayViewState s (t : Int)).memory.recent_steps =
      s.memory.recent_steps.filter (fun step => decide (step.t ≤ t)) ∧
    (getReplayViewState s (t : Int)).event_log =
      replayQueueNote ::
        (let parseable := s.event_log.filter fun e => (parseEventTime e).isSome
         if parseable.length > 0 then
           lastN 20 (parseable.filter fun e =>
             match parseEventTime e with
             | some v => decide (v ≤ t)
             | none => false)
         else lastN 20 s.event_log) := by
  have hclamp : (max 0 (min (t : Int) ((getReplayMax s : Nat) : Int))).toNat = t := by
    omega
  have hlog : ∀ l : List String,
      ((l.map fun e => (e, parseEventTime e)).filter
          (fun p => p.2.isSome)).map (fun p => p.1) =
        l.filter (fun e => (parseEventTime e).isSome) ∧
      (((l.map fun e => (e, parseEventTime e)).filter
          (fun p => p.2.isSome)).filter (fun p =>
            match p.2 with
            | some v => decide (v ≤ t)
            | none => false)).map (fun p => p.1) =
        (l.filter fun e => (parseEventTime e).isSome).filter (fun e =>
          match parseEventTime e with
          | some v => decide (v ≤ t)
          | none => false) ∧
      ((l.map fun e => (e, parseEventTime e)).filter
          (fun p => p.2.isSome)).length =
        (l.filter fun e => (parseEventTime e).isSome).length := by
    intro l
    induction l with
    | nil => exact ⟨rfl, rfl, rfl⟩
    | cons x xs ih =>
        obtain ⟨ih1, ih2, ih3⟩ := ih
        by_cases hx : (parseEventTime x).isSome
        · refine ⟨?_, ?_, ?_⟩ <;>
            simp only [List.map_cons, List.filter_cons, hx, if_pos,
              decide_eq_true_eq, List.map_cons, List.length_cons, ih1, ih3]
          · rcases hv : parseEventTime x with _ | v
            · simp [hv] at hx
            · by_cases hvt : v ≤ t
              · simpa [hv, hvt] using ih2
              · simpa [hv, hvt] using ih2
        · simp only [List.map_cons, List.filter_cons, hx]
          exact ⟨ih1, ih2, ih3⟩
  obtain ⟨h1, h2, h3⟩ := hlog s.event_log
  have hnote : ¬((max 0 (min (t : Int) ((getReplayMax s : Nat) : Int))).toNat
      = s.time) := by rw [hclamp]; exact hne
  refine ⟨?_, ?_, ?_, ?_⟩
  · simp only [getReplayViewState]
  · simp only [getReplayViewState]
  · simp only [getReplayViewState, hclamp]
  · simp only [getReplayViewState, hclamp, if_neg hne, getReplayEventLog,
      List.cons_append, List.nil_append, lastN, h2, h3, List.length_filter_le]

/-- Concrete live snapshot with a mixed event log, used by the C2 witness. -/
def wReplayState : SimulatorState :=
  { time := 2
    running := "P2"
    io_active := "IDLE"
    gantt := ["P1", "P2", "P2"]
    io_gantt := []
    mem_gantt := ["HIT:P1", "HIT:P2", "HIT:P2"]
    event_log := ["t=0: P1 NEW -> READY", "boot banner", "t=2: P2 READY -> RUNNING"]
    memory := { mem_gantt := [], recent_steps := [{ t := 0 }, { t := 2 }] } }

/-- Witness for the amended C2 at a concrete snapshot and t = 0. -/
theorem replay_view_truncation_amended_witness :
    0 ≤ getReplayMax wReplayState ∧ (0 : Nat) ≠ wReplayState.time ∧
    ((getReplayViewState wReplayState (0 : Int)).mem_gantt =
        wReplayState.mem_gantt ∧
      (getReplayViewState wReplayState (0 : Int)).memory.mem_gantt =
        (if wReplayState.memory.mem_gantt.length > 0 then
          wReplayState.memory.mem_gantt else wReplayState.mem_gantt) ∧
      (getReplayViewState wReplayState (0 : Int)).memory.recent_steps =
        wReplayState.memory.recent_steps.filter
          (fun step => decide (step.t ≤ 0)) ∧
      (getReplayViewState wReplayState (0 : Int)).event_log =
        replayQueueNote ::
          (let parseable := wReplayState.event_log.filter
            fun e => (parseEventTime e).isSome
           if parseable.length > 0 then
             lastN 20 (parseable.filter fun e =>
               match parseEventTime e with
               | some v => decide (v ≤ 0)
               | none => false)
           else lastN 20 wReplayState.event_log)) :=
  ⟨by decide, by decide,
    replay_view_truncation_amended wReplayState 0 (by decide) (by decide)⟩

/- ## Section 2: Pareto front (frontend/src/lib/recommend/pareto.ts and
index.ts).  JS metric values are modelled as exact rationals. -/

/-- Objective direction ("min" | "max"). -/
inductive ObjectiveDirection where
  | min
  | max
  deriving DecidableEq, Repr

/-- One objective: a key, a direction and a metric getter. -/
structure ObjectiveSpec (T : Type) where
  key : String
  direction : ObjectiveDirection
  getValue : T → ℚ

/-- Epsilon used by pareto.ts (EPS = 1e-9). -/
def paretoEPS : ℚ := 1 / 1000000000

/-- Model of isNoWorse: within-epsilon comparison in the given direction. -/
def isNoWorse (a b : ℚ) (direction : ObjectiveDirection) : Bool :=
  match direction with
  | .min => decide (a ≤ b + paretoEPS)
  | .max => decide (a ≥ b - paretoEPS)

/-- Model of isStrictlyBetter: better by more than epsilon. -/
def isStrictlyBetter (a b : ℚ) (direction : ObjectiveDirection) : Bool :=
  match direction with
  | .min => decide (a < b - paretoEPS)
  | .max => decide (a > b + paretoEPS)

/-- Loop body of dominates: bail out on the first objective where the
candidate is worse than within epsilon, otherwise accumulate whether some
objective is strictly better. -/
def dominatesGo {T : Type} (candidate target : T) :
    List (ObjectiveSpec T) → Bool → Bool
  | [], strictlyBetter => strictlyBetter
  | objective :: rest, strictlyBetter =>
      let candidateValue := objective.getValue candidate
      let targetValue := objective.getValue target
      if ¬ isNoWorse candidateValue targetValue objective.direction then false
      else
        dominatesGo candidate target rest
          (strictlyBetter ||
            isStrictlyBetter candidateValue targetValue objective.direction)

/-- Model of dominates. -/
def dominates {T : Type} (candidate target : T)
    (objectives : List (ObjectiveSpec T)) : Bool :=
  dominatesGo candidate target objectives false

/-- Model of paretoFront: keep rows[i] unless some rows[j] with j ≠ i
dominates it. -/
def paretoFront {T : Type} (rows : List T)
    (objectives : List (ObjectiveSpec T)) : List T :=
  ((rows.enum).filter fun p =>
    ! (rows.enum.any fun q =>
        decide (q.1 ≠ p.1) && dominates q.2 p.2 objectives)).map fun p => p.2

/-- Comparator result row enriched with fairness metrics (the nine numeric
objective fields, as rationals). -/
structure EnrichedAlgorithmResult where
  algorithm : String
  avg_wt : ℚ
  avg_tat : ℚ
  avg_rt : ℚ
  cpu_util : ℚ
  makespan : ℚ
  throughput : ℚ
  max_wt : ℚ
  p95_wt : ℚ
  wt_std : ℚ
  deriving DecidableEq, Repr

/-- Model of buildObjectives from recommend/index.ts: seven minimised
metrics and two maximised ones. -/
def buildObjectives : List (ObjectiveSpec EnrichedAlgorithmResult) :=
  [{ key := "avg_wt", direction := .min, getValue := fun row => row.avg_wt },
   { key := "avg_tat", direction := .min, getValue := fun row => row.avg_tat },
   { key := "avg_rt", direction := .min, getValue := fun row => row.avg_rt },
   { key := "makespan", direction := .min, getValue := fun row => row.makespan },
   { key := "p95_wt", direction := .min, getValue := fun row => row.p95_wt },
   { key := "max_wt", direction := .min, getValue := fun row => row.max_wt },
   { key := "wt_std", direction := .min, getValue := fun row => row.wt_std },
   { key := "cpu_util", direction := .max, getValue := fun row => row.cpu_util },
   { key := "throughput", direction := .max, getValue := fun row => row.throughput }]

/-- Exact domination in the sense of the specification text: no worse on
every objective (exact ≤ / ≥ with the direction applied) and strictly
better (exact < / >) on at least one. -/
def specDominates {T : Type} (candidate target : T)
    (objectives : List (ObjectiveSpec T)) : Bool :=
  (objectives.all fun o =>
    match o.direction with
    | .min => decide (o.getValue candidate ≤ o.getValue target)
    | .max => decide (o.getValue candidate ≥ o.getValue target)) &&
  (objectives.any fun o =>
    match o.direction with
    | .min => decide (o.getValue candidate < o.getValue target)
    | .max => decide (o.getValue candidate > o.getValue target))

/-- Unfolded form of the dominates loop. -/
theorem dominatesGo_eq {T : Type} (c t : T)
    (objectives : List (ObjectiveSpec T)) (sb : Bool) :
    dominatesGo c t objectives sb =
      ((objectives.all fun o =>
          isNoWorse (o.getValue c) (o.getValue t) o.direction) &&
        (sb || objectives.any fun o =>
          isStrictlyBetter (o.getValue c) (o.getValue t) o.direction)) := by
  induction objectives generalizing sb with
  | nil => simp [dominatesGo]
  | cons o rest ih =>
      by_cases hw : isNoWorse (o.getValue c) (o.getValue t) o.direction
      · simp only [dominatesGo, hw, not_true, if_neg, List.all_cons,
          List.any_cons, ih, Bool.true_and]
        cases isStrictlyBetter (o.getValue c) (o.getValue t) o.direction <;>
          cases sb <;> simp
      · simp only [Bool.not_eq_true] at hw
        simp [dominatesGo, hw]

/-- No row epsilon-dominates itself (strict improvement by more than
epsilon over itself is impossible). -/
theorem dominates_self_false {T : Type} (x : T)
    (objectives : List (ObjectiveSpec T)) :
    dominates x x objectives = false := by
  rw [dominates, dominatesGo_eq]
  have hn : (objectives.any fun o =>
      isStrictlyBetter (o.getValue x) (o.getValue x) o.direction) = false := by
    rw [List.any_eq_false]
    intro o _
    cases hd : o.direction <;>
      simp [isStrictlyBetter, hd, paretoEPS]
  simp [hn]

/-- Two-row cohort refuting exact domination as the exclusion criterion:
row A is worse than row B on avg_wt by half an epsilon (so it does not
exactly dominate B), yet epsilon-tolerant domination discards B. -/
def cexRowA : EnrichedAlgorithmResult :=
  { algorithm := "A", avg_wt := 1 / 2000000000, avg_tat := 0, avg_rt := 0
    cpu_util := 0, makespan := 0, throughput := 0, max_wt := 0, p95_wt := 0
    wt_std := 0 }

/-- Second row of the counterexample cohort. -/
def cexRowB : EnrichedAlgorithmResult :=
  { algorithm := "B", avg_wt := 0, avg_tat := 1, avg_rt := 0
    cpu_util := 0, makespan := 0, throughput := 0, max_wt := 0, p95_wt := 0
    wt_std := 0 }

/-- Row A epsilon-dominates row B: within epsilon everywhere, more than
epsilon better on avg_tat. -/
theorem cex_dominates_AB : dominates cexRowA cexRowB buildObjectives = true := by
  rw [dominates, dominatesGo_eq]
  simp only [buildObjectives, List.all_cons, List.all_nil, List.any_cons,
    List.any_nil, isNoWorse, isStrictlyBetter, cexRowA, cexRowB, paretoEPS,
    Bool.and_eq_true, Bool.or_eq_true, decide_eq_true_eq, Bool.false_or,
    Bool.and_true, Bool.or_false]
  norm_num

/-- Row B does not epsilon-dominate row A (it is worse by a full unit on
avg_tat). -/
theorem cex_not_dominates_BA :
    dominates cexRowB cexRowA buildObjectives = false := by
  rw [dominates, dominatesGo_eq]
  simp only [buildObjectives, List.all_cons, List.all_nil, List.any_cons,
    List.any_nil, isNoWorse, isStrictlyBetter, cexRowA, cexRowB, paretoEPS,
    Bool.and_eq_false_iff, Bool.or_eq_false_iff, Bool.and_eq_true,
    decide_eq_true_eq, decide_eq_false_iff_not]
  norm_num

/-- The two-row cohort keeps only row A on the front. -/
theorem cex_front_eq :
    paretoFront [cexRowA, cexRowB] buildObjectives = [cexRowA] := by
  simp [paretoFront, List.enum, List.enumFrom, List.filter, List.any,
    cex_dominates_AB, cex_not_dominates_BA, dominates_self_false]

/-- The rows of the counterexample cohort differ. -/
theorem cex_rows_ne : cexRowB ≠ cexRowA := by
  intro h
  have := congrArg EnrichedAlgorithmResult.algorithm h
  simp [cexRowA, cexRowB] at this

/-- Counterexample to C7 as stated: in the cohort [A, B] no row exactly
dominates B, yet paretoFront excludes B. -/
theorem paretoFront_exact_domination_counterexample :
    cexRowB ∈ [cexRowA, cexRowB] ∧
    (∀ y ∈ [cexRowA, cexRowB], specDominates y cexRowB buildObjectives = false) ∧
    cexRowB ∉ paretoFront [cexRowA, cexRowB] buildObjectives := by
  refine ⟨by simp, ?_, ?_⟩
  · intro y hy
    rw [List.mem_cons, List.mem_singleton] at hy
    have hB : specDominates cexRowB cexRowB buildObjectives = false := by
      simp only [specDominates, buildObjectives, List.any_cons, List.any_nil,
        cexRowB]
      norm_num
    have hA : specDominates cexRowA cexRowB buildObjectives = false := by
      simp only [specDominates, buildObjectives, List.all_cons, List.all_nil,
        cexRowA, cexRowB]
      norm_num
    rcases hy with h | h <;> rw [h]
    · exact hA
    · exact hB
  · rw [cex_front_eq, List.mem_singleton]
    exact cex_rows_ne

/-- C7 (amended): paretoFront excludes a row exactly when some other row
dominates it under the epsilon-tolerant relation of the code: no worse
than within EPS = 1e-9 on every objective (direction applied) and better
by more than EPS on at least one. -/
theorem paretoFront_mem_iff (rows : List EnrichedAlgorithmResult)
    (x : EnrichedAlgorithmResult) :
    x ∈ paretoFront rows buildObjectives ↔
      x ∈ rows ∧ ∀ y ∈ rows, dominates y x buildObjectives = false := by
  constructor
  · intro hx
    rw [paretoFront, List.mem_map] at hx
    obtain ⟨p, hp, hpx⟩ := hx
    rw [List.mem_filter] at hp
    obtain ⟨hpe, hflt⟩ := hp
    subst hpx
    have hmem : p.2 ∈ rows := by
      rcases p with ⟨i, a⟩
      rw [List.mk_mem_enum_iff_getElem?] at hpe
      exact List.getElem?_mem hpe
    refine ⟨hmem, ?_⟩
    intro y hy
    by_contra hdom
    rw [Bool.not_eq_false] at hdom
    obtain ⟨j, hj⟩ := List.getElem?_of_mem hy
    have hq : (j, y) ∈ rows.enum := by
      rw [List.mk_mem_enum_iff_getElem?]; exact hj
    rw [Bool.not_eq_true', List.any_eq_false] at hflt
    have hthis := hflt (j, y) hq
    rw [Bool.and_eq_true, not_and] at hthis
    by_cases hji : j = p.1
    · subst hji
      rcases p with ⟨i, a⟩
      rw [List.mk_mem_enum_iff_getElem?] at hpe
      simp only at hpe hj hdom
      have hya : y = a := Option.some_injective _ (hj.symm.trans hpe)
      subst hya
      rw [dominates_self_false] at hdom
      exact Bool.false_ne_true hdom
    · exact hthis (by simpa using hji) hdom
  · rintro ⟨hmem, hnone⟩
    obtain ⟨i, hi⟩ := List.getElem?_of_mem hmem
    rw [paretoFront, List.mem_map]
    refine ⟨(i, x), ?_, rfl⟩
    rw [List.mem_filter]
    refine ⟨by rw [List.mk_mem_enum_iff_getElem?]; exact hi, ?_⟩
    rw [Bool.not_eq_true', List.any_eq_false]
    rintro ⟨j, y⟩ hq
    rw [List.mk_mem_enum_iff_getElem?] at hq
    have hymem : y ∈ rows := List.getElem?_mem hq
    have := hnone y hymem
    simp [this]

/- ## Section 3: Robust normalization (frontend/src/lib/recommend/
normalize.ts).  JS numbers are modelled as rationals; every rational is
finite, so the Number.isFinite filter and guards are identities here.  The
sigmoid (which is transcendental) is passed as an explicit function
parameter; the all-equal-inputs claim holds for every choice of it. -/

/-- Metric direction ("low" | "high"). -/
inductive MetricDirection where
  | low
  | high
  deriving DecidableEq, Repr

/-- Epsilon used by normalize.ts (EPS = 1e-6). -/
def normEPS : ℚ := 1 / 1000000

/-- Minimum of a list (Math.min over a non-empty spread; 0 is never used
because callers guard against emptiness). -/
def listMin : List ℚ → ℚ
  | [] => 0
  | x :: xs => xs.foldl min x

/-- Maximum of a list (Math.max over a non-empty spread). -/
def listMax : List ℚ → ℚ
  | [] => 0
  | x :: xs => xs.foldl max x

/-- Model of percentile: sort ascending, interpolate linearly between the
two neighbouring ranks. -/
def percentileSorted (sorted : List ℚ) (position : ℚ) : ℚ :=
  if ⌊position⌋ = ⌈position⌉ then sorted.getD (⌊position⌋).toNat 0
  else
    sorted.getD (⌊position⌋).toNat 0 * (1 - (position - (⌊position⌋ : ℚ))) +
      sorted.getD (⌈position⌉).toNat 0 * (position - (⌊position⌋ : ℚ))

/-- Rank interpolation applied to the sorted cohort. -/
def percentile (values : List ℚ) (q : ℚ) : ℚ :=
  if values.length = 0 then 0
  else
    percentileSorted (values.mergeSort fun a b => decide (a ≤ b))
      ((q / 100) * ((values.length : ℚ) - 1))

/-- Scale derived per metric cohort. -/
structure Scale where
  median : ℚ
  iqr : ℚ
  min : ℚ
  max : ℚ
  useMinMax : Bool
  deriving Repr

/-- Model of buildScale.  In the rational model every value is finite, so
the finite sublist equals values itself. -/
def buildScale (values : List ℚ) : Scale :=
  if values.length = 0 then
    { median := 0, iqr := 0, min := 0, max := 0, useMinMax := true }
  else
    let mn := listMin values
    let mx := listMax values
    let median := percentile values 50
    let q1 := percentile values 25
    let q3 := percentile values 75
    let iqr := q3 - q1
    { median := median, iqr := iqr, min := mn, max := mx
      useMinMax := decide (|iqr| < normEPS) }

/-- Model of robustNormalizeMetric, parameterised by the sigmoid. -/
def robustNormalizeMetric (sigm : ℚ → ℚ) (values : List ℚ)
    (direction : MetricDirection) : List ℚ :=
  let scale := buildScale values
  if scale.useMinMax then
    let range := scale.max - scale.min
    values.map fun value =>
      if |range| < normEPS then 1 / 2
      else
        let minMax := (value - scale.min) / range
        match direction with
        | .low => minMax
        | .high => 1 - minMax
  else
    values.map fun value =>
      let robustZ := (value - scale.median) / max scale.iqr normEPS
      match direction with
      | .low => sigm robustZ
      | .high => sigm (-robustZ)


/-- Folding min from a seed equal to the constant stays at the constant. -/
theorem foldl_min_all_eq (xs : List ℚ) :
    ∀ (a v : ℚ), a = v → (∀ x ∈ xs, x = v) → xs.foldl min a = v := by
  induction xs with
  | nil => intro a v ha _; simpa using ha
  | cons y ys ih =>
      intro a v ha hall
      rw [List.foldl_cons]
      refine ih _ v ?_ fun z hz => hall z (by simp [hz])
      rw [ha, hall y (by simp), min_self]

/-- Folding max from a seed equal to the constant stays at the constant. -/
theorem foldl_max_all_eq (xs : List ℚ) :
    ∀ (a v : ℚ), a = v → (∀ x ∈ xs, x = v) → xs.foldl max a = v := by
  induction xs with
  | nil => intro a v ha _; simpa using ha
  | cons y ys ih =>
      intro a v ha hall
      rw [List.foldl_cons]
      refine ih _ v ?_ fun z hz => hall z (by simp [hz])
      rw [ha, hall y (by simp), max_self]

/-- listMin of a non-empty constant list is the constant. -/
theorem listMin_all_eq (values : List ℚ) (v : ℚ)
    (hall : ∀ x ∈ values, x = v) (hne : values ≠ []) : listMin values = v := by
  match values with
  | [] => exact absurd rfl hne
  | x :: xs =>
      rw [listMin]
      exact foldl_min_all_eq xs x v (hall x (by simp))
        fun z hz => hall z (by simp [hz])

/-- listMax of a non-empty constant list is the constant. -/
theorem listMax_all_eq (values : List ℚ) (v : ℚ)
    (hall : ∀ x ∈ values, x = v) (hne : values ≠ []) : listMax values = v := by
  match values with
  | [] => exact absurd rfl hne
  | x :: xs =>
      rw [listMax]
      exact foldl_max_all_eq xs x v (hall x (by simp))
        fun z hz => hall z (by simp [hz])

/-- getD on a constant list at a valid index is the constant. -/
theorem getD_all_eq (l : List ℚ) (v d : ℚ) (i : Nat)
    (hall : ∀ x ∈ l, x = v) (hi : i < l.length) : l.getD i d = v := by
  rw [List.getD_eq_getElem?_getD, List.getElem?_eq_getElem hi]
  exact hall _ (List.getElem_mem hi)

/-- Rank interpolation over a constant sorted list yields the constant,
for positions within [0, length - 1]. -/
theorem percentileSorted_all_eq (sorted : List ℚ) (v : ℚ) (position : ℚ)
    (hall : ∀ x ∈ sorted, x = v)
    (h0 : 0 ≤ position) (h1 : position ≤ (sorted.length : ℚ) - 1) :
    percentileSorted sorted position = v := by
  have hfl0 : 0 ≤ ⌊position⌋ := Int.floor_nonneg.mpr h0
  have hceil : ⌈position⌉ ≤ (sorted.length : Int) - 1 := by
    refine Int.ceil_le.mpr ?_
    push_cast
    exact h1
  have hflle : ⌊position⌋ ≤ ⌈position⌉ := Int.floor_le_ceil position
  have hlow_lt : (⌊position⌋).toNat < sorted.length := by omega
  have hup_lt : (⌈position⌉).toNat < sorted.length := by omega
  have hgl : sorted.getD (⌊position⌋).toNat 0 = v :=
    getD_all_eq _ v 0 _ hall hlow_lt
  have hgu : sorted.getD (⌈position⌉).toNat 0 = v :=
    getD_all_eq _ v 0 _ hall hup_lt
  rw [percentileSorted]
  by_cases heq : ⌊position⌋ = ⌈position⌉
  · rw [if_pos heq, hgl]
  · rw [if_neg heq, hgl, hgu]
    ring

/-- Percentile of a constant cohort is the constant, for 0 ≤ q ≤ 100. -/
theorem percentile_all_eq (values : List ℚ) (v : ℚ) (q : ℚ)
    (hall : ∀ x ∈ values, x = v) (hne : values ≠ [])
    (hq0 : 0 ≤ q) (hq1 : q ≤ 100) : percentile values q = v := by
  have hlen : values.length ≠ 0 := by
    simpa [List.length_eq_zero] using hne
  have hlen1 : 1 ≤ values.length := Nat.one_le_iff_ne_zero.mpr hlen
  rw [percentile, if_neg hlen]
  have hsorted : ∀ x ∈ values.mergeSort fun a b => decide (a ≤ b), x = v :=
    fun x hx => hall x ((List.mergeSort_perm values _).mem_iff.mp hx)
  have hslen : (values.mergeSort fun a b => decide (a ≤ b)).length
      = values.length := List.length_mergeSort values
  have hcast : (1 : ℚ) ≤ (values.length : ℚ) := by exact_mod_cast hlen1
  refine percentileSorted_all_eq _ v _ hsorted ?_ ?_
  · apply mul_nonneg (by positivity)
    linarith
  · rw [hslen]
    have hq100 : q / 100 ≤ 1 := by linarith
    have hnn : (0 : ℚ) ≤ (values.length : ℚ) - 1 := by linarith
    calc (q / 100) * ((values.length : ℚ) - 1)
        ≤ 1 * ((values.length : ℚ) - 1) := mul_le_mul_of_nonneg_right hq100 hnn
      _ = (values.length : ℚ) - 1 := one_mul _

/-- C8: on a non-empty cohort of all-equal (finite) inputs,
robustNormalizeMetric yields 0.5 for every entry, in both directions and
for every sigmoid. -/
theorem robustNormalize_all_equal (sigm : ℚ → ℚ) (values : List ℚ) (v : ℚ)
    (direction : MetricDirection)
    (hne : values ≠ []) (hall : ∀ x ∈ values, x = v) :
    robustNormalizeMetric sigm values direction =
      values.map fun _ => (1 / 2 : ℚ) := by
  have hlen : ¬ values.length = 0 := by
    simpa [List.length_eq_zero] using hne
  have hq50 : percentile values 50 = v :=
    percentile_all_eq values v 50 hall hne (by norm_num) (by norm_num)
  have hq25 : percentile values 25 = v :=
    percentile_all_eq values v 25 hall hne (by norm_num) (by norm_num)
  have hq75 : percentile values 75 = v :=
    percentile_all_eq values v 75 hall hne (by norm_num) (by norm_num)
  have hscale : buildScale values =
      { median := v, iqr := 0, min := v, max := v, useMinMax := true } := by
    rw [buildScale, if_neg hlen]
    simp only [hq50, hq25, hq75, listMin_all_eq values v hall hne,
      listMax_all_eq values v hall hne, sub_self, abs_zero]
    norm_num [normEPS]
  have habs : |(0 : ℚ)| < normEPS := by norm_num [normEPS]
  simp only [robustNormalizeMetric, hscale, if_true, sub_self, habs, if_pos]

/- ## Section 4: page replacement (frontend/src/lib/memory/fifo.ts, opt.ts,
lru.ts (in types.ts), lfu.ts, index.ts).  Reference strings are modelled as
the normalised natural-number lists produced by parseReferenceString, on
which the per-step clamp max(0, floor(rawRef)) is the identity.  The LRU and
LFU runners can throw ("invariant broken: missing victim"), so they are
modelled as Option-valued; the other runners are total. -/

/-- One per-reference step record. -/
structure MemStep where
  t : Nat
  ref : Nat
  frames : List (Option Nat)
  hit : Bool
  evicted : Option Nat
  deriving DecidableEq, Repr, Inhabited

/-- Result of a full run. -/
structure MemResult where
  steps : List MemStep
  faults : Nat
  hits : Nat
  hitRatio : ℚ
  deriving DecidableEq, Repr

/-- Shared result shape of every runner: hitRatio is hits/total when any
reference was processed, otherwise 0. -/
def mkMemResult (steps : List MemStep) (hits faults : Nat) : MemResult :=
  { steps := steps, faults := faults, hits := hits
    hitRatio :=
      if hits + faults > 0 then (hits : ℚ) / ((hits + faults : Nat) : ℚ)
      else 0 }

/-- Loop of runFIFO: on a miss fill the first free frame, else evict at the
round-robin pointer. -/
def runFIFOGo (fc : Nat) (frames : List (Option Nat))
    (pointer t hits faults : Nat) :
    List Nat → (List MemStep × Nat × Nat)
  | [] => ([], hits, faults)
  | ref :: rest =>
      if frames.contains (some ref) then
        let out := runFIFOGo fc frames pointer (t + 1) (hits + 1) faults rest
        ({ t := t, ref := ref, frames := frames, hit := true,
           evicted := none } :: out.1, out.2)
      else if frames.contains none then
        let slot := frames.findIdx fun f => f == none
        let frames' := frames.set slot (some ref)
        let out := runFIFOGo fc frames' pointer (t + 1) hits (faults + 1) rest
        ({ t := t, ref := ref, frames := frames', hit := false,
           evicted := none } :: out.1, out.2)
      else
        let victim := frames.getD pointer none
        let frames' := frames.set pointer (some ref)
        let out := runFIFOGo fc frames' ((pointer + 1) % fc) (t + 1) hits
          (faults + 1) rest
        ({ t := t, ref := ref, frames := frames', hit := false,
           evicted := victim } :: out.1, out.2)

/-- Model of runFIFO. -/
def runFIFO (framesCount : Nat) (refs : List Nat) : MemResult :=
  let frameCount := max 1 framesCount
  let out := runFIFOGo frameCount (List.replicate frameCount none) 0 0 0 0 refs
  mkMemResult out.1 out.2.1 out.2.2

/-- Index of the next use of a page in the future reference string
(JS findIndex; none models -1, i.e. never referenced again). -/
def nextUse (future : List Nat) (page : Nat) : Option Nat :=
  future.findIdx? fun candidate => candidate == page

/-- Comparison of next-use distances where none stands for +infinity:
distLE a b says a is no farther than b. -/
def distLE (a b : Option Nat) : Bool :=
  match a, b with
  | _, none => true
  | none, some _ => false
  | some x, some y => decide (x ≤ y)

/-- Strictly-farther test (the JS comparison distance > farthest on numbers
extended with +infinity). -/
def distGT (a b : Option Nat) : Bool :=
  match a, b with
  | none, none => false
  | none, some _ => true
  | some _, none => false
  | some x, some y => decide (y < x)

/-- Victim scan of runOPT: walk the frames, skip free ones, track the slot
whose page has the farthest next use; the initial farthest of -1 is
modelled by the outer none. -/
def optScan (future : List Nat) :
    List (Nat × Option Nat) → Nat × Option (Option Nat) →
    Nat × Option (Option Nat)
  | [], st => st
  | (idx, pageSlot) :: rest, (slot, far) =>
      match pageSlot with
      | none => optScan future rest (slot, far)
      | some page =>
          let distance := nextUse future page
          let better :=
            match far with
            | none => true
            | some farthest => distGT distance farthest
          if better then optScan future rest (idx, some distance)
          else optScan future rest (slot, far)

/-- Loop of runOPT. -/
def runOPTGo (fc : Nat) (frames : List (Option Nat)) (t hits faults : Nat) :
    List Nat → (List MemStep × Nat × Nat)
  | [] => ([], hits, faults)
  | ref :: rest =>
      if frames.contains (some ref) then
        let out := runOPTGo fc frames (t + 1) (hits + 1) faults rest
        ({ t := t, ref := ref, frames := frames, hit := true,
           evicted := none } :: out.1, out.2)
      else if frames.contains none then
        let slot := frames.findIdx fun f => f == none
        let frames' := frames.set slot (some ref)
        let out := runOPTGo fc frames' (t + 1) hits (faults + 1) rest
        ({ t := t, ref := ref, frames := frames', hit := false,
           evicted := none } :: out.1, out.2)
      else
        let victimSlot := (optScan rest frames.enum (0, none)).1
        let victim := frames.getD victimSlot none
        let frames' := frames.set victimSlot (some ref)
        let out := runOPTGo fc frames' (t + 1) hits (faults + 1) rest
        ({ t := t, ref := ref, frames := frames', hit := false,
           evicted := victim } :: out.1, out.2)

/-- Model of runOPT. -/
def runOPT (framesCount : Nat) (refs : List Nat) : MemResult :=
  let frameCount := max 1 framesCount
  let out := runOPTGo frameCount (List.replicate frameCount none) 0 0 0 refs
  mkMemResult out.1 out.2.1 out.2.2

/-- Functional mirror of the LRU recency list (the doubly linked list plus
nodeMap): touch removes the page wherever it sits and appends it at the
back; for a page not in the list the removal is the identity, matching the
fresh-node path of touch. -/
def lruTouch (lru : List Nat) (page : Nat) : List Nat :=
  lru.erase page ++ [page]

/-- Loop of runLRU; none models the "LRU invariant broken" throw. -/
def runLRUGo (fc : Nat) (frames : List (Option Nat)) (lru : List Nat)
    (t hits faults : Nat) :
    List Nat → Option (List MemStep × Nat × Nat)
  | [] => some ([], hits, faults)
  | ref :: rest =>
      if frames.contains (some ref) then
        (runLRUGo fc frames (lruTouch lru ref) (t + 1) (hits + 1) faults
          rest).map fun out =>
          ({ t := t, ref := ref, frames := frames, hit := true,
             evicted := none } :: out.1, out.2)
      else if frames.contains none then
        let slot := frames.findIdx fun f => f == none
        let frames' := frames.set slot (some ref)
        (runLRUGo fc frames' (lruTouch lru ref) (t + 1) hits (faults + 1)
          rest).map fun out =>
          ({ t := t, ref := ref, frames := frames', hit := false,
             evicted := none } :: out.1, out.2)
      else
        match lru with
        | [] => none
        | victim :: lrest =>
            let slot := frames.findIdx fun f => f == some victim
            let frames' := frames.set slot (some ref)
            (runLRUGo fc frames' (lruTouch lrest ref) (t + 1) hits
              (faults + 1) rest).map fun out =>
              ({ t := t, ref := ref, frames := frames', hit := false,
                 evicted := some victim } :: out.1, out.2)

/-- Model of runLRU. -/
def runLRU (framesCount : Nat) (refs : List Nat) : Option MemResult :=
  let frameCount := max 1 framesCount
  (runLRUGo frameCount (List.replicate frameCount none) [] 0 0 0 refs).map
    fun out => mkMemResult out.1 out.2.1 out.2.2

/-- Lookup in an association list keyed by naturals (the JS Map get,
first match wins). -/
def alGet {α : Type} : List (Nat × α) → Nat → Option α
  | [], _ => none
  | (k₀, v₀) :: rest, k => if k₀ = k then some v₀ else alGet rest k

/-- Update/insert in an association list (the JS Map set). -/
def alSet {α : Type} : List (Nat × α) → Nat → α → List (Nat × α)
  | [], k, v => [(k, v)]
  | (k₀, v₀) :: rest, k, v =>
      if k₀ = k then (k, v) :: rest else (k₀, v₀) :: alSet rest k v

/-- Key removal from an association list (the JS Map delete). -/
def alErase {α : Type} : List (Nat × α) → Nat → List (Nat × α)
  | [], _ => []
  | (k₀, v₀) :: rest, k => if k₀ = k then rest else (k₀, v₀) :: alErase rest k

/-- LFU touch: move the page from its frequency bucket to the next one;
if its old bucket empties it is deleted and minFreq advances when it was
pointing there.  Returns the new (pageToNode, buckets, minFreq). -/
def lfuTouch (p2n : List (Nat × Nat)) (buckets : List (Nat × List Nat))
    (minFreq page freq : Nat) :
    List (Nat × Nat) × List (Nat × List Nat) × Nat :=
  let bm :=
    match alGet buckets freq with
    | none => (buckets, minFreq)
    | some bl =>
        let bl' := bl.erase page
        if bl'.isEmpty then
          (alErase buckets freq, if minFreq = freq then freq + 1 else minFreq)
        else (alSet buckets freq bl', minFreq)
  let buckets₂ := alSet bm.1 (freq + 1)
    (((alGet bm.1 (freq + 1)).getD []) ++ [page])
  (alSet p2n page (freq + 1), buckets₂, bm.2)

/-- Loop of runLFU; none models the "LFU invariant broken" throw. -/
def runLFUGo (fc : Nat) (frames : List (Option Nat))
    (p2n : List (Nat × Nat)) (buckets : List (Nat × List Nat))
    (minFreq t hits faults : Nat) :
    List Nat → Option (List MemStep × Nat × Nat)
  | [] => some ([], hits, faults)
  | ref :: rest =>
      match alGet p2n ref with
      | some freq =>
          let tb := lfuTouch p2n buckets minFreq ref freq
          (runLFUGo fc frames tb.1 tb.2.1 tb.2.2 (t + 1) (hits + 1) faults
            rest).map fun out =>
            ({ t := t, ref := ref, frames := frames, hit := true,
               evicted := none } :: out.1, out.2)
      | none =>
          let evictOut :
              Option (List (Option Nat) × List (Nat × Nat) ×
                List (Nat × List Nat) × Option Nat) :=
            if p2n.length ≥ fc then
              match alGet buckets minFreq with
              | none => none
              | some bl =>
                  match bl with
                  | [] => none
                  | victim :: btail =>
                      let slot := frames.findIdx fun f => f == some victim
                      let frames₁ := frames.set slot none
                      let p2n₁ := alErase p2n victim
                      let buckets₁ := alSet buckets minFreq btail
                      let buckets₂ :=
                        if btail.isEmpty then alErase buckets₁ minFreq
                        else buckets₁
                      some (frames₁, p2n₁, buckets₂, some victim)
            else some (frames, p2n, buckets, none)
          match evictOut with
          | none => none
          | some (frames₁, p2n₁, buckets₁, evicted) =>
              let targetSlot :=
                if frames₁.contains none then frames₁.findIdx fun f => f == none
                else 0
              let frames₂ := frames₁.set targetSlot (some ref)
              let p2n₂ := alSet p2n₁ ref 1
              let buckets₂ := alSet buckets₁ 1
                (((alGet buckets₁ 1).getD []) ++ [ref])
              (runLFUGo fc frames₂ p2n₂ buckets₂ 1 (t + 1) hits (faults + 1)
                rest).map fun out =>
                ({ t := t, ref := ref, frames := frames₂, hit := false,
                   evicted := evicted } :: out.1, out.2)

/-- Model of runLFU. -/
def runLFU (framesCount : Nat) (refs : List Nat) : Option MemResult :=
  let frameCount := max 1 framesCount
  (runLFUGo frameCount (List.replicate frameCount none) [] [] 0 0 0 0
    refs).map fun out => mkMemResult out.1 out.2.1 out.2.2

/-- Replacement algorithm selector. -/
inductive MemoryAlgorithm where
  | FIFO
  | LRU
  | LFU
  | OPT
  deriving DecidableEq, Repr

/-- Model of runMemoryAlgorithm from memory/index.ts (the fall-through
default is LRU). -/
def runMemoryAlgorithm (algo : MemoryAlgorithm) (frames : Nat)
    (refs : List Nat) : Option MemResult :=
  match algo with
  | .FIFO => some (runFIFO frames refs)
  | .LFU => runLFU frames refs
  | .OPT => some (runOPT frames refs)
  | .LRU => runLRU frames refs

/-- Pairwise-distinct residency, stated over indices. -/
def FramesDistinct (l : List (Option Nat)) : Prop :=
  ∀ (i j p : Nat), i ≠ j → l[i]? = some (some p) → l[j]? = some (some p) →
    False

/-- Cons characterisation of FramesDistinct. -/
theorem framesDistinct_cons (a : Option Nat) (t : List (Option Nat)) :
    FramesDistinct (a :: t) ↔
      ((∀ p : Nat, a = some p → (some p) ∉ t) ∧ FramesDistinct t) := by
  unfold FramesDistinct
  constructor
  · intro h
    refine ⟨?_, ?_⟩
    · intro p hp hmem
      obtain ⟨j, hj⟩ := List.getElem?_of_mem hmem
      exact h 0 (j + 1) p (by omega) (by simp [hp])
        (by simpa using hj)
    · intro i j p hij hi hj
      exact h (i + 1) (j + 1) p (by omega) (by simpa using hi)
        (by simpa using hj)
  · rintro ⟨ha, ht⟩ i j p hij hi hj
    match i, j with
    | 0, 0 => omega
    | 0, j + 1 =>
        simp only [List.getElem?_cons_zero, Option.some_inj] at hi
        simp only [List.getElem?_cons_succ] at hj
        exact ha p hi (List.getElem?_mem hj)
    | i + 1, 0 =>
        simp only [List.getElem?_cons_zero, Option.some_inj] at hj
        simp only [List.getElem?_cons_succ] at hi
        exact ha p hj (List.getElem?_mem hi)
    | i + 1, j + 1 =>
        simp only [List.getElem?_cons_succ] at hi hj
        exact ht i j p (by omega) hi hj

/-- FramesDistinct is the index form of "the non-free entries are pairwise
distinct". -/
theorem framesDistinct_iff_nodup (l : List (Option Nat)) :
    FramesDistinct l ↔ (l.filterMap id).Nodup := by
  induction l with
  | nil =>
      constructor
      · intro _; simp
      · intro _
        unfold FramesDistinct
        intro i j p _ hi _
        simp at hi
  | cons a t ih =>
      rw [framesDistinct_cons, ih]
      match a with
      | none =>
          rw [show List.filterMap id (none :: t) = List.filterMap id t from rfl]
          constructor
          · rintro ⟨_, h⟩; exact h
          · intro h
            exact ⟨fun p hp => absurd hp (by simp), h⟩
      | some x =>
          rw [show List.filterMap id (some x :: t) = x :: List.filterMap id t
            from rfl, List.nodup_cons]
          constructor
          · rintro ⟨h1, h2⟩
            refine ⟨?_, h2⟩
            intro hmem
            rw [List.mem_filterMap] at hmem
            obtain ⟨b, hb, hbx⟩ := hmem
            exact h1 x rfl (by simpa [← hbx] using hb)
          · rintro ⟨h1, h2⟩
            refine ⟨?_, h2⟩
            rintro p hp hmem
            rw [Option.some_inj] at hp
            subst hp
            exact h1 (List.mem_filterMap.mpr ⟨some x, hmem, rfl⟩)

/-- Initial frame table: all frames free. -/
theorem framesDistinct_replicate (n : Nat) :
    FramesDistinct (List.replicate n none) := by
  unfold FramesDistinct
  intro i j p _ hi _
  rcases Nat.lt_or_ge i n with h | h
  · rw [List.getElem?_replicate, if_pos h] at hi
    simp at hi
  · rw [List.getElem?_replicate, if_neg (by omega)] at hi
    simp at hi

/-- Installing a page that is not resident keeps residency distinct. -/
theorem framesDistinct_set_new (l : List (Option Nat)) (k : Nat) (x : Nat)
    (hx : (some x) ∉ l) (h : FramesDistinct l) :
    FramesDistinct (l.set k (some x)) := by
  unfold FramesDistinct at h ⊢
  intro i j p hij hi hj
  rw [List.getElem?_set] at hi hj
  by_cases hik : k = i
  · rw [if_pos hik] at hi
    have hjk : ¬ k = j := fun hc => hij (hik ▸ hc ▸ rfl)
    rw [if_neg hjk] at hj
    by_cases hlt : k < l.length
    · rw [if_pos hlt] at hi
      have hpx : x = p := by simpa using hi
      subst hpx
      exact hx (List.getElem?_mem hj)
    · rw [if_neg hlt] at hi
      simp at hi
  · rw [if_neg hik] at hi
    by_cases hjk : k = j
    · rw [if_pos hjk] at hj
      by_cases hlt : k < l.length
      · rw [if_pos hlt] at hj
        have hpx : x = p := by simpa using hj
        subst hpx
        exact hx (List.getElem?_mem hi)
      · rw [if_neg hlt] at hj
        simp at hj
    · rw [if_neg hjk] at hj
      exact h i j p hij hi hj

/-- Freeing a frame keeps residency distinct. -/
theorem framesDistinct_set_none (l : List (Option Nat)) (k : Nat)
    (h : FramesDistinct l) : FramesDistinct (l.set k none) := by
  unfold FramesDistinct at h ⊢
  intro i j p hij hi hj
  rw [List.getElem?_set] at hi hj
  by_cases hik : k = i
  · rw [if_pos hik] at hi
    by_cases hlt : k < l.length
    · rw [if_pos hlt] at hi; simp at hi
    · rw [if_neg hlt] at hi; simp at hi
  · rw [if_neg hik] at hi
    by_cases hjk : k = j
    · rw [if_pos hjk] at hj
      by_cases hlt : k < l.length
      · rw [if_pos hlt] at hj; simp at hj
      · rw [if_neg hlt] at hj; simp at hj
    · rw [if_neg hjk] at hj
      exact h i j p hij hi hj

/-- Bool contains agrees with membership. -/
theorem contains_iff_mem {α : Type} [BEq α] [LawfulBEq α] (l : List α)
    (a : α) : l.contains a = true ↔ a ∈ l :=
  List.elem_iff

/-- Combined induction for runFIFO: one step per reference, hits + faults
grow by exactly the number of references, and every per-step frame snapshot
keeps residency pairwise distinct. -/
theorem runFIFOGo_spec (fc : Nat) (refs : List Nat) :
    ∀ frames pointer t hits faults, FramesDistinct frames →
      (runFIFOGo fc frames pointer t hits faults refs).1.length = refs.length ∧
      (runFIFOGo fc frames pointer t hits faults refs).2.1 +
        (runFIFOGo fc frames pointer t hits faults refs).2.2 =
        hits + faults + refs.length ∧
      ∀ step ∈ (runFIFOGo fc frames pointer t hits faults refs).1,
        FramesDistinct step.frames := by
  induction refs with
  | nil =>
      intro frames pointer t hits faults hfd
      refine ⟨rfl, by simp [runFIFOGo], ?_⟩
      intro step hstep
      simp [runFIFOGo] at hstep
  | cons ref rest ih =>
      intro frames pointer t hits faults hfd
      by_cases h1 : frames.contains (some ref) = true
      · obtain ⟨ihl, ihc, ihd⟩ := ih frames pointer (t + 1) (hits + 1) faults hfd
        simp only [runFIFOGo, if_pos h1, List.length_cons]
        refine ⟨by rw [ihl], by omega, ?_⟩
        intro step hstep
        rcases List.mem_cons.mp hstep with h | h
        · subst h; exact hfd
        · exact ihd step h
      · have hnm : (some ref) ∉ frames := fun hm =>
          h1 ((contains_iff_mem frames (some ref)).mpr hm)
        by_cases h2 : frames.contains none = true
        · have hfd' : FramesDistinct
              (frames.set (frames.findIdx fun f => f == none) (some ref)) :=
            framesDistinct_set_new _ _ _ hnm hfd
          obtain ⟨ihl, ihc, ihd⟩ := ih _ pointer (t + 1) hits (faults + 1) hfd'
          simp only [runFIFOGo, if_neg h1, if_pos h2, List.length_cons]
          refine ⟨by rw [ihl], by omega, ?_⟩
          intro step hstep
          rcases List.mem_cons.mp hstep with h | h
          · subst h; exact hfd'
          · exact ihd step h
        · have hfd' : FramesDistinct (frames.set pointer (some ref)) :=
            framesDistinct_set_new _ _ _ hnm hfd
          obtain ⟨ihl, ihc, ihd⟩ :=
            ih _ ((pointer + 1) % fc) (t + 1) hits (faults + 1) hfd'
          simp only [runFIFOGo, if_neg h1, if_neg h2, List.length_cons]
          refine ⟨by rw [ihl], by omega, ?_⟩
          intro step hstep
          rcases List.mem_cons.mp hstep with h | h
          · subst h; exact hfd'
          · exact ihd step h

/-- Combined induction for runOPT: step count, hit/fault totals, and
pairwise-distinct residency in every snapshot. -/
theorem runOPTGo_spec (fc : Nat) (refs : List Nat) :
    ∀ frames t hits faults, FramesDistinct frames →
      (runOPTGo fc frames t hits faults refs).1.length = refs.length ∧
      (runOPTGo fc frames t hits faults refs).2.1 +
        (runOPTGo fc frames t hits faults refs).2.2 =
        hits + faults + refs.length ∧
      ∀ step ∈ (runOPTGo fc frames t hits faults refs).1,
        FramesDistinct step.frames := by
  induction refs with
  | nil =>
      intro frames t hits faults hfd
      refine ⟨rfl, by simp [runOPTGo], ?_⟩
      intro step hstep
      simp [runOPTGo] at hstep
  | cons ref rest ih =>
      intro frames t hits faults hfd
      by_cases h1 : frames.contains (some ref) = true
      · obtain ⟨ihl, ihc, ihd⟩ := ih frames (t + 1) (hits + 1) faults hfd
        simp only [runOPTGo, if_pos h1, List.length_cons]
        refine ⟨by rw [ihl], by omega, ?_⟩
        intro step hstep
        rcases List.mem_cons.mp hstep with h | h
        · subst h; exact hfd
        · exact ihd step h
      · have hnm : (some ref) ∉ frames := fun hm =>
          h1 ((contains_iff_mem frames (some ref)).mpr hm)
        by_cases h2 : frames.contains none = true
        · have hfd' : FramesDistinct
              (frames.set (frames.findIdx fun f => f == none) (some ref)) :=
            framesDistinct_set_new _ _ _ hnm hfd
          obtain ⟨ihl, ihc, ihd⟩ := ih _ (t + 1) hits (faults + 1) hfd'
          simp only [runOPTGo, if_neg h1, if_pos h2, List.length_cons]
          refine ⟨by rw [ihl], by omega, ?_⟩
          intro step hstep
          rcases List.mem_cons.mp hstep with h | h
          · subst h; exact hfd'
          · exact ihd step h
        · have hfd' : FramesDistinct
              (frames.set (optScan rest frames.enum (0, none)).1 (some ref)) :=
            framesDistinct_set_new _ _ _ hnm hfd
          obtain ⟨ihl, ihc, ihd⟩ := ih _ (t + 1) hits (faults + 1) hfd'
          simp only [runOPTGo, if_neg h1, if_neg h2, List.length_cons]
          refine ⟨by rw [ihl], by omega, ?_⟩
          intro step hstep
          rcases List.mem_cons.mp hstep with h | h
          · subst h; exact hfd'
          · exact ihd step h

/-- distLE is reflexive. -/
theorem distLE_refl (a : Option Nat) : distLE a a = true := by
  cases a <;> simp [distLE]

/-- distLE is transitive. -/
theorem distLE_trans {a b c : Option Nat} (h1 : distLE a b = true)
    (h2 : distLE b c = true) : distLE a c = true := by
  cases a <;> cases b <;> cases c <;>
    simp_all [distLE] <;> omega

/-- Failing the strictly-farther test means being no farther. -/
theorem distLE_of_not_distGT {a b : Option Nat} (h : distGT a b = false) :
    distLE a b = true := by
  cases a <;> cases b <;> simp_all [distGT, distLE] <;> omega

/-- Passing the strictly-farther test means the other is no farther. -/
theorem distLE_of_distGT {a b : Option Nat} (h : distGT a b = true) :
    distLE b a = true := by
  cases a <;> cases b <;> simp_all [distGT, distLE] <;> omega

/-- Specification of the optScan fold: the final state either is the
initial one or points at a scanned occupied slot holding the tracked
distance; the tracked distance dominates every scanned page; and the
tracked distance never decreases. -/
theorem optScan_spec (future : List Nat) (l : List (Nat × Option Nat)) :
    ∀ slot far,
      (optScan future l (slot, far) = (slot, far) ∨
        ∃ q, ((optScan future l (slot, far)).1, some q) ∈ l ∧
          (optScan future l (slot, far)).2 = some (nextUse future q)) ∧
      (∀ i q, (i, some q) ∈ l →
        ∃ d', (optScan future l (slot, far)).2 = some d' ∧
          distLE (nextUse future q) d' = true) ∧
      (∀ d, far = some d →
        ∃ d', (optScan future l (slot, far)).2 = some d' ∧
          distLE d d' = true) := by
  induction l with
  | nil =>
      intro slot far
      refine ⟨Or.inl rfl, ?_, ?_⟩
      · intro i q hq; simp at hq
      · intro d hd
        exact ⟨d, by simp [optScan, hd], distLE_refl d⟩
  | cons hd_pair rest ih =>
      intro slot far
      obtain ⟨idx, pageSlot⟩ := hd_pair
      match pageSlot with
      | none =>
          have hscan : optScan future ((idx, none) :: rest) (slot, far) =
              optScan future rest (slot, far) := rfl
          obtain ⟨ihp, ihdom, ihmono⟩ := ih slot far
          rw [hscan]
          refine ⟨?_, ?_, ihmono⟩
          · rcases ihp with h | ⟨q, hq, hd⟩
            · exact Or.inl h
            · exact Or.inr ⟨q, List.mem_cons_of_mem _ hq, hd⟩
          · intro i q hq
            rcases List.mem_cons.mp hq with h | h
            · simp at h
            · exact ihdom i q h
      | some page =>
          match far with
          | none =>
              have hscan :
                  optScan future ((idx, some page) :: rest) (slot, none) =
                    optScan future rest (idx, some (nextUse future page)) := rfl
              obtain ⟨ihp, ihdom, ihmono⟩ := ih idx (some (nextUse future page))
              rw [hscan]
              refine ⟨?_, ?_, ?_⟩
              · rcases ihp with h | ⟨q, hq, hd⟩
                · right
                  refine ⟨page, ?_, ?_⟩
                  · rw [h]; exact List.mem_cons_self _ _
                  · rw [h]
                · exact Or.inr ⟨q, List.mem_cons_of_mem _ hq, hd⟩
              · intro i q hq
                rcases List.mem_cons.mp hq with h | h
                · have hqp : q = page := by
                    simpa using congrArg Prod.snd h
                  subst hqp
                  exact ihmono (nextUse future q) rfl
                · exact ihdom i q h
              · intro d hfar
                simp at hfar
          | some f =>
              have hscan :
                  optScan future ((idx, some page) :: rest) (slot, some f) =
                    if distGT (nextUse future page) f = true then
                      optScan future rest (idx, some (nextUse future page))
                    else optScan future rest (slot, some f) := rfl
              by_cases hgt : distGT (nextUse future page) f = true
              · rw [hscan, if_pos hgt]
                obtain ⟨ihp, ihdom, ihmono⟩ :=
                  ih idx (some (nextUse future page))
                refine ⟨?_, ?_, ?_⟩
                · rcases ihp with h | ⟨q, hq, hd⟩
                  · right
                    refine ⟨page, ?_, ?_⟩
                    · rw [h]; exact List.mem_cons_self _ _
                    · rw [h]
                  · exact Or.inr ⟨q, List.mem_cons_of_mem _ hq, hd⟩
                · intro i q hq
                  rcases List.mem_cons.mp hq with h | h
                  · have hqp : q = page := by
                      simpa using congrArg Prod.snd h
                    subst hqp
                    exact ihmono (nextUse future q) rfl
                  · exact ihdom i q h
                · intro d hfar
                  rw [Option.some_inj] at hfar
                  subst hfar
                  obtain ⟨d', hd', hle⟩ := ihmono (nextUse future page) rfl
                  exact ⟨d', hd', distLE_trans (distLE_of_distGT hgt) hle⟩
              · rw [hscan, if_neg hgt]
                obtain ⟨ihp, ihdom, ihmono⟩ := ih slot (some f)
                have hngt : distGT (nextUse future page) f = false := by
                  simpa using hgt
                refine ⟨?_, ?_, ihmono⟩
                · rcases ihp with h | ⟨q, hq, hd⟩
                  · exact Or.inl h
                  · exact Or.inr ⟨q, List.mem_cons_of_mem _ hq, hd⟩
                · intro i q hq
                  rcases List.mem_cons.mp hq with h | h
                  · have hqp : q = page := by
                      simpa using congrArg Prod.snd h
                    subst hqp
                    obtain ⟨d', hd', hle⟩ := ihmono f rfl
                    exact ⟨d', hd',
                      distLE_trans (distLE_of_not_distGT hngt) hle⟩
                  · exact ihdom i q h

/-- The victim chosen by the optScan fold is resident and its next use is
no nearer than that of any resident page. -/
theorem optVictim_correct (future : List Nat) (frames : List (Option Nat))
    (v : Nat)
    (hv : frames.getD (optScan future frames.enum (0, none)).1 none = some v) :
    (some v) ∈ frames ∧
      ∀ q, (some q) ∈ frames →
        distLE (nextUse future q) (nextUse future v) = true := by
  obtain ⟨hprov, hdom, _⟩ := optScan_spec future frames.enum 0 none
  have hslot : frames[(optScan future frames.enum (0, none)).1]? =
      some (some v) := by
    rw [List.getD_eq_getElem?_getD] at hv
    match hg : frames[(optScan future frames.enum (0, none)).1]? with
    | none => rw [hg] at hv; simp at hv
    | some w => rw [hg] at hv; simp at hv; rw [hv]
  have hvmem : (some v) ∈ frames := List.getElem?_mem hslot
  have hsnd : (optScan future frames.enum (0, none)).2 =
      some (nextUse future v) := by
    rcases hprov with h | ⟨q, hq, hd⟩
    · exfalso
      have henum : ((optScan future frames.enum (0, none)).1, some v) ∈
          frames.enum := by
        rw [List.mk_mem_enum_iff_getElem?]
        exact hslot
      obtain ⟨d', hd', _⟩ :=
        hdom (optScan future frames.enum (0, none)).1 v henum
      rw [h] at hd'
      simp at hd'
    · rw [List.mk_mem_enum_iff_getElem?] at hq
      have hqv : q = v := by
        rw [hq] at hslot
        simpa using hslot
      subst hqv
      exact hd
  refine ⟨hvmem, ?_⟩
  intro q hq
  obtain ⟨i, hi⟩ := List.getElem?_of_mem hq
  have henum : (i, some q) ∈ frames.enum := by
    rw [List.mk_mem_enum_iff_getElem?]; exact hi
  obtain ⟨d', hd', hle⟩ := hdom i q henum
  rw [hsnd] at hd'
  have hdv : nextUse future v = d' := by simpa using hd'
  rw [← hdv] at hle
  exact hle

/-- Default step record has no eviction. -/
theorem default_memstep_evicted : (default : MemStep).evicted = none := rfl

/-- Run-level eviction property of runOPT: whenever a step evicts v, the
page v was resident in the previous snapshot and its next use lies at
least as far as that of every resident page (never-used counts as
infinitely far). -/
theorem runOPTGo_evict (fc : Nat) (refs : List Nat) :
    ∀ frames t hits faults i v,
      ((runOPTGo fc frames t hits faults refs).1.getD i default).evicted =
        some v →
      (some v) ∈ (if i = 0 then frames
        else ((runOPTGo fc frames t hits faults refs).1.getD (i - 1)
          default).frames) ∧
      ∀ q, (some q) ∈ (if i = 0 then frames
          else ((runOPTGo fc frames t hits faults refs).1.getD (i - 1)
            default).frames) →
        distLE (nextUse (refs.drop (i + 1)) q)
          (nextUse (refs.drop (i + 1)) v) = true := by
  induction refs with
  | nil =>
      intro frames t hits faults i v hev
      rw [runOPTGo] at hev
      simp only [List.getD] at hev
      simp [default_memstep_evicted] at hev
  | cons ref rest ih =>
      intro frames t hits faults i v hev
      by_cases h1 : frames.contains (some ref) = true
      · simp only [runOPTGo, if_pos h1] at hev ⊢
        match i with
        | 0 =>
            simp only [List.getD_cons_zero] at hev
            simp at hev
        | i + 1 =>
            simp only [List.getD_cons_succ] at hev
            have := ih frames (t + 1) (hits + 1) faults i v hev
            match i with
            | 0 =>
                simpa only [List.getD_cons_zero, List.drop_succ_cons,
                  if_pos rfl] using this
            | i + 1 =>
                simpa only [List.getD_cons_succ, List.drop_succ_cons,
                  Nat.add_sub_cancel, if_neg (Nat.succ_ne_zero i)] using this
      · by_cases h2 : frames.contains none = true
        · simp only [runOPTGo, if_neg h1, if_pos h2] at hev ⊢
          match i with
          | 0 =>
              simp only [List.getD_cons_zero] at hev
              simp at hev
          | i + 1 =>
              simp only [List.getD_cons_succ] at hev
              have := ih _ (t + 1) hits (faults + 1) i v hev
              match i with
              | 0 =>
                  simpa only [List.getD_cons_zero, List.drop_succ_cons,
                    if_pos rfl] using this
              | i + 1 =>
                  simpa only [List.getD_cons_succ, List.drop_succ_cons,
                    Nat.add_sub_cancel, if_neg (Nat.succ_ne_zero i)] using this
        · simp only [runOPTGo, if_neg h1, if_neg h2] at hev ⊢
          match i with
          | 0 =>
              simp only [List.getD_cons_zero] at hev
              simp only [if_pos rfl, List.drop_succ_cons, List.drop_zero]
              exact optVictim_correct rest frames v hev
          | i + 1 =>
              simp only [List.getD_cons_succ] at hev
              have := ih _ (t + 1) hits (faults + 1) i v hev
              match i with
              | 0 =>
                  simpa only [List.getD_cons_zero, List.drop_succ_cons,
                    if_pos rfl] using this
              | i + 1 =>
                  simpa only [List.getD_cons_succ, List.drop_succ_cons,
                    Nat.add_sub_cancel, if_neg (Nat.succ_ne_zero i)] using this

/-- C5: on every fault of runOPT with no free frame (every step that
records an eviction), the evicted page was resident and its next
reference in the remaining reference string is farthest, pages never
referenced again counting as infinitely distant. -/
theorem runOPT_evicts_farthest (framesCount : Nat) (refs : List Nat)
    (i v : Nat) (hi : i < (runOPT framesCount refs).steps.length)
    (hev : ((runOPT framesCount refs).steps.getD i default).evicted = some v) :
    (some v) ∈ (if i = 0 then List.replicate (max 1 framesCount) none
      else ((runOPT framesCount refs).steps.getD (i - 1) default).frames) ∧
    ∀ q, (some q) ∈ (if i = 0 then List.replicate (max 1 framesCount) none
        else ((runOPT framesCount refs).steps.getD (i - 1) default).frames) →
      distLE (nextUse (refs.drop (i + 1)) q)
        (nextUse (refs.drop (i + 1)) v) = true := by
  have hsteps : (runOPT framesCount refs).steps =
      (runOPTGo (max 1 framesCount)
        (List.replicate (max 1 framesCount) none) 0 0 0 refs).1 := rfl
  rw [hsteps] at hev ⊢
  exact runOPTGo_evict (max 1 framesCount) refs
    (List.replicate (max 1 framesCount) none) 0 0 0 i v hev

/-- Witness for C5: two frames, reference string 0 1 2 0 3 0; at step 2
page 1 (never referenced again) is evicted. -/
theorem runOPT_evicts_farthest_witness :
    2 < (runOPT 2 [0, 1, 2, 0, 3, 0]).steps.length ∧
    ((runOPT 2 [0, 1, 2, 0, 3, 0]).steps.getD 2 default).evicted = some 1 ∧
    ((some 1) ∈ (if 2 = 0 then List.replicate (max 1 2) none
        else ((runOPT 2 [0, 1, 2, 0, 3, 0]).steps.getD (2 - 1) default).frames) ∧
      ∀ q, (some q) ∈ (if 2 = 0 then List.replicate (max 1 2) none
          else ((runOPT 2 [0, 1, 2, 0, 3, 0]).steps.getD (2 - 1)
            default).frames) →
        distLE (nextUse ([0, 1, 2, 0, 3, 0].drop (2 + 1)) q)
          (nextUse ([0, 1, 2, 0, 3, 0].drop (2 + 1)) 1) = true) :=
  ⟨by decide, by decide,
    runOPT_evicts_farthest 2 [0, 1, 2, 0, 3, 0] 2 1 (by decide) (by decide)⟩

/-- Witness for C8: the constant cohort [3, 3, 3] normalises to 0.5
everywhere (identity stands in for the sigmoid; the minmax path never
calls it). -/
theorem robustNormalize_all_equal_witness :
    (([3, 3, 3] : List ℚ) ≠ [] ∧ ∀ x ∈ ([3, 3, 3] : List ℚ), x = 3) ∧
    robustNormalizeMetric id [3, 3, 3] MetricDirection.low =
      ([3, 3, 3] : List ℚ).map fun _ => (1 / 2 : ℚ) :=
  ⟨⟨by simp, by intro x hx; simpa using hx⟩,
    robustNormalize_all_equal id [3, 3, 3] 3 MetricDirection.low (by simp)
      (by intro x hx; simpa using hx)⟩

/-- Index of the most recent reference of p in the processed prefix
(tracked with a running index through a fold). -/
def lastUse (l : List Nat) (p : Nat) : Option Nat :=
  (l.foldl (fun acc x => (acc.1 + 1, if x = p then some acc.1 else acc.2))
    (0, none)).2

/-- Strictly-earlier comparison of two optional last-use ticks. -/
def beforeOpt (a b : Option Nat) : Bool :=
  match a, b with
  | some x, some y => decide (x < y)
  | _, _ => false

/-- The running index of the lastUse fold advances by the list length. -/
theorem lastUse_foldl_fst (l : List Nat) (p : Nat) :
    ∀ a : Nat × Option Nat,
      (l.foldl (fun acc x =>
        (acc.1 + 1, if x = p then some acc.1 else acc.2)) a).1 =
      a.1 + l.length := by
  induction l with
  | nil => intro a; simp
  | cons x rest ih =>
      intro a
      rw [List.foldl_cons, ih]
      simp
      omega

/-- Appending one reference updates lastUse pointwise. -/
theorem lastUse_append (l : List Nat) (r p : Nat) :
    lastUse (l ++ [r]) p =
      if r = p then some l.length else lastUse l p := by
  rw [lastUse, List.foldl_append]
  simp only [List.foldl_cons, List.foldl_nil, lastUse]
  rw [lastUse_foldl_fst]
  simp

/-- Fold invariant: the tracked last use stays below the running index. -/
theorem lastUse_foldl_lt (p : Nat) (l : List Nat) :
    ∀ a : Nat × Option Nat, (∀ m, a.2 = some m → m < a.1) →
      ∀ m, (l.foldl (fun acc x =>
          (acc.1 + 1, if x = p then some acc.1 else acc.2)) a).2 = some m →
        m < (l.foldl (fun acc x =>
          (acc.1 + 1, if x = p then some acc.1 else acc.2)) a).1 := by
  induction l with
  | nil => intro a ha m hm; exact ha m hm
  | cons x rest ih =>
      intro a ha m hm
      rw [List.foldl_cons] at hm ⊢
      refine ih _ ?_ m hm
      intro m' hm'
      by_cases hx : x = p
      · rw [hx] at hm'
        simp at hm'
        show m' < a.1 + 1
        omega
      · simp only [if_neg hx] at hm'
        have := ha m' hm'
        show m' < a.1 + 1
        omega

/-- Any recorded last use lies inside the prefix. -/
theorem lastUse_lt_length (l : List Nat) (p k : Nat)
    (h : lastUse l p = some k) : k < l.length := by
  rw [lastUse] at h
  have := lastUse_foldl_lt p l (0, none) (by intro m hm; simp at hm) k h
  rw [lastUse_foldl_fst] at this
  omega

/-- Unchanged pages keep their last use when another page is appended. -/
theorem lastUse_append_ne (l : List Nat) (r p : Nat) (h : r ≠ p) :
    lastUse (l ++ [r]) p = lastUse l p := by
  rw [lastUse_append, if_neg h]

/-- beforeOpt is irreflexive. -/
theorem beforeOpt_irrefl (a : Option Nat) : beforeOpt a a = false := by
  cases a <;> simp [beforeOpt]

/-- Recency order over the processed prefix. -/
def RecOrder (past : List Nat) (a b : Nat) : Prop :=
  beforeOpt (lastUse past a) (lastUse past b) = true

/-- A recency-sorted list has no duplicates. -/
theorem recOrder_pairwise_nodup (past : List Nat) (l : List Nat)
    (h : List.Pairwise (RecOrder past) l) : l.Nodup := by
  refine List.Pairwise.imp ?_ h
  intro a b hab
  intro hc
  subst hc
  rw [RecOrder, beforeOpt_irrefl] at hab
  exact Bool.false_ne_true hab

/-- Touching a page keeps the recency list sorted and complete: every
member keeps a defined last use, and the appended page is most recent. -/
theorem recOrder_touch (past : List Nat) (l : List Nat) (ref : Nat)
    (hpw : List.Pairwise (RecOrder past) l)
    (hsome : ∀ p ∈ l, (lastUse past p).isSome = true) :
    List.Pairwise (RecOrder (past ++ [ref])) (l.erase ref ++ [ref]) ∧
      (∀ p ∈ l.erase ref ++ [ref],
        (lastUse (past ++ [ref]) p).isSome = true) := by
  have hnd : l.Nodup := recOrder_pairwise_nodup past l hpw
  have hmem_erase : ∀ p ∈ l.erase ref, p ∈ l ∧ p ≠ ref := by
    intro p hp
    have h1 := (List.Nodup.mem_erase_iff hnd).mp hp
    exact ⟨h1.2, h1.1⟩
  have hkeep : ∀ p ∈ l.erase ref, lastUse (past ++ [ref]) p = lastUse past p := by
    intro p hp
    exact lastUse_append_ne past ref p fun hc =>
      (hmem_erase p hp).2 hc.symm
  constructor
  · rw [List.pairwise_append]
    refine ⟨?_, by simp, ?_⟩
    · have hsub : List.Pairwise (RecOrder past) (l.erase ref) :=
        hpw.sublist (List.erase_sublist ref l)
      refine List.Pairwise.imp_of_mem ?_ hsub
      intro a b ha hb hab
      rw [RecOrder, hkeep a ha, hkeep b hb]
      exact hab
    · intro a ha b hb
      rw [List.mem_singleton] at hb
      subst hb
      rw [RecOrder, hkeep a ha, lastUse_append, if_pos rfl]
      obtain ⟨k, hk⟩ := Option.isSome_iff_exists.mp
        (hsome a (hmem_erase a ha).1)
      rw [hk, beforeOpt]
      simpa using lastUse_lt_length past a k hk
  · intro p hp
    rcases List.mem_append.mp hp with h | h
    · rw [hkeep p h]
      exact hsome p (hmem_erase p h).1
    · rw [List.mem_singleton] at h
      subst h
      rw [lastUse_append, if_pos rfl]
      rfl

/-- The first index found for a member holds that member. -/
theorem findIdx_beq_spec {α : Type} [BEq α] [LawfulBEq α] (l : List α)
    (a : α) (h : a ∈ l) :
    l[l.findIdx fun x => x == a]? = some a := by
  have hex : ∃ x ∈ l, (fun x => x == a) x = true := ⟨a, h, by simp⟩
  have hlt : l.findIdx (fun x => x == a) < l.length :=
    List.findIdx_lt_length_of_exists hex
  rw [List.getElem?_eq_getElem hlt]
  have hp := @List.findIdx_getElem _ (fun x => x == a) l hlt
  simpa using hp

/-- Membership in the frame table after filling a free slot. -/
theorem mem_set_free (frames : List (Option Nat)) (slot : Nat) (ref : Nat)
    (hslot : frames[slot]? = some none) :
    ∀ p : Nat, (some p) ∈ frames.set slot (some ref) ↔
      (p = ref ∨ (some p) ∈ frames) := by
  intro p
  have hlt : slot < frames.length := by
    by_contra hge
    rw [List.getElem?_eq_none (by omega)] at hslot
    simp at hslot
  constructor
  · intro hm
    obtain ⟨k, hk⟩ := List.getElem?_of_mem hm
    by_cases hks : k = slot
    · subst hks
      rw [List.getElem?_set_self' ] at hk
      rw [List.getElem?_eq_getElem hlt] at hslot
      simp only [List.getElem?_eq_getElem hlt] at hk
      left
      have := hk
      simp at this
      exact this.symm
    · right
      rw [List.getElem?_set_ne (by omega)] at hk
      exact List.getElem?_mem hk
  · intro hm
    rcases hm with h | h
    · subst h
      refine List.getElem?_mem (l := frames.set slot (some p)) (n := slot) ?_
      rw [List.getElem?_set_self hlt]
    · obtain ⟨k, hk⟩ := List.getElem?_of_mem h
      have hks : k ≠ slot := by
        intro hc
        subst hc
        rw [hk] at hslot
        simp at hslot
      refine List.getElem?_mem (l := frames.set slot (some ref)) (n := k) ?_
      rw [List.getElem?_set_ne (by omega)]
      exact hk

/-- Membership in the frame table after replacing a uniquely-resident
victim. -/
theorem mem_set_victim (frames : List (Option Nat)) (slot : Nat)
    (ref victim : Nat) (hfd : FramesDistinct frames)
    (hslot : frames[slot]? = some (some victim)) :
    ∀ p : Nat, (some p) ∈ frames.set slot (some ref) ↔
      (p = ref ∨ ((some p) ∈ frames ∧ p ≠ victim)) := by
  intro p
  have hlt : slot < frames.length := by
    by_contra hge
    rw [List.getElem?_eq_none (by omega)] at hslot
    simp at hslot
  constructor
  · intro hm
    obtain ⟨k, hk⟩ := List.getElem?_of_mem hm
    by_cases hks : k = slot
    · subst hks
      rw [List.getElem?_set_self hlt] at hk
      left
      have := hk
      simp at this
      exact this.symm
    · right
      rw [List.getElem?_set_ne (by omega)] at hk
      refine ⟨List.getElem?_mem hk, ?_⟩
      intro hc
      subst hc
      exact hfd k slot p hks hk hslot
  · intro hm
    rcases hm with h | ⟨h, hne⟩
    · subst h
      refine List.getElem?_mem (l := frames.set slot (some p)) (n := slot) ?_
      rw [List.getElem?_set_self hlt]
    · obtain ⟨k, hk⟩ := List.getElem?_of_mem h
      have hks : k ≠ slot := by
        intro hc
        subst hc
        rw [hk] at hslot
        simp only [Option.some_inj] at hslot
        exact hne (by simpa using hslot)
      refine List.getElem?_mem (l := frames.set slot (some ref)) (n := k) ?_
      rw [List.getElem?_set_ne (by omega)]
      exact hk

/-- Membership in the frame table after freeing a uniquely-resident
victim's slot. -/
theorem mem_set_none (frames : List (Option Nat)) (slot : Nat)
    (victim : Nat) (hfd : FramesDistinct frames)
    (hslot : frames[slot]? = some (some victim)) :
    ∀ p : Nat, (some p) ∈ frames.set slot none ↔
      ((some p) ∈ frames ∧ p ≠ victim) := by
  intro p
  have hlt : slot < frames.length := by
    by_contra hge
    rw [List.getElem?_eq_none (by omega)] at hslot
    simp at hslot
  constructor
  · intro hm
    obtain ⟨k, hk⟩ := List.getElem?_of_mem hm
    by_cases hks : k = slot
    · subst hks
      rw [List.getElem?_set_self hlt] at hk
      simp at hk
    · rw [List.getElem?_set_ne (by omega)] at hk
      refine ⟨List.getElem?_mem hk, ?_⟩
      intro hc
      subst hc
      exact hfd k slot p hks hk hslot
  · rintro ⟨h, hne⟩
    obtain ⟨k, hk⟩ := List.getElem?_of_mem h
    have hks : k ≠ slot := by
      intro hc
      subst hc
      rw [hk] at hslot
      simp only [Option.some_inj] at hslot
      exact hne (by simpa using hslot)
    refine List.getElem?_mem (l := frames.set slot none) (n := k) ?_
    rw [List.getElem?_set_ne (by omega)]
    exact hk

/-- Membership in a touched recency list. -/
theorem mem_lruTouch_iff (l : List Nat) (ref p : Nat) (hnd : l.Nodup) :
    p ∈ lruTouch l ref ↔ ((p ∈ l ∧ p ≠ ref) ∨ p = ref) := by
  unfold lruTouch
  rw [List.mem_append, List.mem_singleton, List.Nodup.mem_erase_iff hnd]
  tauto

/-- Per-run eviction specification for LRU: every evicting step removes a
page that was resident and least recently used among the residents of the
previous snapshot. -/
def EvictSpec (steps : List MemStep) (frames : List (Option Nat))
    (past refs : List Nat) : Prop :=
  ∀ i v, (steps.getD i default).evicted = some v →
    (some v) ∈ (if i = 0 then frames
      else (steps.getD (i - 1) default).frames) ∧
    ∀ q, (some q) ∈ (if i = 0 then frames
        else (steps.getD (i - 1) default).frames) → q ≠ v →
      beforeOpt (lastUse (past ++ refs.take i) v)
        (lastUse (past ++ refs.take i) q) = true

/-- EvictSpec extension across a non-evicting head step. -/
theorem evictSpec_cons_noevict (step0 : MemStep) (steps : List MemStep)
    (frames frames' : List (Option Nat)) (past : List Nat) (ref : Nat)
    (rest : List Nat) (h0 : step0.evicted = none)
    (hf : step0.frames = frames')
    (hrec : EvictSpec steps frames' (past ++ [ref]) rest) :
    EvictSpec (step0 :: steps) frames past (ref :: rest) := by
  intro i v hev
  match i with
  | 0 =>
      rw [List.getD_cons_zero, h0] at hev
      simp at hev
  | i + 1 =>
      rw [List.getD_cons_succ] at hev
      have hshift := hrec i v hev
      have hpre : past ++ (ref :: rest).take (i + 1) =
          (past ++ [ref]) ++ rest.take i := by
        rw [List.take_succ_cons, ← List.append_cons]
      match i with
      | 0 =>
          rw [Nat.add_sub_cancel, if_neg (Nat.succ_ne_zero 0),
            List.getD_cons_zero, hf, hpre]
          rw [if_pos rfl] at hshift
          exact hshift
      | i + 1 =>
          rw [Nat.add_sub_cancel, if_neg (Nat.succ_ne_zero (i + 1)),
            List.getD_cons_succ, hpre]
          rw [if_neg (Nat.succ_ne_zero i), Nat.add_sub_cancel] at hshift
          exact hshift

/-- EvictSpec extension across an evicting head step. -/
theorem evictSpec_cons_evict (step0 : MemStep) (steps : List MemStep)
    (frames frames' : List (Option Nat)) (past : List Nat) (ref : Nat)
    (rest : List Nat) (w : Nat) (h0 : step0.evicted = some w)
    (hf : step0.frames = frames')
    (hhead : (some w) ∈ frames ∧ ∀ q, (some q) ∈ frames → q ≠ w →
      beforeOpt (lastUse past w) (lastUse past q) = true)
    (hrec : EvictSpec steps frames' (past ++ [ref]) rest) :
    EvictSpec (step0 :: steps) frames past (ref :: rest) := by
  intro i v hev
  match i with
  | 0 =>
      rw [List.getD_cons_zero, h0, Option.some_inj] at hev
      subst hev
      simp only [if_pos rfl, List.take_zero, List.append_nil]
      exact hhead
  | i + 1 =>
      rw [List.getD_cons_succ] at hev
      have hshift := hrec i v hev
      have hpre : past ++ (ref :: rest).take (i + 1) =
          (past ++ [ref]) ++ rest.take i := by
        rw [List.take_succ_cons, ← List.append_cons]
      match i with
      | 0 =>
          rw [Nat.add_sub_cancel, if_neg (Nat.succ_ne_zero 0),
            List.getD_cons_zero, hf, hpre]
          simp only [if_pos rfl] at hshift
          exact hshift
      | i + 1 =>
          rw [Nat.add_sub_cancel, if_neg (Nat.succ_ne_zero (i + 1)),
            List.getD_cons_succ, hpre]
          rw [if_neg (Nat.succ_ne_zero i), Nat.add_sub_cancel] at hshift
          exact hshift

/-- Combined induction for runLRU: the run never throws, produces one step
per reference with exact hit/fault totals, keeps residency pairwise
distinct, and every eviction removes the least recently used resident. -/
theorem runLRUGo_spec (fc : Nat) (refs : List Nat) :
    ∀ frames lru past t hits faults,
      0 < frames.length →
      FramesDistinct frames →
      (∀ p : Nat, (some p) ∈ frames ↔ p ∈ lru) →
      (∀ p ∈ lru, (lastUse past p).isSome = true) →
      List.Pairwise (RecOrder past) lru →
      ∃ steps h f,
        runLRUGo fc frames lru t hits faults refs = some (steps, h, f) ∧
        steps.length = refs.length ∧
        h + f = hits + faults + refs.length ∧
        (∀ step ∈ steps, FramesDistinct step.frames) ∧
        EvictSpec steps frames past refs := by
  induction refs with
  | nil =>
      intro frames lru past t hits faults _ _ _ _ _
      refine ⟨[], hits, faults, rfl, rfl, by simp, by simp, ?_⟩
      intro i v hev
      simp [List.getD, default_memstep_evicted] at hev
  | cons ref rest ih =>
      intro frames lru past t hits faults hlen hfd hmem hsome hpw
      have hnd : lru.Nodup := recOrder_pairwise_nodup past lru hpw
      by_cases h1 : frames.contains (some ref) = true
      · -- hit
        have href : ref ∈ lru :=
          (hmem ref).mp ((contains_iff_mem _ _).mp h1)
        have hmem' : ∀ p : Nat, (some p) ∈ frames ↔ p ∈ lruTouch lru ref := by
          intro p
          rw [hmem, mem_lruTouch_iff lru ref p hnd]
          constructor
          · intro hp
            by_cases hpr : p = ref
            · exact Or.inr hpr
            · exact Or.inl ⟨hp, hpr⟩
          · rintro (⟨hp, _⟩ | hp)
            · exact hp
            · exact hp ▸ href
        obtain ⟨hpw', hsome'⟩ := recOrder_touch past lru ref hpw hsome
        obtain ⟨steps, h, f, heq, hlenS, hcount, hdist, hevs⟩ :=
          ih frames (lruTouch lru ref) (past ++ [ref]) (t + 1) (hits + 1)
            faults hlen hfd hmem' hsome' hpw'
        refine ⟨⟨t, ref, frames, true, none⟩ :: steps, h, f, ?_,
          by simp [hlenS], by simp only [List.length_cons]; omega, ?_, ?_⟩
        · simp only [runLRUGo, if_pos h1, heq, Option.map_some']
        · intro step hstep
          rcases List.mem_cons.mp hstep with hs | hs
          · subst hs; exact hfd
          · exact hdist step hs
        · exact evictSpec_cons_noevict _ _ _ _ _ _ _ rfl rfl hevs
      · have hnm : (some ref) ∉ frames := fun hm =>
          h1 ((contains_iff_mem frames (some ref)).mpr hm)
        have hrl : ref ∉ lru := fun hm => hnm ((hmem ref).mpr hm)
        by_cases h2 : frames.contains none = true
        · -- fill a free frame
          have hnone : none ∈ frames := (contains_iff_mem _ _).mp h2
          have hslot : frames[frames.findIdx fun f => f == none]? =
              some none := findIdx_beq_spec frames none hnone
          have hfd' : FramesDistinct
              (frames.set (frames.findIdx fun f => f == none) (some ref)) :=
            framesDistinct_set_new _ _ _ hnm hfd
          have hlen' : 0 < (frames.set (frames.findIdx fun f => f == none)
              (some ref)).length := by
            rw [List.length_set]; exact hlen
          have hmem' : ∀ p : Nat,
              (some p) ∈ frames.set (frames.findIdx fun f => f == none)
                (some ref) ↔ p ∈ lruTouch lru ref := by
            intro p
            rw [mem_set_free frames _ ref hslot p,
              mem_lruTouch_iff lru ref p hnd, hmem]
            constructor
            · rintro (hp | hp)
              · exact Or.inr hp
              · exact Or.inl ⟨hp, fun hc => hrl (hc ▸ hp)⟩
            · rintro (⟨hp, _⟩ | hp)
              · exact Or.inr hp
              · exact Or.inl hp
          obtain ⟨hpw', hsome'⟩ := recOrder_touch past lru ref hpw hsome
          obtain ⟨steps, h, f, heq, hlenS, hcount, hdist, hevs⟩ :=
            ih _ (lruTouch lru ref) (past ++ [ref]) (t + 1) hits (faults + 1)
              hlen' hfd' hmem' hsome' hpw'
          refine ⟨⟨t, ref,
              frames.set (frames.findIdx fun f => f == none) (some ref),
              false, none⟩ :: steps, h, f,
            ?_, by simp [hlenS], by simp only [List.length_cons]; omega,
            ?_, ?_⟩
          · simp only [runLRUGo, if_neg h1, if_pos h2, heq, Option.map_some']
          · intro step hstep
            rcases List.mem_cons.mp hstep with hs | hs
            · subst hs; exact hfd'
            · exact hdist step hs
          · exact evictSpec_cons_noevict _ _ _ _ _ _ _ rfl rfl hevs
        · -- evict the least recently used resident
          have hnone : none ∉ frames := fun hm =>
            h2 ((contains_iff_mem frames none).mpr hm)
          have hlru_ne : lru ≠ [] := by
            intro hc
            obtain ⟨f₀, hf₀⟩ := List.getElem?_of_mem
              (List.getElem_mem (l := frames) (n := 0) hlen)
            match hm : frames[0]? with
            | none =>
                rw [List.getElem?_eq_none_iff] at hm
                omega
            | some fv =>
                match fv with
                | none => exact hnone (List.getElem?_mem hm)
                | some p₀ =>
                    have : p₀ ∈ lru := (hmem p₀).mp (List.getElem?_mem hm)
                    rw [hc] at this
                    simp at this
          rcases lru with _ | ⟨victim, lrest⟩
          · exact absurd rfl hlru_ne
          · have hvic_mem : (some victim) ∈ frames :=
              (hmem victim).mpr (by simp)
            have hslot : frames[frames.findIdx
                fun f => f == some victim]? = some (some victim) :=
              findIdx_beq_spec frames (some victim) hvic_mem
            have hfd' : FramesDistinct (frames.set
                (frames.findIdx fun f => f == some victim) (some ref)) :=
              framesDistinct_set_new _ _ _ hnm hfd
            have hlen' : 0 < (frames.set
                (frames.findIdx fun f => f == some victim)
                (some ref)).length := by
              rw [List.length_set]; exact hlen
            have hrlrest : ref ∉ lrest := fun hm =>
              hrl (List.mem_cons_of_mem _ hm)
            have hvic_nr : victim ∉ lrest :=
              (List.nodup_cons.mp hnd).1
            have hnd' : lrest.Nodup := (List.nodup_cons.mp hnd).2
            have hmem' : ∀ p : Nat,
                (some p) ∈ frames.set
                  (frames.findIdx fun f => f == some victim) (some ref) ↔
                  p ∈ lruTouch lrest ref := by
              intro p
              rw [mem_set_victim frames _ ref victim hfd hslot p,
                mem_lruTouch_iff lrest ref p hnd']
              constructor
              · rintro (hp | ⟨hp, hpv⟩)
                · exact Or.inr hp
                · have : p ∈ victim :: lrest := (hmem p).mp hp
                  rcases List.mem_cons.mp this with hc | hc
                  · exact absurd hc hpv
                  · exact Or.inl ⟨hc, fun hcr => hrlrest (hcr ▸ hc)⟩
              · rintro (⟨hp, _⟩ | hp)
                · refine Or.inr ⟨(hmem p).mpr (List.mem_cons_of_mem _ hp),
                    ?_⟩
                  intro hc
                  subst hc
                  exact hvic_nr hp
                · exact Or.inl hp
            have hpw_rest : List.Pairwise (RecOrder past) lrest :=
              (List.pairwise_cons.mp hpw).2
            have hsome_rest : ∀ p ∈ lrest, (lastUse past p).isSome = true :=
              fun p hp => hsome p (List.mem_cons_of_mem _ hp)
            obtain ⟨hpw', hsome'⟩ :=
              recOrder_touch past lrest ref hpw_rest hsome_rest
            obtain ⟨steps, h, f, heq, hlenS, hcount, hdist, hevs⟩ :=
              ih _ (lruTouch lrest ref) (past ++ [ref]) (t + 1) hits
                (faults + 1) hlen' hfd' hmem' hsome' hpw'
            refine ⟨⟨t, ref,
                frames.set (frames.findIdx fun f => f == some victim)
                  (some ref),
                false, some victim⟩ :: steps, h, f,
              ?_, by simp [hlenS], by simp only [List.length_cons]; omega,
              ?_, ?_⟩
            · simp only [runLRUGo, if_neg h1, if_neg h2, heq,
                Option.map_some']
            · intro step hstep
              rcases List.mem_cons.mp hstep with hs | hs
              · subst hs; exact hfd'
              · exact hdist step hs
            · refine evictSpec_cons_evict _ _ _ _ _ _ _ victim rfl rfl
                ⟨hvic_mem, ?_⟩ hevs
              intro q hq hqv
              have : q ∈ victim :: lrest := (hmem q).mp hq
              rcases List.mem_cons.mp this with hc | hc
              · exact absurd hc hqv
              · exact (List.pairwise_cons.mp hpw).1 q hc

/-- Initial LRU state satisfies the invariants. -/
theorem lru_initial_mem (n : Nat) :
    ∀ p : Nat, (some p) ∈ List.replicate n (none : Option Nat) ↔
      p ∈ ([] : List Nat) := by
  intro p
  simp [List.mem_replicate]

/-- C6: whenever runLRU records an eviction, the evicted page was resident
in the previous snapshot and is the least recently referenced resident:
every other resident page has a strictly later last-used tick (so the
tie-break clause of the claim is vacuous). -/
theorem runLRU_evicts_least_recent (framesCount : Nat) (refs : List Nat)
    (res : MemResult) (hres : runLRU framesCount refs = some res)
    (i v : Nat)
    (hev : (res.steps.getD i default).evicted = some v) :
    (some v) ∈ (if i = 0 then List.replicate (max 1 framesCount) none
      else (res.steps.getD (i - 1) default).frames) ∧
    ∀ q, (some q) ∈ (if i = 0 then List.replicate (max 1 framesCount) none
        else (res.steps.getD (i - 1) default).frames) → q ≠ v →
      beforeOpt (lastUse (refs.take i) v) (lastUse (refs.take i) q) = true := by
  obtain ⟨steps, h, f, heq, _, _, _, hevs⟩ :=
    runLRUGo_spec (max 1 framesCount) refs
      (List.replicate (max 1 framesCount) none) [] [] 0 0 0
      (by simp) (framesDistinct_replicate _) (lru_initial_mem _)
      (by intro p hp; simp at hp) (by simp)
  rw [runLRU] at hres
  simp only [heq, Option.map_some'] at hres
  have hsteps : res.steps = steps := by
    rw [← Option.some_inj.mp hres, mkMemResult]
  rw [hsteps] at hev ⊢
  have := hevs i v hev
  simpa using this

/-- Witness for C6: two frames, references 0 1 2 0 1; step 2 evicts page 0,
the least recently used resident of the snapshot [0, 1]. -/
theorem runLRU_evicts_least_recent_witness :
    runLRU 2 [0, 1, 2, 0, 1] =
      some ((runLRU 2 [0, 1, 2, 0, 1]).get (by decide)) ∧
    (((runLRU 2 [0, 1, 2, 0, 1]).get (by decide)).steps.getD 2
      default).evicted = some 0 ∧
    ((some 0) ∈ (if 2 = 0 then List.replicate (max 1 2) none
      else (((runLRU 2 [0, 1, 2, 0, 1]).get (by decide)).steps.getD (2 - 1)
        default).frames) ∧
    ∀ q, (some q) ∈ (if 2 = 0 then List.replicate (max 1 2) none
        else (((runLRU 2 [0, 1, 2, 0, 1]).get (by decide)).steps.getD (2 - 1)
          default).frames) → q ≠ 0 →
      beforeOpt (lastUse ([0, 1, 2, 0, 1].take 2) 0)
        (lastUse ([0, 1, 2, 0, 1].take 2) q) = true) :=
  ⟨(Option.some_get _).symm, by decide,
    runLRU_evicts_least_recent 2 [0, 1, 2, 0, 1] _ (Option.some_get _).symm
      2 0 (by decide)⟩

/-- alGet is none exactly off the key set. -/
theorem alGet_eq_none_iff {α : Type} (m : List (Nat × α)) (k : Nat) :
    alGet m k = none ↔ k ∉ m.map Prod.fst := by
  induction m with
  | nil => simp [alGet]
  | cons q rest ih =>
      obtain ⟨k₀, v₀⟩ := q
      rw [alGet]
      by_cases h : k₀ = k
      · simp [h]
      · rw [if_neg h, ih]
        simp only [List.map_cons, List.mem_cons]
        constructor
        · intro hn hc
          rcases hc with hc | hc
          · exact h hc.symm
          · exact hn hc
        · intro hn hc
          exact hn (Or.inr hc)

/-- A defined lookup means the key is present. -/
theorem mem_keys_of_alGet {α : Type} (m : List (Nat × α)) (k : Nat) (v : α)
    (h : alGet m k = some v) : k ∈ m.map Prod.fst := by
  by_contra hc
  rw [← alGet_eq_none_iff] at hc
  rw [hc] at h
  exact Option.noConfusion h

/-- Updating a key makes it resolve to the new value. -/
theorem alGet_alSet_self {α : Type} (m : List (Nat × α)) (k : Nat) (v : α) :
    alGet (alSet m k v) k = some v := by
  induction m with
  | nil => simp [alSet, alGet]
  | cons q rest ih =>
      obtain ⟨k₀, v₀⟩ := q
      rw [alSet]
      by_cases h : k₀ = k
      · rw [if_pos h, alGet, if_pos rfl]
      · rw [if_neg h, alGet, if_neg h]
        exact ih

/-- Updating a key leaves other keys unchanged. -/
theorem alGet_alSet_ne {α : Type} (m : List (Nat × α)) (k k' : Nat) (v : α)
    (h : k' ≠ k) : alGet (alSet m k v) k' = alGet m k' := by
  have hkk : ¬ k = k' := fun hc => h hc.symm
  induction m with
  | nil => simp [alSet, alGet, hkk]
  | cons q rest ih =>
      obtain ⟨k₀, v₀⟩ := q
      rw [alSet]
      by_cases hk : k₀ = k
      · rw [if_pos hk, alGet, if_neg hkk, alGet, if_neg (hk ▸ hkk)]
      · rw [if_neg hk, alGet, alGet]
        by_cases hk' : k₀ = k'
        · rw [if_pos hk', if_pos hk']
        · rw [if_neg hk', if_neg hk']
          exact ih

/-- Key-set membership after an update. -/
theorem keys_alSet_mem {α : Type} (m : List (Nat × α)) (k : Nat) (v : α)
    (p : Nat) :
    p ∈ (alSet m k v).map Prod.fst ↔ (p ∈ m.map Prod.fst ∨ p = k) := by
  induction m with
  | nil => simp [alSet]
  | cons q rest ih =>
      obtain ⟨k₀, v₀⟩ := q
      rw [alSet]
      by_cases h : k₀ = k
      · subst h
        rw [if_pos rfl]
        simp only [List.map_cons, List.mem_cons]
        tauto
      · rw [if_neg h]
        simp only [List.map_cons, List.mem_cons, ih]
        tauto

/-- Key-set distinctness is preserved by updates. -/
theorem keys_alSet_nodup {α : Type} (m : List (Nat × α)) (k : Nat) (v : α)
    (h : (m.map Prod.fst).Nodup) : ((alSet m k v).map Prod.fst).Nodup := by
  induction m with
  | nil => simp [alSet]
  | cons q rest ih =>
      obtain ⟨k₀, v₀⟩ := q
      simp only [List.map_cons, List.nodup_cons] at h
      rw [alSet]
      by_cases hk : k₀ = k
      · subst hk
        rw [if_pos rfl]
        simp only [List.map_cons, List.nodup_cons]
        exact ⟨h.1, h.2⟩
      · rw [if_neg hk]
        simp only [List.map_cons, List.nodup_cons]
        refine ⟨?_, ih h.2⟩
        intro hc
        rw [keys_alSet_mem] at hc
        rcases hc with hc | hc
        · exact h.1 hc
        · exact hk hc

/-- Deleting a key leaves other keys unchanged. -/
theorem alGet_alErase_ne {α : Type} (m : List (Nat × α)) (k k' : Nat)
    (h : k' ≠ k) : alGet (alErase m k) k' = alGet m k' := by
  induction m with
  | nil => rfl
  | cons q rest ih =>
      obtain ⟨k₀, v₀⟩ := q
      rw [alErase]
      by_cases hk : k₀ = k
      · rw [if_pos hk, alGet, if_neg (hk ▸ fun hc => h hc.symm)]
      · rw [if_neg hk, alGet, alGet]
        by_cases hk' : k₀ = k'
        · rw [if_pos hk', if_pos hk']
        · rw [if_neg hk', if_neg hk']
          exact ih

/-- With distinct keys, deletion removes the key entirely. -/
theorem alGet_alErase_self {α : Type} (m : List (Nat × α)) (k : Nat)
    (h : (m.map Prod.fst).Nodup) : alGet (alErase m k) k = none := by
  induction m with
  | nil => rfl
  | cons q rest ih =>
      obtain ⟨k₀, v₀⟩ := q
      simp only [List.map_cons, List.nodup_cons] at h
      rw [alErase]
      by_cases hk : k₀ = k
      · rw [if_pos hk]
        rw [alGet_eq_none_iff]
        intro hc
        exact h.1 (hk ▸ hc)
      · rw [if_neg hk, alGet, if_neg hk]
        exact ih h.2

/-- Key-set membership after a deletion (distinct keys). -/
theorem keys_alErase_mem {α : Type} (m : List (Nat × α)) (k : Nat)
    (h : (m.map Prod.fst).Nodup) (p : Nat) :
    p ∈ (alErase m k).map Prod.fst ↔ (p ∈ m.map Prod.fst ∧ p ≠ k) := by
  induction m with
  | nil => simp [alErase]
  | cons q rest ih =>
      obtain ⟨k₀, v₀⟩ := q
      simp only [List.map_cons, List.nodup_cons] at h
      rw [alErase]
      by_cases hk : k₀ = k
      · subst hk
        rw [if_pos rfl]
        simp only [List.map_cons, List.mem_cons]
        constructor
        · intro hp
          refine ⟨Or.inr hp, ?_⟩
          intro hc
          subst hc
          exact h.1 hp
        · rintro ⟨hp | hp, hne⟩
          · exact absurd hp hne
          · exact hp
      · rw [if_neg hk]
        simp only [List.map_cons, List.mem_cons, ih h.2]
        constructor
        · rintro (hp | ⟨hp, hne⟩)
          · exact ⟨Or.inl hp, fun hc => hk (hp.symm.trans hc)⟩
          · exact ⟨Or.inr hp, hne⟩
        · rintro ⟨hp | hp, hne⟩
          · exact Or.inl hp
          · exact Or.inr ⟨hp, hne⟩

/-- Key-set distinctness is preserved by deletion. -/
theorem keys_alErase_nodup {α : Type} (m : List (Nat × α)) (k : Nat)
    (h : (m.map Prod.fst).Nodup) : ((alErase m k).map Prod.fst).Nodup := by
  induction m with
  | nil => simp [alErase]
  | cons q rest ih =>
      obtain ⟨k₀, v₀⟩ := q
      simp only [List.map_cons, List.nodup_cons] at h
      rw [alErase]
      by_cases hk : k₀ = k
      · rw [if_pos hk]; exact h.2
      · rw [if_neg hk]
        simp only [List.map_cons, List.nodup_cons]
        refine ⟨?_, ih h.2⟩
        intro hc
        rw [keys_alErase_mem rest k h.2] at hc
        exact h.1 hc.1

/-- Updating an existing key keeps the assoc length. -/
theorem length_alSet_mem {α : Type} (m : List (Nat × α)) (k : Nat) (v : α)
    (h : k ∈ m.map Prod.fst) : (alSet m k v).length = m.length := by
  induction m with
  | nil => simp at h
  | cons q rest ih =>
      obtain ⟨k₀, v₀⟩ := q
      rw [alSet]
      by_cases hk : k₀ = k
      · rw [if_pos hk]
        rfl
      · rw [if_neg hk]
        simp only [List.length_cons]
        simp only [List.map_cons, List.mem_cons] at h
        rcases h with h | h
        · exact absurd h.symm hk
        · rw [ih h]

/-- Inserting a fresh key grows the assoc length by one. -/
theorem length_alSet_not_mem {α : Type} (m : List (Nat × α)) (k : Nat)
    (v : α) (h : k ∉ m.map Prod.fst) :
    (alSet m k v).length = m.length + 1 := by
  induction m with
  | nil => rfl
  | cons q rest ih =>
      obtain ⟨k₀, v₀⟩ := q
      rw [alSet]
      simp only [List.map_cons, List.mem_cons] at h
      rw [if_neg (fun hc => h (Or.inl hc.symm))]
      simp only [List.length_cons]
      rw [ih (fun hc => h (Or.inr hc))]

/-- Deleting a present key shrinks the assoc length by one. -/
theorem length_alErase_mem {α : Type} (m : List (Nat × α)) (k : Nat)
    (h : k ∈ m.map Prod.fst) : (alErase m k).length + 1 = m.length := by
  induction m with
  | nil => simp at h
  | cons q rest ih =>
      obtain ⟨k₀, v₀⟩ := q
      rw [alErase]
      by_cases hk : k₀ = k
      · rw [if_pos hk]
        rfl
      · rw [if_neg hk]
        simp only [List.length_cons]
        simp only [List.map_cons, List.mem_cons] at h
        rcases h with h | h
        · exact absurd h.symm hk
        · rw [← ih h]

/-- Well-formedness of the LFU bookkeeping: distinct keys on both maps,
stored buckets are non-empty duplicate-free lists whose members carry
exactly that frequency, every tracked page sits in its bucket, and while
any page is tracked the minFreq bucket exists. -/
def LfuMapsInv (p2n : List (Nat × Nat)) (buckets : List (Nat × List Nat))
    (minFreq : Nat) : Prop :=
  (p2n.map Prod.fst).Nodup ∧
  (buckets.map Prod.fst).Nodup ∧
  (∀ fr bl, alGet buckets fr = some bl →
    bl ≠ [] ∧ bl.Nodup ∧ ∀ p ∈ bl, alGet p2n p = some fr) ∧
  (∀ p fr, alGet p2n p = some fr →
    ∃ bl, alGet buckets fr = some bl ∧ p ∈ bl) ∧
  (p2n ≠ [] → ∃ bl, alGet buckets minFreq = some bl)

/-- The LFU touch preserves the bookkeeping invariant and the tracked page
set. -/
theorem lfuTouch_inv (p2n : List (Nat × Nat))
    (buckets : List (Nat × List Nat)) (minFreq page freq : Nat)
    (hinv : LfuMapsInv p2n buckets minFreq)
    (hpage : alGet p2n page = some freq) :
    LfuMapsInv (lfuTouch p2n buckets minFreq page freq).1
      (lfuTouch p2n buckets minFreq page freq).2.1
      (lfuTouch p2n buckets minFreq page freq).2.2 ∧
    (∀ q : Nat, q ∈ (lfuTouch p2n buckets minFreq page freq).1.map Prod.fst ↔
      q ∈ p2n.map Prod.fst) ∧
    (lfuTouch p2n buckets minFreq page freq).1.length = p2n.length := by
  obtain ⟨hk1, hk2, hI3, hI6, hI8⟩ := hinv
  have hpmem : page ∈ p2n.map Prod.fst := mem_keys_of_alGet _ _ _ hpage
  have hne : freq ≠ freq + 1 := by omega
  obtain ⟨bl, hbl, hpin⟩ := hI6 page freq hpage
  -- the new pageToNode map
  have hp2n_get_self : alGet (alSet p2n page (freq + 1)) page =
      some (freq + 1) := alGet_alSet_self _ _ _
  have hp2n_get_ne : ∀ q, q ≠ page →
      alGet (alSet p2n page (freq + 1)) q = alGet p2n q :=
    fun q hq => alGet_alSet_ne _ _ _ _ hq
  obtain ⟨hblne, hblnd, hblmem⟩ := hI3 freq bl hbl
  -- shared facts about the intermediate bucket map bm.1 and the final one
  simp only [lfuTouch, hbl]
  set bl' := bl.erase page with hbl'
  have hbl'nd : bl'.Nodup := hblnd.erase page
  have hbl'mem : ∀ p ∈ bl', p ∈ bl ∧ p ≠ page := by
    intro p hp
    have := (List.Nodup.mem_erase_iff hblnd).mp hp
    exact ⟨this.2, this.1⟩
  by_cases hempty : bl'.isEmpty = true
  · -- the old bucket dies
    rw [if_pos hempty]
    have hbl'nil : bl' = [] := List.isEmpty_iff.mp hempty
    simp only []
    -- the freq+1 bucket before the append
    set buckets₁ := alErase buckets freq with hb1
    set old := (alGet buckets₁ (freq + 1)).getD [] with hold
    have hold_mem : ∀ p ∈ old, alGet p2n p = some (freq + 1) := by
      intro p hp
      match hg : alGet buckets₁ (freq + 1) with
      | none => rw [hold, hg] at hp; simp at hp
      | some blx =>
          rw [hold, hg] at hp
          simp only [Option.getD_some] at hp
          rw [hb1, alGet_alErase_ne _ _ _ hne.symm] at hg
          exact (hI3 _ _ hg).2.2 p hp
    have hold_nd : old.Nodup := by
      match hg : alGet buckets₁ (freq + 1) with
      | none => rw [hold, hg]; simp
      | some blx =>
          rw [hold, hg]
          simp only [Option.getD_some]
          rw [hb1, alGet_alErase_ne _ _ _ hne.symm] at hg
          exact (hI3 _ _ hg).2.1
    have hpold : page ∉ old := by
      intro hp
      have := hold_mem page hp
      rw [hpage] at this
      simp at this
    refine ⟨⟨keys_alSet_nodup _ _ _ hk1, keys_alSet_nodup _ _ _
      (keys_alErase_nodup _ _ hk2), ?_, ?_, ?_⟩, ?_, ?_⟩
    · -- I3 for the final buckets
      intro fr bl₂ hget
      by_cases hfr : fr = freq + 1
      · subst hfr
        rw [alGet_alSet_self] at hget
        rw [Option.some_inj] at hget
        subst hget
        refine ⟨by simp, ?_, ?_⟩
        · rw [List.nodup_append]
          exact ⟨hold_nd, by simp, by
            intro p hp hq
            rw [List.mem_singleton] at hq
            exact hpold (hq ▸ hp)⟩
        · intro p hp
          rcases List.mem_append.mp hp with hp | hp
          · rw [hp2n_get_ne p (fun hc => hpold (hc ▸ hp))]
            exact hold_mem p hp
          · rw [List.mem_singleton] at hp
            subst hp
            exact hp2n_get_self
      · rw [alGet_alSet_ne _ _ _ _ hfr] at hget
        by_cases hfr2 : fr = freq
        · subst hfr2
          rw [hb1, alGet_alErase_self _ _ hk2] at hget
          exact Option.noConfusion hget
        · rw [hb1, alGet_alErase_ne _ _ _ hfr2] at hget
          obtain ⟨h1, h2, h3⟩ := hI3 fr bl₂ hget
          refine ⟨h1, h2, ?_⟩
          intro p hp
          have hpfr := h3 p hp
          have hppage : p ≠ page := by
            intro hc
            subst hc
            rw [hpage, Option.some_inj] at hpfr
            exact hfr2 hpfr.symm
          rw [hp2n_get_ne p hppage]
          exact hpfr
    · -- I6 for the final maps
      intro p fr hget
      by_cases hp : p = page
      · subst hp
        rw [hp2n_get_self, Option.some_inj] at hget
        subst hget
        exact ⟨old ++ [p], alGet_alSet_self _ _ _, by simp⟩
      · rw [hp2n_get_ne p hp] at hget
        obtain ⟨bl₀, hbl₀, hpbl₀⟩ := hI6 p fr hget
        by_cases hfr2 : fr = freq
        · subst hfr2
          rw [hbl] at hbl₀
          rw [Option.some_inj] at hbl₀
          subst hbl₀
          have : p ∈ bl' := (List.Nodup.mem_erase_iff hblnd).mpr ⟨hp, hpbl₀⟩
          rw [hbl'nil] at this
          simp at this
        · by_cases hfr1 : fr = freq + 1
          · subst hfr1
            refine ⟨old ++ [page], alGet_alSet_self _ _ _, ?_⟩
            have : alGet buckets₁ (freq + 1) = some bl₀ := by
              rw [hb1, alGet_alErase_ne _ _ _ hne.symm]
              exact hbl₀
            rw [List.mem_append]
            left
            rw [hold, this]
            simpa using hpbl₀
          · refine ⟨bl₀, ?_, hpbl₀⟩
            rw [alGet_alSet_ne _ _ _ _ hfr1, hb1,
              alGet_alErase_ne _ _ _ hfr2]
            exact hbl₀
    · -- I8 for the final maps
      intro _
      by_cases hmf : minFreq = freq
      · rw [if_pos hmf]
        exact ⟨old ++ [page], alGet_alSet_self _ _ _⟩
      · rw [if_neg hmf]
        obtain ⟨bl₃, hbl₃⟩ := hI8 (by
          intro hc
          rw [hc] at hpmem
          simp at hpmem)
        by_cases hmf1 : minFreq = freq + 1
        · subst hmf1
          exact ⟨old ++ [page], alGet_alSet_self _ _ _⟩
        · refine ⟨bl₃, ?_⟩
          rw [alGet_alSet_ne _ _ _ _ hmf1, hb1, alGet_alErase_ne _ _ _ hmf]
          exact hbl₃
    · intro q
      rw [keys_alSet_mem]
      constructor
      · intro hc
        rcases hc with hc | hc
        · exact hc
        · exact hc ▸ hpmem
      · exact Or.inl
    · exact length_alSet_mem _ _ _ hpmem
  · -- the old bucket survives with the page removed
    rw [if_neg hempty]
    have hbl'ne : bl' ≠ [] := by
      intro hc
      rw [hc] at hempty
      simp at hempty
    simp only []
    set buckets₁ := alSet buckets freq bl' with hb1
    set old := (alGet buckets₁ (freq + 1)).getD [] with hold
    have hget1 : alGet buckets₁ (freq + 1) = alGet buckets (freq + 1) := by
      rw [hb1, alGet_alSet_ne _ _ _ _ hne.symm]
    have hold_mem : ∀ p ∈ old, alGet p2n p = some (freq + 1) := by
      intro p hp
      match hg : alGet buckets (freq + 1) with
      | none => rw [hold, hget1, hg] at hp; simp at hp
      | some blx =>
          rw [hold, hget1, hg] at hp
          simp only [Option.getD_some] at hp
          exact (hI3 _ _ hg).2.2 p hp
    have hold_nd : old.Nodup := by
      match hg : alGet buckets (freq + 1) with
      | none => rw [hold, hget1, hg]; simp
      | some blx =>
          rw [hold, hget1, hg]
          simp only [Option.getD_some]
          exact (hI3 _ _ hg).2.1
    have hpold : page ∉ old := by
      intro hp
      have := hold_mem page hp
      rw [hpage] at this
      simp at this
    refine ⟨⟨keys_alSet_nodup _ _ _ hk1, keys_alSet_nodup _ _ _
      (keys_alSet_nodup _ _ _ hk2), ?_, ?_, ?_⟩, ?_, ?_⟩
    · intro fr bl₂ hget
      by_cases hfr : fr = freq + 1
      · subst hfr
        rw [alGet_alSet_self, Option.some_inj] at hget
        subst hget
        refine ⟨by simp, ?_, ?_⟩
        · rw [List.nodup_append]
          exact ⟨hold_nd, by simp, by
            intro p hp hq
            rw [List.mem_singleton] at hq
            exact hpold (hq ▸ hp)⟩
        · intro p hp
          rcases List.mem_append.mp hp with hp | hp
          · rw [hp2n_get_ne p (fun hc => hpold (hc ▸ hp))]
            exact hold_mem p hp
          · rw [List.mem_singleton] at hp
            subst hp
            exact hp2n_get_self
      · rw [alGet_alSet_ne _ _ _ _ hfr] at hget
        by_cases hfr2 : fr = freq
        · subst hfr2
          rw [hb1, alGet_alSet_self, Option.some_inj] at hget
          subst hget
          refine ⟨hbl'ne, hbl'nd, ?_⟩
          intro p hp
          obtain ⟨hpb, hpp⟩ := hbl'mem p hp
          rw [hp2n_get_ne p hpp]
          exact hblmem p hpb
        · rw [hb1, alGet_alSet_ne _ _ _ _ hfr2] at hget
          obtain ⟨h1, h2, h3⟩ := hI3 fr bl₂ hget
          refine ⟨h1, h2, ?_⟩
          intro p hp
          have hpfr := h3 p hp
          have hppage : p ≠ page := by
            intro hc
            subst hc
            rw [hpage, Option.some_inj] at hpfr
            exact hfr2 hpfr.symm
          rw [hp2n_get_ne p hppage]
          exact hpfr
    · intro p fr hget
      by_cases hp : p = page
      · subst hp
        rw [hp2n_get_self, Option.some_inj] at hget
        subst hget
        exact ⟨old ++ [p], alGet_alSet_self _ _ _, by simp⟩
      · rw [hp2n_get_ne p hp] at hget
        obtain ⟨bl₀, hbl₀, hpbl₀⟩ := hI6 p fr hget
        by_cases hfr2 : fr = freq
        · subst hfr2
          rw [hbl, Option.some_inj] at hbl₀
          subst hbl₀
          have hpbl' : p ∈ bl' :=
            (List.Nodup.mem_erase_iff hblnd).mpr ⟨hp, hpbl₀⟩
          refine ⟨bl', ?_, hpbl'⟩
          rw [alGet_alSet_ne _ _ _ _ hne, hb1, alGet_alSet_self]
        · by_cases hfr1 : fr = freq + 1
          · subst hfr1
            refine ⟨old ++ [page], alGet_alSet_self _ _ _, ?_⟩
            rw [List.mem_append]
            left
            rw [hold, hget1, hbl₀]
            simpa using hpbl₀
          · refine ⟨bl₀, ?_, hpbl₀⟩
            rw [alGet_alSet_ne _ _ _ _ hfr1, hb1,
              alGet_alSet_ne _ _ _ _ hfr2]
            exact hbl₀
    · intro _
      by_cases hmf1 : minFreq = freq + 1
      · subst hmf1
        exact ⟨old ++ [page], alGet_alSet_self _ _ _⟩
      · by_cases hmf : minFreq = freq
        · refine ⟨bl', ?_⟩
          rw [alGet_alSet_ne _ _ _ _ hmf1, hb1, hmf, alGet_alSet_self]
        · obtain ⟨bl₃, hbl₃⟩ := hI8 (by
            intro hc
            rw [hc] at hpmem
            simp at hpmem)
          refine ⟨bl₃, ?_⟩
          rw [alGet_alSet_ne _ _ _ _ hmf1, hb1,
            alGet_alSet_ne _ _ _ _ hmf]
          exact hbl₃
    · intro q
      rw [keys_alSet_mem]
      constructor
      · intro hc
        rcases hc with hc | hc
        · exact hc
        · exact hc ▸ hpmem
      · exact Or.inl
    · exact length_alSet_mem _ _ _ hpmem

/-- A frame list without free slots loses nothing under filterMap id. -/
theorem filterMap_id_full_length (l : List (Option Nat))
    (h : none ∉ l) : (l.filterMap id).length = l.length := by
  induction l with
  | nil => rfl
  | cons a t ih =>
      cases a with
      | none => exact absurd (List.mem_cons_self _ _) h
      | some x =>
          rw [show List.filterMap id (some x :: t) = x :: List.filterMap id t
            from rfl]
          simp only [List.length_cons]
          rw [ih (fun hc => h (List.mem_cons_of_mem _ hc))]

/-- Pigeonhole: fewer tracked pages than frames forces a free frame. -/
theorem none_mem_of_keys_lt (frames : List (Option Nat)) (keys : List Nat)
    (hfd : FramesDistinct frames)
    (hmem : ∀ p : Nat, (some p) ∈ frames ↔ p ∈ keys)
    (hknd : keys.Nodup)
    (hlt : keys.length < frames.length) : none ∈ frames := by
  by_contra hnone
  have hlen : (frames.filterMap id).length = frames.length :=
    filterMap_id_full_length frames hnone
  have hnodup : (frames.filterMap id).Nodup :=
    (framesDistinct_iff_nodup frames).mp hfd
  have hsame : ∀ p : Nat, p ∈ frames.filterMap id ↔ p ∈ keys := by
    intro p
    rw [List.mem_filterMap]
    constructor
    · rintro ⟨a, ha, hida⟩
      have hap : a = some p := hida
      rw [hap] at ha
      exact (hmem p).mp ha
    · intro hp
      exact ⟨some p, (hmem p).mpr hp, rfl⟩
  have hperm : List.Perm (frames.filterMap id) keys :=
    (List.perm_ext_iff_of_nodup hnodup hknd).mpr hsame
  have := hperm.length_eq
  omega

/-- Installing a brand-new page at frequency 1 restores the LFU map
invariant with minFreq = 1. -/
theorem lfuInsert_inv (p2n : List (Nat × Nat))
    (buckets : List (Nat × List Nat)) (ref : Nat)
    (hk1 : (p2n.map Prod.fst).Nodup)
    (hk2 : (buckets.map Prod.fst).Nodup)
    (hI3 : ∀ fr bl, alGet buckets fr = some bl →
      bl ≠ [] ∧ bl.Nodup ∧ ∀ p ∈ bl, alGet p2n p = some fr)
    (hI6 : ∀ p fr, alGet p2n p = some fr →
      ∃ bl, alGet buckets fr = some bl ∧ p ∈ bl)
    (href : alGet p2n ref = none) :
    LfuMapsInv (alSet p2n ref 1)
      (alSet buckets 1 (((alGet buckets 1).getD []) ++ [ref])) 1 ∧
    (∀ q : Nat, q ∈ (alSet p2n ref 1).map Prod.fst ↔
      (q ∈ p2n.map Prod.fst ∨ q = ref)) ∧
    (alSet p2n ref 1).length = p2n.length + 1 := by
  have hrefk : ref ∉ p2n.map Prod.fst := (alGet_eq_none_iff _ _).mp href
  set old := (alGet buckets 1).getD [] with hold
  have hold_mem : ∀ p ∈ old, alGet p2n p = some 1 := by
    intro p hp
    cases hg : alGet buckets 1 with
    | none =>
        rw [hold, hg] at hp
        simp at hp
    | some bl =>
        refine (hI3 1 bl hg).2.2 p ?_
        rw [hold, hg] at hp
        simpa using hp
  have hold_nd : old.Nodup := by
    cases hg : alGet buckets 1 with
    | none =>
        rw [hold, hg]
        simp
    | some bl =>
        rw [hold, hg]
        simpa using (hI3 1 bl hg).2.1
  have href_old : ref ∉ old := by
    intro hc
    have := hold_mem ref hc
    rw [href] at this
    exact Option.noConfusion this
  refine ⟨⟨keys_alSet_nodup _ _ _ hk1, keys_alSet_nodup _ _ _ hk2,
    ?_, ?_, ?_⟩, ?_, length_alSet_not_mem _ _ _ hrefk⟩
  · intro fr bl hget
    by_cases hfr : fr = 1
    · subst hfr
      rw [alGet_alSet_self] at hget
      injection hget with hbl
      subst hbl
      refine ⟨by simp, ?_, ?_⟩
      · refine List.Nodup.append hold_nd (List.nodup_singleton ref) ?_
        intro a ha hb
        simp at hb
        subst hb
        exact href_old ha
      · intro p hp
        rw [List.mem_append] at hp
        rcases hp with hp | hp
        · have hpr : p ≠ ref := fun hc => href_old (hc ▸ hp)
          rw [alGet_alSet_ne _ _ _ _ hpr]
          exact hold_mem p hp
        · simp at hp
          subst hp
          exact alGet_alSet_self _ _ _
    · rw [alGet_alSet_ne _ _ _ _ hfr] at hget
      obtain ⟨hblne, hblnd, hblmem⟩ := hI3 fr bl hget
      refine ⟨hblne, hblnd, ?_⟩
      intro p hp
      have hpf := hblmem p hp
      have hpr : p ≠ ref := by
        intro hc
        rw [hc, href] at hpf
        exact Option.noConfusion hpf
      rw [alGet_alSet_ne _ _ _ _ hpr]
      exact hpf
  · intro p fr hget
    by_cases hp : p = ref
    · subst hp
      rw [alGet_alSet_self] at hget
      injection hget with h1
      exact ⟨old ++ [p], h1 ▸ alGet_alSet_self _ _ _, by simp⟩
    · rw [alGet_alSet_ne _ _ _ _ hp] at hget
      obtain ⟨bl₀, hbl₀, hpbl₀⟩ := hI6 p fr hget
      by_cases hfr : fr = 1
      · subst hfr
        refine ⟨old ++ [ref], alGet_alSet_self _ _ _, ?_⟩
        rw [List.mem_append]
        left
        rw [hold, hbl₀]
        simpa using hpbl₀
      · refine ⟨bl₀, ?_, hpbl₀⟩
        rw [alGet_alSet_ne _ _ _ _ hfr]
        exact hbl₀
  · intro _
    exact ⟨old ++ [ref], alGet_alSet_self _ _ _⟩
  · intro q
    rw [keys_alSet_mem]

/-- Evicting the head of the minFreq bucket keeps both maps coherent (the
minFreq bucket witness is restored by the insertion that follows). -/
theorem lfuEvict_partial (p2n : List (Nat × Nat))
    (buckets : List (Nat × List Nat)) (minFreq victim : Nat)
    (btail : List Nat) (B : List (Nat × List Nat))
    (hinv : LfuMapsInv p2n buckets minFreq)
    (hbl : alGet buckets minFreq = some (victim :: btail))
    (hB : B = if btail.isEmpty then
      alErase (alSet buckets minFreq btail) minFreq
      else alSet buckets minFreq btail) :
    ((alErase p2n victim).map Prod.fst).Nodup ∧
    (B.map Prod.fst).Nodup ∧
    (∀ fr bl, alGet B fr = some bl →
      bl ≠ [] ∧ bl.Nodup ∧ ∀ p ∈ bl, alGet (alErase p2n victim) p = some fr) ∧
    (∀ p fr, alGet (alErase p2n victim) p = some fr →
      ∃ bl, alGet B fr = some bl ∧ p ∈ bl) ∧
    alGet p2n victim = some minFreq ∧
    (∀ q : Nat, q ∈ (alErase p2n victim).map Prod.fst ↔
      (q ∈ p2n.map Prod.fst ∧ q ≠ victim)) ∧
    (alErase p2n victim).length + 1 = p2n.length := by
  obtain ⟨hk1, hk2, hI3, hI6, hI8⟩ := hinv
  obtain ⟨hblne, hblnd, hblmem⟩ := hI3 minFreq (victim :: btail) hbl
  have hvic : alGet p2n victim = some minFreq := hblmem victim (by simp)
  have hvick : victim ∈ p2n.map Prod.fst := mem_keys_of_alGet _ _ _ hvic
  have hvtail : victim ∉ btail := (List.nodup_cons.mp hblnd).1
  have hnv : ∀ fr bl0, fr ≠ minFreq → alGet buckets fr = some bl0 →
      victim ∉ bl0 := by
    intro fr bl0 hfr hget hc
    have hmem0 := (hI3 fr bl0 hget).2.2 victim hc
    rw [hvic] at hmem0
    injection hmem0 with hh
    exact hfr hh.symm
  have hb1nd : ((alSet buckets minFreq btail).map Prod.fst).Nodup :=
    keys_alSet_nodup _ _ _ hk2
  subst hB
  by_cases hempty : btail.isEmpty = true
  · have htnil : btail = [] := List.isEmpty_iff.mp hempty
    rw [if_pos hempty]
    refine ⟨keys_alErase_nodup _ _ hk1,
      keys_alErase_nodup _ _ hb1nd, ?_, ?_, hvic,
      keys_alErase_mem _ _ hk1, length_alErase_mem _ _ hvick⟩
    · intro fr bl hget
      by_cases hfr : fr = minFreq
      · subst hfr
        rw [alGet_alErase_self _ _ hb1nd] at hget
        exact Option.noConfusion hget
      · rw [alGet_alErase_ne _ _ _ hfr, alGet_alSet_ne _ _ _ _ hfr] at hget
        obtain ⟨hne0, hnd0, hmem0⟩ := hI3 fr bl hget
        refine ⟨hne0, hnd0, ?_⟩
        intro p hp
        have hpv : p ≠ victim := by
          intro hc
          exact hnv fr bl hfr hget (hc ▸ hp)
        rw [alGet_alErase_ne _ _ _ hpv]
        exact hmem0 p hp
    · intro p fr hget
      have hpv : p ≠ victim := by
        intro hc
        rw [hc, alGet_alErase_self _ _ hk1] at hget
        exact Option.noConfusion hget
      rw [alGet_alErase_ne _ _ _ hpv] at hget
      obtain ⟨bl₀, hbl₀, hpbl₀⟩ := hI6 p fr hget
      have hfr : fr ≠ minFreq := by
        intro hc
        rw [hc, hbl] at hbl₀
        injection hbl₀ with hh
        rw [← hh, htnil] at hpbl₀
        simp at hpbl₀
        exact hpv hpbl₀
      refine ⟨bl₀, ?_, hpbl₀⟩
      rw [alGet_alErase_ne _ _ _ hfr, alGet_alSet_ne _ _ _ _ hfr]
      exact hbl₀
  · have htne : btail ≠ [] := by
      intro hc
      rw [hc] at hempty
      simp at hempty
    rw [if_neg hempty]
    refine ⟨keys_alErase_nodup _ _ hk1, hb1nd, ?_, ?_, hvic,
      keys_alErase_mem _ _ hk1, length_alErase_mem _ _ hvick⟩
    · intro fr bl hget
      by_cases hfr : fr = minFreq
      · subst hfr
        rw [alGet_alSet_self] at hget
        injection hget with hh
        subst hh
        refine ⟨htne, hblnd.of_cons, ?_⟩
        intro p hp
        have hpv : p ≠ victim := fun hc => hvtail (hc ▸ hp)
        rw [alGet_alErase_ne _ _ _ hpv]
        exact hblmem p (List.mem_cons_of_mem _ hp)
      · rw [alGet_alSet_ne _ _ _ _ hfr] at hget
        obtain ⟨hne0, hnd0, hmem0⟩ := hI3 fr bl hget
        refine ⟨hne0, hnd0, ?_⟩
        intro p hp
        have hpv : p ≠ victim := fun hc => hnv fr bl hfr hget (hc ▸ hp)
        rw [alGet_alErase_ne _ _ _ hpv]
        exact hmem0 p hp
    · intro p fr hget
      have hpv : p ≠ victim := by
        intro hc
        rw [hc, alGet_alErase_self _ _ hk1] at hget
        exact Option.noConfusion hget
      rw [alGet_alErase_ne _ _ _ hpv] at hget
      obtain ⟨bl₀, hbl₀, hpbl₀⟩ := hI6 p fr hget
      by_cases hfr : fr = minFreq
      · subst hfr
        rw [hbl] at hbl₀
        injection hbl₀ with hh
        refine ⟨btail, alGet_alSet_self _ _ _, ?_⟩
        rw [← hh] at hpbl₀
        rcases List.mem_cons.mp hpbl₀ with hc | hc
        · exact absurd hc hpv
        · exact hc
      · refine ⟨bl₀, ?_, hpbl₀⟩
        rw [alGet_alSet_ne _ _ _ _ hfr]
        exact hbl₀

/-- Combined induction for runLFU: the run never hits the invariant throw,
produces one step per reference with matching hit/fault totals, and every
step's frames keep residency pairwise distinct. -/
theorem runLFUGo_spec (fc : Nat) (refs : List Nat) :
    ∀ frames p2n buckets minFreq t hits faults,
      frames.length = fc →
      0 < fc →
      FramesDistinct frames →
      (∀ p : Nat, (some p) ∈ frames ↔ p ∈ p2n.map Prod.fst) →
      LfuMapsInv p2n buckets minFreq →
      ∃ steps h f,
        runLFUGo fc frames p2n buckets minFreq t hits faults refs =
          some (steps, h, f) ∧
        steps.length = refs.length ∧
        h + f = hits + faults + refs.length ∧
        (∀ step ∈ steps, FramesDistinct step.frames) := by
  induction refs with
  | nil =>
      intro frames p2n buckets minFreq t hits faults _ _ _ _ _
      refine ⟨[], hits, faults, rfl, rfl, by simp, ?_⟩
      intro step hstep
      simp at hstep
  | cons ref rest ih =>
      intro frames p2n buckets minFreq t hits faults hlen hpos hfd hmem hinv
      cases hget : alGet p2n ref with
      | some freq =>
          obtain ⟨hinv', hkeys', _⟩ :=
            lfuTouch_inv p2n buckets minFreq ref freq hinv hget
          have hmem' : ∀ p : Nat, (some p) ∈ frames ↔
              p ∈ (lfuTouch p2n buckets minFreq ref freq).1.map Prod.fst := by
            intro p
            rw [hkeys' p]
            exact hmem p
          obtain ⟨steps, h, f, heq, hlenS, hcount, hdist⟩ :=
            ih frames (lfuTouch p2n buckets minFreq ref freq).1
              (lfuTouch p2n buckets minFreq ref freq).2.1
              (lfuTouch p2n buckets minFreq ref freq).2.2
              (t + 1) (hits + 1) faults hlen hpos hfd hmem' hinv'
          refine ⟨⟨t, ref, frames, true, none⟩ :: steps, h, f, ?_, ?_, ?_, ?_⟩
          · simp only [runLFUGo, hget]
            rw [heq]
            rfl
          · simp only [List.length_cons, hlenS]
          · simp only [List.length_cons]
            omega
          · intro s hs
            rcases List.mem_cons.mp hs with hs | hs
            · rw [hs]
              exact hfd
            · exact hdist s hs
      | none =>
          have hrefk : ref ∉ p2n.map Prod.fst :=
            (alGet_eq_none_iff _ _).mp hget
          have hreff : (some ref) ∉ frames := fun hc => hrefk ((hmem ref).mp hc)
          by_cases hsz : p2n.length ≥ fc
          · -- eviction path
            obtain ⟨hk1, hk2, hI3, hI6, hI8⟩ := hinv
            have hp2nne : p2n ≠ [] := by
              intro hc
              rw [hc] at hsz
              simp at hsz
              omega
            obtain ⟨bl, hbl⟩ := hI8 hp2nne
            have hblfacts := hI3 minFreq bl hbl
            rcases bl with _ | ⟨victim, btail⟩
            · exact absurd rfl hblfacts.1
            · obtain ⟨hk1', hk2', hI3', hI6', hvic, hkeys₁, hlen₁⟩ :=
                lfuEvict_partial p2n buckets minFreq victim btail _
                  ⟨hk1, hk2, hI3, hI6, hI8⟩ hbl rfl
              have hvicf : (some victim) ∈ frames :=
                (hmem victim).mpr (mem_keys_of_alGet _ _ _ hvic)
              have hslot :
                  frames[frames.findIdx fun f => f == some victim]? =
                    some (some victim) :=
                findIdx_beq_spec frames (some victim) hvicf
              have hslot_lt :
                  (frames.findIdx fun f => f == some victim) <
                    frames.length := by
                by_contra hge
                rw [List.getElem?_eq_none (Nat.le_of_not_lt hge)] at hslot
                exact Option.noConfusion hslot
              simp only [runLFUGo, hget]
              rw [if_pos hsz]
              simp only [hbl]
              set slot := frames.findIdx fun f => f == some victim
                with hslotdef
              set frames₁ := frames.set slot none with hf1
              have hfd₁ : FramesDistinct frames₁ :=
                framesDistinct_set_none frames slot hfd
              have hmem₁ := mem_set_none frames slot victim hfd hslot
              have hfree₁ : frames₁[slot]? = some none :=
                List.getElem?_set_eq_of_lt none hslot_lt
              have hnone₁ : none ∈ frames₁ := List.getElem?_mem hfree₁
              have hcont : frames₁.contains none = true :=
                (contains_iff_mem _ _).mpr hnone₁
              rw [if_pos hcont]
              set targetSlot := frames₁.findIdx fun f => f == none
                with htgtdef
              have htarget : frames₁[targetSlot]? = some none :=
                findIdx_beq_spec frames₁ none hnone₁
              set frames₂ := frames₁.set targetSlot (some ref) with hf2
              have hreff₁ : (some ref) ∉ frames₁ := by
                intro hc
                exact hreff ((hmem₁ ref).mp hc).1
              have hfd₂ : FramesDistinct frames₂ :=
                framesDistinct_set_new frames₁ targetSlot ref hreff₁ hfd₁
              have hlenf₂ : frames₂.length = fc := by
                rw [hf2, List.length_set, hf1, List.length_set, hlen]
              have hrefk₁ : alGet (alErase p2n victim) ref = none := by
                rw [alGet_eq_none_iff]
                intro hc
                exact hrefk ((hkeys₁ ref).mp hc).1
              obtain ⟨hinv₂, hkeys₂, _⟩ :=
                lfuInsert_inv (alErase p2n victim) _ ref hk1' hk2' hI3' hI6'
                  hrefk₁
              have hmem₂ : ∀ p : Nat, (some p) ∈ frames₂ ↔
                  p ∈ (alSet (alErase p2n victim) ref 1).map Prod.fst := by
                intro p
                rw [hf2, mem_set_free frames₁ targetSlot ref htarget p,
                  hmem₁ p, hmem p, keys_alSet_mem, hkeys₁ p]
                tauto
              obtain ⟨steps, h, f, heq, hlenS, hcount, hdist⟩ :=
                ih frames₂ (alSet (alErase p2n victim) ref 1) _ 1
                  (t + 1) hits (faults + 1) hlenf₂ hpos hfd₂ hmem₂ hinv₂
              refine ⟨⟨t, ref, frames₂, false, some victim⟩ :: steps, h, f,
                ?_, ?_, ?_, ?_⟩
              · rw [heq]
                rfl
              · simp only [List.length_cons, hlenS]
              · simp only [List.length_cons]
                omega
              · intro s hs
                rcases List.mem_cons.mp hs with hs | hs
                · rw [hs]
                  exact hfd₂
                · exact hdist s hs
          · -- free-frame path
            have hk1 : (p2n.map Prod.fst).Nodup := hinv.1
            have hnone : none ∈ frames := by
              refine none_mem_of_keys_lt frames (p2n.map Prod.fst) hfd hmem
                hk1 ?_
              rw [List.length_map, hlen]
              omega
            have hcont : frames.contains none = true :=
              (contains_iff_mem _ _).mpr hnone
            simp only [runLFUGo, hget]
            rw [if_neg hsz]
            simp only []
            rw [if_pos hcont]
            set targetSlot := frames.findIdx fun f => f == none with htgtdef
            have htarget : frames[targetSlot]? = some none :=
              findIdx_beq_spec frames none hnone
            set frames₂ := frames.set targetSlot (some ref) with hf2
            have hfd₂ : FramesDistinct frames₂ :=
              framesDistinct_set_new frames targetSlot ref hreff hfd
            have hlenf₂ : frames₂.length = fc := by
              rw [hf2, List.length_set, hlen]
            obtain ⟨hinv₂, hkeys₂, _⟩ :=
              lfuInsert_inv p2n buckets ref hinv.1 hinv.2.1 hinv.2.2.1
                hinv.2.2.2.1 hget
            have hmem₂ : ∀ p : Nat, (some p) ∈ frames₂ ↔
                p ∈ (alSet p2n ref 1).map Prod.fst := by
              intro p
              rw [hf2, mem_set_free frames targetSlot ref htarget p,
                hmem p, keys_alSet_mem]
              tauto
            obtain ⟨steps, h, f, heq, hlenS, hcount, hdist⟩ :=
              ih frames₂ (alSet p2n ref 1) _ 1 (t + 1) hits (faults + 1)
                hlenf₂ hpos hfd₂ hmem₂ hinv₂
            refine ⟨⟨t, ref, frames₂, false, none⟩ :: steps, h, f,
              ?_, ?_, ?_, ?_⟩
            · rw [heq]
              rfl
            · simp only [List.length_cons, hlenS]
            · simp only [List.length_cons]
              omega
            · intro s hs
              rcases List.mem_cons.mp hs with hs | hs
              · rw [hs]
                exact hfd₂
              · exact hdist s hs

/-- hitRatio of mkMemResult, re-expressed through the reference total. -/
theorem mkMemResult_ratio (steps : List MemStep) (hits faults n : Nat)
    (h : hits + faults = n) :
    (mkMemResult steps hits faults).hitRatio =
      if n = 0 then 0 else (hits : ℚ) / (n : ℚ) := by
  simp only [mkMemResult]
  by_cases hn : n = 0
  · rw [if_pos hn]
    have hnpos : ¬ hits + faults > 0 := by omega
    rw [if_neg hnpos]
  · rw [if_neg hn]
    have hpos : hits + faults > 0 := by omega
    rw [if_pos hpos, h]

/-- runFIFO from the initial state: shape of the result and step totals. -/
theorem runFIFO_run (framesCount : Nat) (refs : List Nat) :
    ∃ steps h f,
      runFIFO framesCount refs = mkMemResult steps h f ∧
      steps.length = refs.length ∧ h + f = refs.length ∧
      ∀ step ∈ steps, FramesDistinct step.frames := by
  obtain ⟨hlen, hcount, hdist⟩ :=
    runFIFOGo_spec (max 1 framesCount) refs
      (List.replicate (max 1 framesCount) none) 0 0 0 0
      (framesDistinct_replicate _)
  exact ⟨_, _, _, rfl, hlen, by omega, hdist⟩

/-- runOPT from the initial state: shape of the result and step totals. -/
theorem runOPT_run (framesCount : Nat) (refs : List Nat) :
    ∃ steps h f,
      runOPT framesCount refs = mkMemResult steps h f ∧
      steps.length = refs.length ∧ h + f = refs.length ∧
      ∀ step ∈ steps, FramesDistinct step.frames := by
  obtain ⟨hlen, hcount, hdist⟩ :=
    runOPTGo_spec (max 1 framesCount) refs
      (List.replicate (max 1 framesCount) none) 0 0 0
      (framesDistinct_replicate _)
  exact ⟨_, _, _, rfl, hlen, by omega, hdist⟩

/-- runLRU from the initial state is total, with step totals. -/
theorem runLRU_run (framesCount : Nat) (refs : List Nat) :
    ∃ steps h f,
      runLRU framesCount refs = some (mkMemResult steps h f) ∧
      steps.length = refs.length ∧ h + f = refs.length ∧
      ∀ step ∈ steps, FramesDistinct step.frames := by
  obtain ⟨steps, h, f, heq, hlen, hcount, hdist, _⟩ :=
    runLRUGo_spec (max 1 framesCount) refs
      (List.replicate (max 1 framesCount) none) [] [] 0 0 0
      (by simp) (framesDistinct_replicate _) (lru_initial_mem _)
      (by intro p hp; simp at hp) (by simp)
  have hrun : runLRU framesCount refs =
      (runLRUGo (max 1 framesCount)
        (List.replicate (max 1 framesCount) none) [] 0 0 0 refs).map
        fun out => mkMemResult out.1 out.2.1 out.2.2 := rfl
  refine ⟨steps, h, f, ?_, hlen, by omega, hdist⟩
  rw [hrun, heq, Option.map_some']

/-- runLFU from the initial state is total, with step totals. -/
theorem runLFU_run (framesCount : Nat) (refs : List Nat) :
    ∃ steps h f,
      runLFU framesCount refs = some (mkMemResult steps h f) ∧
      steps.length = refs.length ∧ h + f = refs.length ∧
      ∀ step ∈ steps, FramesDistinct step.frames := by
  obtain ⟨steps, h, f, heq, hlen, hcount, hdist⟩ :=
    runLFUGo_spec (max 1 framesCount) refs
      (List.replicate (max 1 framesCount) none) [] [] 0 0 0 0
      (by simp) (by omega) (framesDistinct_replicate _)
      (by intro p; simp [alGet])
      ⟨by simp, by simp, by intro fr bl hb; simp [alGet] at hb,
        by intro p fr hb; simp [alGet] at hb,
        by intro hc; exact absurd rfl hc⟩
  have hrun : runLFU framesCount refs =
      (runLFUGo (max 1 framesCount)
        (List.replicate (max 1 framesCount) none) [] [] 0 0 0 0 refs).map
        fun out => mkMemResult out.1 out.2.1 out.2.2 := rfl
  refine ⟨steps, h, f, ?_, hlen, by omega, hdist⟩
  rw [hrun, heq, Option.map_some']

/-- C9: in every per-step frames snapshot of runFIFO, runLRU and runLFU the
resident pages are pairwise distinct: no page occupies two frames at the
same step. -/
theorem frames_exclusive_residency (framesCount : Nat) (refs : List Nat) :
    (∀ step ∈ (runFIFO framesCount refs).steps,
      (step.frames.filterMap id).Nodup) ∧
    (∃ res, runLRU framesCount refs = some res ∧
      ∀ step ∈ res.steps, (step.frames.filterMap id).Nodup) ∧
    (∃ res, runLFU framesCount refs = some res ∧
      ∀ step ∈ res.steps, (step.frames.filterMap id).Nodup) := by
  obtain ⟨s1, h1, f1, he1, _, _, hd1⟩ := runFIFO_run framesCount refs
  obtain ⟨s2, h2, f2, he2, _, _, hd2⟩ := runLRU_run framesCount refs
  obtain ⟨s3, h3, f3, he3, _, _, hd3⟩ := runLFU_run framesCount refs
  refine ⟨?_, ⟨mkMemResult s2 h2 f2, he2, ?_⟩,
    ⟨mkMemResult s3 h3 f3, he3, ?_⟩⟩
  · intro step hstep
    rw [he1] at hstep
    exact (framesDistinct_iff_nodup _).mp (hd1 step hstep)
  · intro step hstep
    exact (framesDistinct_iff_nodup _).mp (hd2 step hstep)
  · intro step hstep
    exact (framesDistinct_iff_nodup _).mp (hd3 step hstep)

/-- C10: every algorithm selected by runMemoryAlgorithm yields a result
with one step per reference, hits + faults equal to the reference count,
and hitRatio = hits / (hits + faults) for a non-empty reference string
(0 for an empty one). -/
theorem runMemoryAlgorithm_totals (algo : MemoryAlgorithm)
    (framesCount : Nat) (refs : List Nat) :
    ∃ res, runMemoryAlgorithm algo framesCount refs = some res ∧
      res.steps.length = refs.length ∧
      res.hits + res.faults = refs.length ∧
      res.hitRatio = if refs.length = 0 then 0
        else (res.hits : ℚ) / (refs.length : ℚ) := by
  cases algo with
  | FIFO =>
      obtain ⟨steps, h, f, he, hlen, hcount, _⟩ :=
        runFIFO_run framesCount refs
      refine ⟨mkMemResult steps h f, ?_, hlen, hcount, ?_⟩
      · rw [runMemoryAlgorithm, he]
      · exact mkMemResult_ratio steps h f refs.length hcount
  | OPT =>
      obtain ⟨steps, h, f, he, hlen, hcount, _⟩ :=
        runOPT_run framesCount refs
      refine ⟨mkMemResult steps h f, ?_, hlen, hcount, ?_⟩
      · rw [runMemoryAlgorithm, he]
      · exact mkMemResult_ratio steps h f refs.length hcount
  | LRU =>
      obtain ⟨steps, h, f, he, hlen, hcount, _⟩ :=
        runLRU_run framesCount refs
      refine ⟨mkMemResult steps h f, ?_, hlen, hcount, ?_⟩
      · rw [runMemoryAlgorithm]
        exact he
      · exact mkMemResult_ratio steps h f refs.length hcount
  | LFU =>
      obtain ⟨steps, h, f, he, hlen, hcount, _⟩ :=
        runLFU_run framesCount refs
      refine ⟨mkMemResult steps h f, ?_, hlen, hcount, ?_⟩
      · rw [runMemoryAlgorithm]
        exact he
      · exact mkMemResult_ratio steps h f refs.length hcount

/-- Lowest set bit of a positive integer (the JS idx & -idx on the int32
range), computed by parity recursion: the largest power of two dividing s. -/
def lowbit (s : Nat) : Nat :=
  if s = 0 then 0
  else if s % 2 = 1 then 1
  else 2 * lowbit (s / 2)
termination_by s
decreasing_by omega


/-- Structure of lowbit: s = 2^k * odd with lowbit s = 2^k. -/
theorem lowbit_decomp : ∀ s, 1 ≤ s →
    ∃ k o, o % 2 = 1 ∧ s = 2 ^ k * o ∧ lowbit s = 2 ^ k := by
  intro s
  induction s using Nat.strong_induction_on with
  | _ s ih =>
      intro hs
      by_cases hpar : s % 2 = 1
      · refine ⟨0, s, hpar, by ring, ?_⟩
        rw [lowbit, if_neg (by omega), if_pos hpar]
        norm_num
      · obtain ⟨k, o, ho, hval, hlb⟩ :=
          ih (s / 2) (by omega) (by omega)
        refine ⟨k + 1, o, ho, ?_, ?_⟩
        · have h2 : 2 * (s / 2) = s := by omega
          rw [pow_succ]
          calc s = 2 * (s / 2) := h2.symm
          _ = 2 * (2 ^ k * o) := by rw [hval]
          _ = 2 ^ k * 2 * o := by ring
        · rw [lowbit, if_neg (by omega), if_neg hpar, hlb, pow_succ]
          ring

/-- lowbit of 2^k times an odd number. -/
theorem lowbit_pow_mul_odd : ∀ k o, o % 2 = 1 → lowbit (2 ^ k * o) = 2 ^ k := by
  intro k
  induction k with
  | zero =>
      intro o ho
      rw [pow_zero, one_mul, lowbit, if_neg (by omega), if_pos ho]
  | succ k ih =>
      intro o ho
      have hpos : 0 < 2 ^ k * o :=
        Nat.mul_pos (pow_pos (by omega) k) (by omega)
      have hsplit : 2 ^ (k + 1) * o = 2 * (2 ^ k * o) := by ring
      rw [hsplit, lowbit, if_neg (by omega), if_neg (by omega),
        Nat.mul_div_cancel_left _ (by omega : 0 < 2), ih o ho, pow_succ]
      ring

/-- lowbit is positive on positives. -/
theorem lowbit_pos (s : Nat) (hs : 1 ≤ s) : 1 ≤ lowbit s := by
  obtain ⟨k, o, _, _, hlb⟩ := lowbit_decomp s hs
  rw [hlb]
  have hp := pow_pos (show (0:Nat) < 2 by omega) k
  omega

/-- lowbit divides its argument. -/
theorem lowbit_dvd (s : Nat) (hs : 1 ≤ s) : lowbit s ∣ s := by
  obtain ⟨k, o, _, hval, hlb⟩ := lowbit_decomp s hs
  rw [hlb, hval]
  exact Dvd.intro o rfl

/-- lowbit is at most its argument. -/
theorem lowbit_le (s : Nat) (hs : 1 ≤ s) : lowbit s ≤ s :=
  Nat.le_of_dvd (by omega) (lowbit_dvd s hs)

/-- A power of two dividing 2^k times an odd number divides 2^k. -/
theorem pow_two_dvd_le (m k o : Nat) (ho : o % 2 = 1)
    (h : 2 ^ m ∣ 2 ^ k * o) : m ≤ k := by
  have hnd : ¬ (2 : Nat) ∣ o := by omega
  have hco : Nat.Coprime 2 o := (Nat.prime_two.coprime_iff_not_dvd).mpr hnd
  have hcop : Nat.Coprime (2 ^ m) o := Nat.Coprime.pow_left m hco
  have hdvd : (2 : Nat) ^ m ∣ 2 ^ k := hcop.dvd_of_dvd_mul_right h
  have hle : (2 : Nat) ^ m ≤ 2 ^ k := Nat.le_of_dvd (by positivity) hdvd
  exact (Nat.pow_le_pow_iff_right (by omega)).mp hle

/-- Adding a multiple of a larger power of two does not change lowbit. -/
theorem lowbit_add_multiple (e L d : Nat) (hL : 2 ^ e ∣ L) (hd : 0 < d)
    (hlt : d < 2 ^ e) : lowbit (L + d) = lowbit d := by
  obtain ⟨k, o, ho, hval, hlb⟩ := lowbit_decomp d hd
  obtain ⟨M, hM⟩ := hL
  have hk_lt : k < e := by
    have h1 : (2 : Nat) ^ k ≤ d := by
      rw [hval]
      have h2 : 1 ≤ o := by omega
      calc (2:Nat) ^ k = 2 ^ k * 1 := by ring
      _ ≤ 2 ^ k * o := Nat.mul_le_mul_left _ h2
    have : (2 : Nat) ^ k < 2 ^ e := lt_of_le_of_lt h1 hlt
    exact (Nat.pow_lt_pow_iff_right (by omega)).mp this
  have hsum : L + d = 2 ^ k * (2 ^ (e - k) * M + o) := by
    have he : e = k + (e - k) := by omega
    rw [hM, hval]
    calc 2 ^ e * M + 2 ^ k * o
        = 2 ^ (k + (e - k)) * M + 2 ^ k * o := by rw [← he]
    _ = 2 ^ k * (2 ^ (e - k) * M + o) := by rw [pow_add]; ring
  have hodd : (2 ^ (e - k) * M + o) % 2 = 1 := by
    obtain ⟨a, ha⟩ : ∃ a, e - k = a + 1 := ⟨e - k - 1, by omega⟩
    rw [ha, pow_succ]
    have h2 : 2 ^ a * 2 * M = 2 * (2 ^ a * M) := by ring
    omega
  rw [hsum, lowbit_pow_mul_odd _ _ hodd, hlb]

/-- A positive d below 2^t padded by its lowbit stays at or below 2^t. -/
theorem lowbit_pad_le (t d : Nat) (hd : 0 < d) (hlt : d < 2 ^ t) :
    d + lowbit d ≤ 2 ^ t := by
  obtain ⟨k, o, ho, hval, hlb⟩ := lowbit_decomp d hd
  have hk_lt : k < t := by
    have h1 : (2 : Nat) ^ k ≤ d := by
      rw [hval]
      have h2 : 1 ≤ o := by omega
      calc (2:Nat) ^ k = 2 ^ k * 1 := by ring
      _ ≤ 2 ^ k * o := Nat.mul_le_mul_left _ h2
    exact (Nat.pow_lt_pow_iff_right (by omega)).mp (lt_of_le_of_lt h1 hlt)
  have ho_lt : o < 2 ^ (t - k) := by
    by_contra hge
    push_neg at hge
    have hbig : 2 ^ t ≤ d := by
      rw [hval]
      calc (2:Nat) ^ t = 2 ^ k * 2 ^ (t - k) := by
            rw [← pow_add]
            congr 1
            omega
      _ ≤ 2 ^ k * o := Nat.mul_le_mul_left _ hge
    omega
  have hpad : d + lowbit d = 2 ^ k * (o + 1) := by
    rw [hlb, hval]
    ring
  rw [hpad]
  calc 2 ^ k * (o + 1) ≤ 2 ^ k * 2 ^ (t - k) := by
        have h3 : o + 1 ≤ 2 ^ (t - k) := by omega
        exact Nat.mul_le_mul_left _ h3
  _ = 2 ^ t := by
        rw [← pow_add]
        congr 1
        omega

/-- Upward step: from inside the covered interval of j, one lowbit jump
stays at or below j. -/
theorem chain_up (s j : Nat) (hs : 1 ≤ s) (h1 : j - lowbit j < s)
    (h2 : s < j) : s + lowbit s ≤ j := by
  have hj : 1 ≤ j := by omega
  obtain ⟨t, oj, hoj, hjval, hjlb⟩ := lowbit_decomp j hj
  have h2tle : 2 ^ t ≤ j := by
    rw [hjval]
    have hone : 1 ≤ oj := by omega
    calc (2:Nat) ^ t = 2 ^ t * 1 := by ring
    _ ≤ 2 ^ t * oj := Nat.mul_le_mul_left _ hone
  have h3 : 2 ^ t * oj = 2 ^ (t + 1) * ((oj - 1) / 2) + 2 ^ t := by
    have hw : oj - 1 = 2 * ((oj - 1) / 2) := by omega
    calc 2 ^ t * oj = 2 ^ t * ((oj - 1) + 1) := by
          congr 1
          omega
    _ = 2 ^ t * (oj - 1) + 2 ^ t := by ring
    _ = 2 ^ t * (2 * ((oj - 1) / 2)) + 2 ^ t := by rw [← hw]
    _ = 2 ^ (t + 1) * ((oj - 1) / 2) + 2 ^ t := by
          rw [pow_succ]
          ring
  have hLdef : j - lowbit j = 2 ^ (t + 1) * ((oj - 1) / 2) := by
    rw [hjlb, hjval, h3]
    omega
  set L := j - lowbit j with hL
  have hdvdL : 2 ^ (t + 1) ∣ L := ⟨(oj - 1) / 2, hLdef⟩
  have hLj : L + 2 ^ t = j := by
    rw [hL, hjlb]
    omega
  set d := s - L with hd
  have hd_pos : 0 < d := by omega
  have hsd : s = L + d := by omega
  have hd_lt : d < 2 ^ t := by omega
  have hlbs : lowbit s = lowbit d := by
    rw [hsd]
    refine lowbit_add_multiple (t + 1) L d hdvdL hd_pos ?_
    have hp : (2:Nat) ^ (t + 1) = 2 * 2 ^ t := by
      rw [pow_succ]
      ring
    omega
  have hpad := lowbit_pad_le t d hd_pos hd_lt
  rw [hsd] at hlbs ⊢
  rw [hlbs]
  omega

/-- Downward step: if the jump from s lands inside the covered interval of
j without overshooting, s itself was already inside. -/
theorem chain_step (s j : Nat) (hs : 1 ≤ s)
    (h2 : s + lowbit s ≤ j) (h1 : j - lowbit j < s + lowbit s) :
    j - lowbit j < s := by
  by_contra hge
  push_neg at hge
  have hj : 1 ≤ j := by
    have := lowbit_pos s hs
    omega
  obtain ⟨t, oj, hoj, hjval, hjlb⟩ := lowbit_decomp j hj
  obtain ⟨k, os, hos, hsval, hslb⟩ := lowbit_decomp s hs
  have h2tle : 2 ^ t ≤ j := by
    rw [hjval]
    have hone : 1 ≤ oj := by omega
    calc (2:Nat) ^ t = 2 ^ t * 1 := by ring
    _ ≤ 2 ^ t * oj := Nat.mul_le_mul_left _ hone
  have h3 : 2 ^ t * oj = 2 ^ (t + 1) * ((oj - 1) / 2) + 2 ^ t := by
    have hw : oj - 1 = 2 * ((oj - 1) / 2) := by omega
    calc 2 ^ t * oj = 2 ^ t * ((oj - 1) + 1) := by
          congr 1
          omega
    _ = 2 ^ t * (oj - 1) + 2 ^ t := by ring
    _ = 2 ^ t * (2 * ((oj - 1) / 2)) + 2 ^ t := by rw [← hw]
    _ = 2 ^ (t + 1) * ((oj - 1) / 2) + 2 ^ t := by
          rw [pow_succ]
          ring
  have hLdef : j - lowbit j = 2 ^ (t + 1) * ((oj - 1) / 2) := by
    rw [hjlb, hjval, h3]
    omega
  set L := j - lowbit j with hL
  have hdvdL : 2 ^ (t + 1) ∣ L := ⟨(oj - 1) / 2, hLdef⟩
  have hLj : L + 2 ^ t = j := by
    rw [hL, hjlb]
    omega
  set e := L - s with he
  have hse : s + e = L := by omega
  have he_lt : e < 2 ^ k := by
    rw [hslb] at h1
    omega
  have hle2 : s + 2 ^ k ≤ L + 2 ^ t := by
    rw [hslb] at h2
    omega
  by_cases hkt : k ≤ t
  · have hdk : 2 ^ k ∣ L :=
      dvd_trans (pow_dvd_pow 2 (by omega : k ≤ t + 1)) hdvdL
    have hds : 2 ^ k ∣ s := by
      rw [hsval]
      exact Dvd.intro os rfl
    have hde : 2 ^ k ∣ e := by
      rw [he]
      exact Nat.dvd_sub' hdk hds
    have he0 : e = 0 := Nat.eq_zero_of_dvd_of_lt hde he_lt
    have hsL : s = L := by omega
    have hdvds : 2 ^ (t + 1) ∣ s := hsL ▸ hdvdL
    have hcontra : t + 1 ≤ k := pow_two_dvd_le (t + 1) k os hos (by
      rw [← hsval]
      exact hdvds)
    omega
  · push_neg at hkt
    have hT : 0 < 2 ^ t := pow_pos (by omega) t
    have hds : 2 ^ (t + 1) ∣ s := by
      rw [hsval]
      exact Dvd.dvd.mul_right (pow_dvd_pow 2 (by omega)) os
    have hde : 2 ^ (t + 1) ∣ e := by
      rw [he]
      exact Nat.dvd_sub' hdvdL hds
    have hp : (2 : Nat) ^ (t + 1) = 2 * 2 ^ t := by
      rw [pow_succ]
      ring
    by_cases he0 : e = 0
    · have hkle : (2 : Nat) ^ k ≤ 2 ^ t := by omega
      have : k ≤ t := (Nat.pow_le_pow_iff_right (by omega)).mp hkle
      omega
    · have hdk : 2 ^ (t + 1) ∣ 2 ^ k := pow_dvd_pow 2 (by omega)
      have hsub : 2 ^ (t + 1) ∣ 2 ^ k - e := Nat.dvd_sub' hdk hde
      have hposk : 0 < 2 ^ k - e := by omega
      have hge2 : 2 ^ (t + 1) ≤ 2 ^ k - e := Nat.le_of_dvd hposk hsub
      omega

/-- Membership of j in the Fenwick update chain started at s (the indices
visited by: while idx <= capacity: touch idx; idx += idx & -idx). -/
def inChain (capacity s j : Nat) : Bool :=
  if _h : s = 0 ∨ capacity < s then false
  else if s = j then true
  else inChain capacity (s + lowbit s) j
termination_by capacity + 1 - s
decreasing_by
  rename_i h
  push_neg at h
  have := lowbit_pos s (by omega)
  omega

/-- Chain indices only move upward. -/
theorem inChain_le_aux (capacity : Nat) :
    ∀ m s j, capacity + 1 - s ≤ m → inChain capacity s j = true → s ≤ j := by
  intro m
  induction m with
  | zero =>
      intro s j hm h
      rw [inChain, dif_pos (Or.inr (by omega : capacity < s))] at h
      cases h
  | succ m ih =>
      intro s j hm h
      rw [inChain] at h
      by_cases hg : s = 0 ∨ capacity < s
      · rw [dif_pos hg] at h
        cases h
      · rw [dif_neg hg] at h
        push_neg at hg
        by_cases hsj : s = j
        · omega
        · rw [if_neg hsj] at h
          have hlb := lowbit_pos s (by omega)
          have := ih (s + lowbit s) j (by omega) h
          omega

/-- Characterisation of the update chain: j is visited from s exactly when
the interval covered by j starts below s and s does not overshoot j. -/
theorem inChain_iff_aux (capacity : Nat) :
    ∀ m s j, capacity + 1 - s ≤ m → 1 ≤ s → 1 ≤ j → j ≤ capacity →
      (inChain capacity s j = true ↔ (j - lowbit j < s ∧ s ≤ j)) := by
  intro m
  induction m with
  | zero =>
      intro s j hm hs hj hjc
      rw [inChain, dif_pos (Or.inr (by omega : capacity < s))]
      constructor
      · intro h
        cases h
      · intro ⟨_, hsj⟩
        omega
  | succ m ih =>
      intro s j hm hs hj hjc
      by_cases hg : capacity < s
      · rw [inChain, dif_pos (Or.inr hg)]
        constructor
        · intro h
          cases h
        · intro ⟨_, hsj⟩
          omega
      · rw [inChain, dif_neg (by omega : ¬ (s = 0 ∨ capacity < s))]
        by_cases hsj : s = j
        · rw [if_pos hsj]
          subst hsj
          have hlb := lowbit_pos s hs
          simp only [true_iff]
          omega
        · rw [if_neg hsj]
          have hlb := lowbit_pos s hs
          rw [ih (s + lowbit s) j (by omega) (by omega) hj hjc]
          constructor
          · intro ⟨ha, hb⟩
            exact ⟨chain_step s j hs hb ha, by omega⟩
          · intro ⟨ha, hb⟩
            have hsj' : s < j := by omega
            have := chain_up s j hs ha hsj'
            exact ⟨by omega, this⟩

/-- Instantiated chain characterisation. -/
theorem inChain_iff (capacity s j : Nat) (hs : 1 ≤ s) (hj : 1 ≤ j)
    (hjc : j ≤ capacity) :
    inChain capacity s j = true ↔ (j - lowbit j < s ∧ s ≤ j) :=
  inChain_iff_aux capacity (capacity + 1 - s) s j le_rfl hs hj hjc

/-- Sum of data[a..b-1] read with the JS out-of-range default 0. -/
def sliceSum (data : List ℤ) (a b : Nat) : ℤ :=
  ((List.range' a (b - a)).map fun i => data.getD i 0).sum

/-- Empty slice. -/
theorem sliceSum_nil (data : List ℤ) (a b : Nat) (h : b ≤ a) :
    sliceSum data a b = 0 := by
  rw [sliceSum]
  have : b - a = 0 := by omega
  rw [this]
  simp

/-- Extending a slice by one index. -/
theorem sliceSum_succ (data : List ℤ) (a b : Nat) (h : a ≤ b) :
    sliceSum data a (b + 1) = sliceSum data a b + data.getD b 0 := by
  rw [sliceSum, sliceSum]
  have h1 : b + 1 - a = (b - a) + 1 := by omega
  rw [h1, List.range'_concat]
  have h2 : a + 1 * (b - a) = b := by omega
  rw [h2, List.map_append, List.sum_append]
  simp

/-- Splitting a slice at an interior point. -/
theorem sliceSum_split (data : List ℤ) (a b c : Nat) (hab : a ≤ b)
    (hbc : b ≤ c) : sliceSum data a c = sliceSum data a b + sliceSum data b c := by
  rw [sliceSum, sliceSum, sliceSum]
  have h1 : c - a = (c - b) + (b - a) := by omega
  rw [h1, ← List.range'_append a (b - a) (c - b) 1]
  have h2 : a + 1 * (b - a) = b := by omega
  rw [h2, List.map_append, List.sum_append]

/-- One Fenwick update walk (while idx <= capacity: tree[idx] += value;
idx += idx & -idx). -/
def fenAddChain (tree : List ℤ) (capacity s : Nat) (v : ℤ) : List ℤ :=
  if _h : s = 0 ∨ capacity < s then tree
  else fenAddChain (tree.set s (tree.getD s 0 + v)) capacity (s + lowbit s) v
termination_by capacity + 1 - s
decreasing_by
  push_neg at _h
  have := lowbit_pos s (by omega)
  omega

/-- The update walk preserves the tree length. -/
theorem fenAddChain_length_aux (capacity : Nat) (v : ℤ) :
    ∀ m (tree : List ℤ) s, capacity + 1 - s ≤ m →
      (fenAddChain tree capacity s v).length = tree.length := by
  intro m
  induction m with
  | zero =>
      intro tree s hm
      rw [fenAddChain, dif_pos (Or.inr (by omega : capacity < s))]
  | succ m ih =>
      intro tree s hm
      rw [fenAddChain]
      by_cases hg : s = 0 ∨ capacity < s
      · rw [dif_pos hg]
      · rw [dif_neg hg]
        push_neg at hg
        have hlb := lowbit_pos s (by omega)
        rw [ih _ (s + lowbit s) (by omega), List.length_set]

/-- The update walk preserves length (instantiated). -/
theorem fenAddChain_length (tree : List ℤ) (capacity s : Nat) (v : ℤ) :
    (fenAddChain tree capacity s v).length = tree.length :=
  fenAddChain_length_aux capacity v (capacity + 1 - s) tree s le_rfl

/-- Entry-wise effect of one update walk: position j gains v exactly when
j lies on the chain of s. -/
theorem fenAddChain_getD_aux (capacity : Nat) (v : ℤ) :
    ∀ m (tree : List ℤ) s j, capacity + 1 - s ≤ m → j < tree.length →
      (fenAddChain tree capacity s v).getD j 0 =
        tree.getD j 0 + (if inChain capacity s j then v else 0) := by
  intro m
  induction m with
  | zero =>
      intro tree s j hm _
      rw [fenAddChain, dif_pos (Or.inr (by omega : capacity < s)),
        inChain, dif_pos (Or.inr (by omega : capacity < s))]
      simp
  | succ m ih =>
      intro tree s j hm hj
      rw [fenAddChain, inChain]
      by_cases hg : s = 0 ∨ capacity < s
      · rw [dif_pos hg, dif_pos hg]
        simp
      · rw [dif_neg hg, dif_neg hg]
        push_neg at hg
        have hlb := lowbit_pos s (by omega)
        have hrec := ih (tree.set s (tree.getD s 0 + v)) (s + lowbit s) j
          (by omega) (by rw [List.length_set]; exact hj)
        by_cases hsj : s = j
        · rw [if_pos hsj]
          subst hsj
          have hnot : inChain capacity (s + lowbit s) s = false := by
            by_contra hc
            rw [Bool.not_eq_false] at hc
            have := inChain_le_aux capacity (capacity + 1 - (s + lowbit s))
              (s + lowbit s) s le_rfl hc
            omega
          rw [hrec, hnot]
          simp only [if_neg (by simp : ¬ false = true), add_zero]
          rw [List.getD_eq_getElem?_getD,
            List.getElem?_set_eq_of_lt _ hj]
          simp [List.getD_eq_getElem?_getD]
        · rw [if_neg hsj]
          rw [hrec]
          have hset : (tree.set s (tree.getD s 0 + v)).getD j 0 =
              tree.getD j 0 := by
            rw [List.getD_eq_getElem?_getD, List.getElem?_set_ne hsj,
              ← List.getD_eq_getElem?_getD]
          rw [hset]

/-- Entry-wise effect of one update walk (instantiated). -/
theorem fenAddChain_getD (tree : List ℤ) (capacity s j : Nat) (v : ℤ)
    (hj : j < tree.length) :
    (fenAddChain tree capacity s v).getD j 0 =
      tree.getD j 0 + (if inChain capacity s j then v else 0) :=
  fenAddChain_getD_aux capacity v (capacity + 1 - s) tree s j le_rfl hj

/-- The tree array produced by Fenwick.rebuild from the stored data: start
from zeroes and run one update walk per index below n. -/
def fenBuildTree (data : List ℤ) (n capacity : Nat) : List ℤ :=
  (List.range n).foldl
    (fun tree i => fenAddChain tree capacity (i + 1) (data.getD i 0))
    (List.replicate (capacity + 1) 0)

/-- Length of the built tree. -/
theorem fenBuildTree_length (data : List ℤ) (n capacity : Nat) :
    (fenBuildTree data n capacity).length = capacity + 1 := by
  rw [fenBuildTree]
  induction n with
  | zero => simp
  | succ n ih =>
      rw [List.range_succ, List.foldl_append]
      simp only [List.foldl_cons, List.foldl_nil]
      rw [fenAddChain_length]
      exact ih

/-- Invariant of the built tree: entry j holds the data sum over the block
[j - lowbit j, j) clipped to the first n positions. -/
theorem fenBuildTree_getD (data : List ℤ) (capacity : Nat) :
    ∀ n, n ≤ capacity → ∀ j, 1 ≤ j → j ≤ capacity →
      (fenBuildTree data n capacity).getD j 0 =
        sliceSum data (j - lowbit j) (min j n) := by
  intro n
  induction n with
  | zero =>
      intro _ j hj hjc
      rw [fenBuildTree]
      simp only [List.range_zero, List.foldl_nil]
      rw [List.getD_eq_getElem?_getD]
      have hlt : j < capacity + 1 := by omega
      rw [List.getElem?_eq_getElem (by simp [List.length_replicate]; omega)]
      simp only [List.getElem_replicate, Option.getD_some]
      rw [sliceSum_nil data _ _ (by omega)]
  | succ n ih =>
      intro hn j hj hjc
      have hstep : fenBuildTree data (n + 1) capacity =
          fenAddChain (fenBuildTree data n capacity) capacity (n + 1)
            (data.getD n 0) := by
        rw [fenBuildTree, fenBuildTree, List.range_succ, List.foldl_append]
        simp
      rw [hstep, fenAddChain_getD _ _ _ _ _
        (by rw [fenBuildTree_length]; omega), ih (by omega) j hj hjc]
      simp only [inChain_iff capacity (n + 1) j (by omega) hj hjc]
      by_cases hin : j - lowbit j < n + 1 ∧ n + 1 ≤ j
      · rw [if_pos hin]
        have hminn : min j n = n := by omega
        have hminn1 : min j (n + 1) = n + 1 := by omega
        rw [hminn, hminn1, sliceSum_succ data _ n (by omega)]
      · rw [if_neg hin]
        push_neg at hin
        by_cases hijn : n + 1 ≤ j
        · have hlb : n + 1 ≤ j - lowbit j := by
            by_contra hc
            push_neg at hc
            have := hin hc
            omega
          have hminn : min j n = n := by omega
          have hminn1 : min j (n + 1) = n + 1 := by omega
          rw [hminn, hminn1, sliceSum_nil data _ _ (by omega),
            sliceSum_nil data _ _ (by omega)]
          omega
        · have hminn : min j n = j := by omega
          have hminn1 : min j (n + 1) = j := by omega
          rw [hminn, hminn1]
          omega

/-- Prefix-sum walk (while bitIndex > 0: total += tree[bitIndex];
bitIndex -= bitIndex & -bitIndex). -/
def fenSumChain (tree : List ℤ) (s : Nat) : ℤ :=
  if _h : s = 0 then 0
  else tree.getD s 0 + fenSumChain tree (s - lowbit s)
termination_by s
decreasing_by
  have := lowbit_pos s (by omega)
  omega

/-- The prefix walk on the built tree computes prefix sums. -/
theorem fenSumChain_correct (data : List ℤ) (n capacity : Nat)
    (hn : n ≤ capacity) :
    ∀ m s, s ≤ m → s ≤ n →
      fenSumChain (fenBuildTree data n capacity) s = sliceSum data 0 s := by
  intro m
  induction m with
  | zero =>
      intro s hm _
      have hs0 : s = 0 := by omega
      subst hs0
      rw [fenSumChain, dif_pos rfl, sliceSum_nil data 0 0 le_rfl]
  | succ m ih =>
      intro s hm hs
      by_cases h0 : s = 0
      · subst h0
        rw [fenSumChain, dif_pos rfl, sliceSum_nil data 0 0 le_rfl]
      · rw [fenSumChain, dif_neg h0]
        have hlb := lowbit_pos s (by omega)
        have hlle := lowbit_le s (by omega)
        rw [fenBuildTree_getD data capacity n hn s (by omega) (by omega)]
        have hmin : min s n = s := by omega
        rw [hmin, ih (s - lowbit s) (by omega) (by omega)]
        rw [sliceSum_split data 0 (s - lowbit s) s (by omega) (by omega)]
        ring

/-- Fenwick.sum(i): clamp to n - 1, zero when negative, else walk from
idx + 1. -/
def fenSum (tree : List ℤ) (n : Nat) (i : Int) : ℤ :=
  if n = 0 then 0
  else if min i ((n : Int) - 1) < 0 then 0
  else fenSumChain tree ((min i ((n : Int) - 1)).toNat + 1)

/-- Fenwick.rangeSum(l, r): clamp both ends into [0, n-1], zero when the
clamped ends cross, else a difference of prefix sums. -/
def fenRangeSum (tree : List ℤ) (n : Nat) (l r : Int) : ℤ :=
  if n = 0 then 0
  else if max 0 (min l ((n : Int) - 1)) > max 0 (min r ((n : Int) - 1)) then 0
  else fenSum tree n (max 0 (min r ((n : Int) - 1))) -
    fenSum tree n (max 0 (min l ((n : Int) - 1)) - 1)

/-- Prefix sums of the rebuilt tree, at an in-range index. -/
theorem fenSum_correct (data : List ℤ) (capacity i : Nat)
    (hcap : data.length ≤ capacity) (hi : i < data.length) :
    fenSum (fenBuildTree data data.length capacity) data.length (i : Int) =
      sliceSum data 0 (i + 1) := by
  have hn0 : data.length ≠ 0 := by omega
  rw [fenSum, if_neg hn0]
  have hmin : min (i : Int) ((data.length : Int) - 1) = (i : Int) := by omega
  rw [hmin, if_neg (by omega)]
  have htn : ((i : Int)).toNat = i := Int.toNat_ofNat i
  rw [htn]
  exact fenSumChain_correct data data.length capacity hcap (i + 1) (i + 1)
    le_rfl (by omega)

/-- C3 (Fenwick half): rangeSum over the rebuilt tree equals the slice sum
of the stored data. -/
theorem fenRangeSum_correct (data : List ℤ) (capacity l r : Nat)
    (hcap : data.length ≤ capacity) (hlr : l ≤ r) (hr : r < data.length) :
    fenRangeSum (fenBuildTree data data.length capacity) data.length
      (l : Int) (r : Int) = sliceSum data l (r + 1) := by
  have hn0 : data.length ≠ 0 := by omega
  rw [fenRangeSum, if_neg hn0]
  have hleft : max 0 (min (l : Int) ((data.length : Int) - 1)) = (l : Int) := by
    omega
  have hright : max 0 (min (r : Int) ((data.length : Int) - 1)) = (r : Int) := by
    omega
  rw [hleft, hright, if_neg (by omega)]
  rw [fenSum_correct data capacity r hcap hr]
  by_cases hl0 : l = 0
  · subst hl0
    have hneg : min (((0 : Nat) : Int) - 1) ((data.length : Int) - 1) < 0 := by
      omega
    rw [fenSum, if_neg hn0, if_pos hneg]
    ring
  · have hminl : min ((l : Int) - 1) ((data.length : Int) - 1) =
        (l : Int) - 1 := by omega
    rw [fenSum, if_neg hn0, hminl, if_neg (by omega)]
    have htn : ((l : Int) - 1).toNat + 1 = l := by omega
    rw [htn, fenSumChain_correct data data.length capacity hcap l l le_rfl
      (by omega)]
    rw [sliceSum_split data 0 l (r + 1) (by omega) (by omega)]
    ring

/-- Node payload of the streak segment tree. -/
structure SegNode where
  len : Nat
  pref1 : Nat
  suf1 : Nat
  best1 : Nat
  pref0 : Nat
  suf0 : Nat
  best0 : Nat
  deriving DecidableEq, Repr, Inhabited

/-- EMPTY_NODE. -/
def emptyNode : SegNode := ⟨0, 0, 0, 0, 0, 0, 0⟩

/-- makeLeaf for a single slot (the only call shape used: len = 1). -/
def makeLeaf (value : ℤ) : SegNode :=
  let bit : Nat := if 0 < value then 1 else 0
  ⟨1, bit, bit, bit, if bit = 0 then 1 else 0, if bit = 0 then 1 else 0,
    if bit = 0 then 1 else 0⟩

/-- mergeSegNodes: combine adjacent windows. -/
def mergeSegNodes (a b : SegNode) : SegNode :=
  if a.len = 0 then b
  else if b.len = 0 then a
  else
    ⟨a.len + b.len,
     if a.pref1 = a.len then a.len + b.pref1 else a.pref1,
     if b.suf1 = b.len then b.len + a.suf1 else b.suf1,
     max (max a.best1 b.best1) (a.suf1 + b.pref1),
     if a.pref0 = a.len then a.len + b.pref0 else a.pref0,
     if b.suf0 = b.len then b.len + a.suf0 else b.suf0,
     max (max a.best0 b.best0) (a.suf0 + b.pref0)⟩

/-- Length of the leading run of b in a bit list. -/
def prefRun (b : Bool) : List Bool → Nat
  | [] => 0
  | x :: t => if x = b then prefRun b t + 1 else 0

/-- Length of the trailing run of b. -/
def sufRun (b : Bool) (l : List Bool) : Nat := prefRun b l.reverse

/-- Length of the longest run of b: the best leading run over all
suffixes. -/
def bestRun (b : Bool) : List Bool → Nat
  | [] => 0
  | x :: t => max (prefRun b (x :: t)) (bestRun b t)

/-- The leading run never exceeds the length. -/
theorem prefRun_le_length (b : Bool) (l : List Bool) :
    prefRun b l ≤ l.length := by
  induction l with
  | nil => simp [prefRun]
  | cons x t ih =>
      rw [prefRun]
      by_cases hx : x = b
      · rw [if_pos hx]
        simp only [List.length_cons]
        omega
      · rw [if_neg hx]
        simp

/-- The trailing run never exceeds the length. -/
theorem sufRun_le_length (b : Bool) (l : List Bool) :
    sufRun b l ≤ l.length := by
  rw [sufRun, ← List.length_reverse l]
  exact prefRun_le_length b l.reverse

/-- The leading run is a witness for the best run. -/
theorem prefRun_le_bestRun (b : Bool) (l : List Bool) :
    prefRun b l ≤ bestRun b l := by
  cases l with
  | nil => simp [prefRun, bestRun]
  | cons x t => exact le_max_left _ _

/-- Full leading run means every entry is b. -/
theorem prefRun_eq_length_iff (b : Bool) (l : List Bool) :
    prefRun b l = l.length ↔ ∀ x ∈ l, x = b := by
  induction l with
  | nil => simp [prefRun]
  | cons x t ih =>
      rw [prefRun]
      by_cases hx : x = b
      · rw [if_pos hx]
        simp only [List.length_cons, Nat.add_right_cancel_iff, ih]
        constructor
        · intro h y hy
          rcases List.mem_cons.mp hy with h' | h'
          · rw [h', hx]
          · exact h y h'
        · intro h y hy
          exact h y (List.mem_cons_of_mem _ hy)
      · rw [if_neg hx]
        have hlen := t.length
        constructor
        · intro h
          exfalso
          simp at h
        · intro h
          exact absurd (h x (List.mem_cons_self _ _)) hx

/-- Full trailing run means every entry is b. -/
theorem sufRun_eq_length_iff (b : Bool) (l : List Bool) :
    sufRun b l = l.length ↔ ∀ x ∈ l, x = b := by
  rw [sufRun, ← List.length_reverse l, prefRun_eq_length_iff]
  constructor
  · intro h x hx
    exact h x (List.mem_reverse.mpr hx)
  · intro h x hx
    exact h x (List.mem_reverse.mp hx)

/-- All-b lists have a full best run. -/
theorem bestRun_eq_length_of_all (b : Bool) (l : List Bool)
    (h : ∀ x ∈ l, x = b) : bestRun b l = l.length := by
  induction l with
  | nil => simp [bestRun]
  | cons x t ih =>
      have hx : x = b := h x (List.mem_cons_self _ _)
      have ht : ∀ y ∈ t, y = b := fun y hy => h y (List.mem_cons_of_mem _ hy)
      have hp : prefRun b (x :: t) = (x :: t).length :=
        (prefRun_eq_length_iff b (x :: t)).mpr h
      rw [bestRun, hp, ih ht]
      simp only [List.length_cons]
      omega

/-- The best run never exceeds the length. -/
theorem bestRun_le_length (b : Bool) (l : List Bool) :
    bestRun b l ≤ l.length := by
  induction l with
  | nil => simp [bestRun]
  | cons x t ih =>
      rw [bestRun]
      have := prefRun_le_length b (x :: t)
      simp only [List.length_cons] at *
      omega

/-- Leading run of a concatenation. -/
theorem prefRun_append (b : Bool) (A B : List Bool) :
    prefRun b (A ++ B) =
      if prefRun b A = A.length then A.length + prefRun b B
      else prefRun b A := by
  induction A with
  | nil => simp [prefRun]
  | cons x A' ih =>
      rw [List.cons_append, prefRun, prefRun]
      by_cases hx : x = b
      · rw [if_pos hx, if_pos hx, ih]
        have hle := prefRun_le_length b A'
        by_cases hfull : prefRun b A' = A'.length
        · rw [if_pos hfull, if_pos (by simp [hfull])]
          simp only [List.length_cons]
          omega
        · rw [if_neg hfull, if_neg (by
            simp only [List.length_cons]
            omega)]
      · rw [if_neg hx, if_neg hx, if_neg (by
          simp only [List.length_cons]
          omega)]

/-- Trailing run of a concatenation. -/
theorem sufRun_append (b : Bool) (A B : List Bool) :
    sufRun b (A ++ B) =
      if sufRun b B = B.length then B.length + sufRun b A
      else sufRun b B := by
  rw [sufRun, List.reverse_append, prefRun_append, sufRun, sufRun,
    List.length_reverse]

/-- Trailing run of a cons. -/
theorem sufRun_cons (b : Bool) (x : Bool) (A : List Bool) :
    sufRun b (x :: A) =
      if sufRun b A = A.length then A.length + (if x = b then 1 else 0)
      else sufRun b A := by
  have h : x :: A = [x] ++ A := rfl
  rw [h, sufRun_append]
  have hx : sufRun b [x] = if x = b then 1 else 0 := by
    rw [sufRun]
    simp only [List.reverse_singleton]
    rw [prefRun]
    by_cases hxb : x = b
    · rw [if_pos hxb, if_pos hxb, prefRun]
    · rw [if_neg hxb, if_neg hxb]
  rw [hx]

/-- Best run of a concatenation: the three-way maximum computed by the
merge. -/
theorem bestRun_append (b : Bool) : ∀ (A B : List Bool),
    bestRun b (A ++ B) =
      max (max (bestRun b A) (bestRun b B)) (sufRun b A + prefRun b B) := by
  intro A
  induction A with
  | nil =>
      intro B
      have h1 := prefRun_le_bestRun b B
      have h0 : bestRun b ([] : List Bool) = 0 := rfl
      have hs0 : sufRun b ([] : List Bool) = 0 := rfl
      rw [List.nil_append, h0, hs0]
      omega
  | cons x A' ih =>
      intro B
      have hunf : bestRun b (x :: (A' ++ B)) =
          max (prefRun b (x :: (A' ++ B))) (bestRun b (A' ++ B)) := rfl
      have hunf2 : bestRun b (x :: A') =
          max (prefRun b (x :: A')) (bestRun b A') := rfl
      have hpA : prefRun b (x :: (A' ++ B)) =
          if prefRun b (x :: A') = (x :: A').length
          then (x :: A').length + prefRun b B
          else prefRun b (x :: A') := by
        rw [← List.cons_append]
        exact prefRun_append b (x :: A') B
      have hsc := sufRun_cons b x A'
      rw [List.cons_append, hunf, hunf2, ih B, hpA, hsc]
      have hplen := prefRun_le_length b A'
      have hslen := sufRun_le_length b A'
      have hpBb := prefRun_le_bestRun b B
      by_cases hfull : prefRun b (x :: A') = (x :: A').length
      · rw [if_pos hfull]
        have hall : ∀ y ∈ x :: A', y = b :=
          (prefRun_eq_length_iff b (x :: A')).mp hfull
        have hallA' : ∀ y ∈ A', y = b :=
          fun y hy => hall y (List.mem_cons_of_mem _ hy)
        have hxb : x = b := hall x (List.mem_cons_self _ _)
        have hsA' : sufRun b A' = A'.length :=
          (sufRun_eq_length_iff b A').mpr hallA'
        have hbA' : bestRun b A' = A'.length :=
          bestRun_eq_length_of_all b A' hallA'
        rw [if_pos hsA', if_pos hxb]
        simp only [List.length_cons] at hfull ⊢
        omega
      · rw [if_neg hfull]
        by_cases hsf : sufRun b A' = A'.length
        · rw [if_pos hsf]
          have hallA' : ∀ y ∈ A', y = b :=
            (sufRun_eq_length_iff b A').mp hsf
          have hbA' : bestRun b A' = A'.length :=
            bestRun_eq_length_of_all b A' hallA'
          have hpA'full : prefRun b A' = A'.length :=
            (prefRun_eq_length_iff b A').mpr hallA'
          have hxb : ¬ x = b := by
            intro hc
            apply hfull
            refine (prefRun_eq_length_iff b (x :: A')).mpr ?_
            intro y hy
            rcases List.mem_cons.mp hy with h' | h'
            · rw [h', hc]
            · exact hallA' y h'
          rw [if_neg hxb]
          have hp0 : prefRun b (x :: A') = 0 := by
            rw [prefRun, if_neg hxb]
          rw [hp0]
          omega
        · rw [if_neg hsf]
          omega

/-- Spec node of a bit window. -/
def specNode (l : List Bool) : SegNode :=
  ⟨l.length, prefRun true l, sufRun true l, bestRun true l,
    prefRun false l, sufRun false l, bestRun false l⟩

/-- The empty node is the spec of the empty window. -/
theorem emptyNode_spec : emptyNode = specNode [] := rfl

/-- Key merge lemma: merging spec nodes concatenates windows. -/
theorem mergeSegNodes_spec (A B : List Bool) :
    mergeSegNodes (specNode A) (specNode B) = specNode (A ++ B) := by
  by_cases hA : A = []
  · subst hA
    have h : (specNode ([] : List Bool)).len = 0 := rfl
    rw [mergeSegNodes, if_pos h, List.nil_append]
  · by_cases hB : B = []
    · subst hB
      have h1 : ¬ (specNode A).len = 0 := by
        simp [specNode, hA]
      have h2 : (specNode ([] : List Bool)).len = 0 := rfl
      rw [mergeSegNodes, if_neg h1, if_pos h2, List.append_nil]
    · have h1 : ¬ (specNode A).len = 0 := by
        simp [specNode, hA]
      have h2 : ¬ (specNode B).len = 0 := by
        simp [specNode, hB]
      rw [mergeSegNodes, if_neg h1, if_neg h2]
      simp only [specNode]
      rw [List.length_append, prefRun_append, sufRun_append, bestRun_append,
        prefRun_append, sufRun_append, bestRun_append]

/-- A leaf node is the spec of its one-bit window. -/
theorem makeLeaf_spec (v : ℤ) : makeLeaf v = specNode [decide (0 < v)] := by
  by_cases hv : 0 < v
  · have hd : decide (0 < v) = true := decide_eq_true hv
    rw [hd]
    simp only [makeLeaf, if_pos hv]
    rfl
  · have hd : decide (0 < v) = false := decide_eq_false hv
    rw [hd]
    simp only [makeLeaf, if_neg hv]
    rfl

/-- The node recurrence computed by SegStreak.build: leaves at positions
size..size+n-1, internal nodes the merge of their children, slot 0 and
out-of-range leaves empty. -/
def segNodeAt (data : List ℤ) (size : Nat) (idx : Nat) : SegNode :=
  if idx = 0 then emptyNode
  else if size ≤ idx then
    (if idx - size < data.length then makeLeaf (data.getD (idx - size) 0)
     else emptyNode)
  else mergeSegNodes (segNodeAt data size (2 * idx))
    (segNodeAt data size (2 * idx + 1))
termination_by 2 * size - idx
decreasing_by
  · omega
  · omega

/-- The bit window covered by a tree node. -/
def segContent (data : List ℤ) (size : Nat) (idx : Nat) : List Bool :=
  if idx = 0 then []
  else if size ≤ idx then
    (if idx - size < data.length then [decide (0 < data.getD (idx - size) 0)]
     else [])
  else segContent data size (2 * idx) ++ segContent data size (2 * idx + 1)
termination_by 2 * size - idx
decreasing_by
  · omega
  · omega

/-- Every tree node is the spec node of its covered window. -/
theorem segNodeAt_spec_aux (data : List ℤ) (size : Nat) :
    ∀ m idx, 2 * size - idx ≤ m →
      segNodeAt data size idx = specNode (segContent data size idx) := by
  intro m
  induction m with
  | zero =>
      intro idx hm
      by_cases h0 : idx = 0
      · rw [segNodeAt, if_pos h0, segContent, if_pos h0, emptyNode_spec]
      · have hge : size ≤ idx := by omega
        rw [segNodeAt, if_neg h0, if_pos hge, segContent, if_neg h0,
          if_pos hge]
        by_cases hin : idx - size < data.length
        · rw [if_pos hin, if_pos hin, makeLeaf_spec]
        · rw [if_neg hin, if_neg hin, emptyNode_spec]
  | succ m ih =>
      intro idx hm
      by_cases h0 : idx = 0
      · rw [segNodeAt, if_pos h0, segContent, if_pos h0, emptyNode_spec]
      · by_cases hge : size ≤ idx
        · rw [segNodeAt, if_neg h0, if_pos hge, segContent, if_neg h0,
            if_pos hge]
          by_cases hin : idx - size < data.length
          · rw [if_pos hin, if_pos hin, makeLeaf_spec]
          · rw [if_neg hin, if_neg hin, emptyNode_spec]
        · rw [segNodeAt, if_neg h0, if_neg hge, segContent, if_neg h0,
            if_neg hge]
          rw [ih (2 * idx) (by omega), ih (2 * idx + 1) (by omega),
            mergeSegNodes_spec]

/-- Every tree node is the spec node of its covered window
(instantiated). -/
theorem segNodeAt_spec (data : List ℤ) (size idx : Nat) :
    segNodeAt data size idx = specNode (segContent data size idx) :=
  segNodeAt_spec_aux data size (2 * size - idx) idx le_rfl

/-- nextPowerOfTwo loop (let next = 1; while next < value: next <<= 1);
the positivity guard is vacuous on all reachable states. -/
def nextPowTwoGo (value next : Nat) : Nat :=
  if _h : next < value ∧ 0 < next then nextPowTwoGo value (2 * next)
  else next
termination_by value - next
decreasing_by omega

/-- nextPowerOfTwo from segStreak.ts. -/
def nextPowerOfTwo (value : Nat) : Nat := nextPowTwoGo value 1

/-- The doubling loop reaches at least value. -/
theorem nextPowTwoGo_ge (value : Nat) :
    ∀ m next, value - next ≤ m → 0 < next →
      value ≤ nextPowTwoGo value next ∧ 0 < nextPowTwoGo value next := by
  intro m
  induction m with
  | zero =>
      intro next hm hp
      rw [nextPowTwoGo, dif_neg (by omega)]
      omega
  | succ m ih =>
      intro next hm hp
      by_cases hg : next < value ∧ 0 < next
      · rw [nextPowTwoGo, dif_pos hg]
        exact ih (2 * next) (by omega) (by omega)
      · rw [nextPowTwoGo, dif_neg hg]
        omega

/-- nextPowerOfTwo is at least its argument and positive. -/
theorem nextPowerOfTwo_ge (value : Nat) :
    value ≤ nextPowerOfTwo value ∧ 0 < nextPowerOfTwo value :=
  nextPowTwoGo_ge value (value - 1) 1 (by omega) (by omega)

/-- Concatenated windows of the tree nodes a..b (left to right). -/
def joinContent (data : List ℤ) (size a b : Nat) : List Bool :=
  ((List.range' a (b + 1 - a)).map (segContent data size)).flatten

/-- Crossed node ranges cover nothing. -/
theorem joinContent_nil (data : List ℤ) (size a b : Nat) (h : b < a) :
    joinContent data size a b = [] := by
  rw [joinContent]
  have : b + 1 - a = 0 := by omega
  rw [this]
  rfl

/-- Peeling the leftmost node. -/
theorem joinContent_peel_left (data : List ℤ) (size a b : Nat) (h : a ≤ b) :
    joinContent data size a b =
      segContent data size a ++ joinContent data size (a + 1) b := by
  rw [joinContent, joinContent]
  have h1 : b + 1 - a = (b + 1 - (a + 1)) + 1 := by omega
  rw [h1, List.range'_succ]
  rfl

/-- Peeling the rightmost node. -/
theorem joinContent_peel_right (data : List ℤ) (size a b : Nat)
    (hab : a ≤ b) (hb : 1 ≤ b) :
    joinContent data size a b =
      joinContent data size a (b - 1) ++ segContent data size b := by
  rw [joinContent, joinContent]
  have h1 : b + 1 - a = ((b - 1) + 1 - a) + 1 := by omega
  rw [h1, List.range'_concat]
  have h2 : a + 1 * ((b - 1) + 1 - a) = b := by omega
  rw [h2, List.map_append, List.flatten_append]
  simp

/-- Rising one level: an aligned node range covers the same window as its
parents. -/
theorem joinContent_halve (data : List ℤ) (size : Nat) :
    ∀ m a b, b + 1 - a ≤ m →
      a % 2 = 0 → b % 2 = 1 → a ≤ b + 1 → 2 ≤ a → b < 2 * size →
      joinContent data size a b = joinContent data size (a / 2) (b / 2) := by
  intro m
  induction m with
  | zero =>
      intro a b hm hae hbo hab ha2 hbs
      have hcross : b < a := by omega
      rw [joinContent_nil data size a b hcross,
        joinContent_nil data size _ _ (by omega)]
  | succ m ih =>
      intro a b hm hae hbo hab ha2 hbs
      by_cases hcross : b < a
      · rw [joinContent_nil data size a b hcross,
          joinContent_nil data size _ _ (by omega)]
      · push_neg at hcross
        have hlt : a < b := by omega
        have ha1 : a + 1 ≤ b := by omega
        have hsz : 1 ≤ size := by omega
        have hparent : segContent data size (a / 2) =
            segContent data size a ++ segContent data size (a + 1) := by
          rw [segContent, if_neg (by omega : ¬ a / 2 = 0),
            if_neg (by omega : ¬ size ≤ a / 2)]
          have h2a : 2 * (a / 2) = a := by omega
          rw [h2a]
        rw [joinContent_peel_left data size a b (by omega),
          joinContent_peel_left data size (a + 1) b (by omega),
          joinContent_peel_left data size (a / 2) (b / 2) (by omega),
          hparent,
          ih (a + 2) b (by omega) (by omega) hbo (by omega) (by omega) hbs]
        have hhalf : (a + 2) / 2 = a / 2 + 1 := by omega
        rw [hhalf, List.append_assoc]

/-- The bottom-up query loop of SegStreak.query (ql/qr walk upward, odd
left nodes merged into leftResult, even right nodes into rightResult). -/
def segQueryGo (t : Nat → SegNode) (ql qr : Int) (lres rres : SegNode) :
    SegNode :=
  if qr < ql then mergeSegNodes lres rres
  else
    segQueryGo t
      ((if ql % 2 = 1 then ql + 1 else ql) / 2)
      ((if qr % 2 = 0 then qr - 1 else qr) / 2)
      (if ql % 2 = 1 then mergeSegNodes lres (t ql.toNat) else lres)
      (if qr % 2 = 0 then mergeSegNodes (t qr.toNat) rres else rres)
termination_by (qr - ql + 2).toNat
decreasing_by split_ifs <;> omega

/-- Crossed query bounds return the merge of the accumulators. -/
theorem segQueryGo_exit (data : List ℤ) (size a b : Nat)
    (JL JR : List Bool) (h : b < a) :
    segQueryGo (segNodeAt data size) (a : Int) (b : Int)
      (specNode JL) (specNode JR) =
    specNode (JL ++ joinContent data size a b ++ JR) := by
  rw [segQueryGo, if_pos (by exact_mod_cast h : (b : Int) < (a : Int)),
    mergeSegNodes_spec, joinContent_nil data size a b h]
  simp

/-- Loop invariant of the query walk: accumulated windows plus the windows
of the remaining node range always join to the same window. -/
theorem segQueryGo_correct (data : List ℤ) (size : Nat) :
    ∀ m (a b : Nat) (JL JR : List Bool), b + 2 - a ≤ m → 1 ≤ a →
      b < 2 * size →
      segQueryGo (segNodeAt data size) (a : Int) (b : Int)
        (specNode JL) (specNode JR) =
      specNode (JL ++ joinContent data size a b ++ JR) := by
  intro m
  induction m with
  | zero =>
      intro a b JL JR hm ha hbs
      exact segQueryGo_exit data size a b JL JR (by omega)
  | succ m ih =>
      intro a b JL JR hm ha hbs
      by_cases hba : b < a
      · exact segQueryGo_exit data size a b JL JR hba
      · push_neg at hba
        rw [segQueryGo, if_neg (by
          push_neg
          exact_mod_cast hba : ¬ (b : Int) < (a : Int))]
        by_cases hap : a % 2 = 1
        · have haInt : ((a : Int)) % 2 = 1 := by omega
          rw [if_pos haInt, if_pos haInt, Int.toNat_ofNat,
            segNodeAt_spec data size a, mergeSegNodes_spec]
          have hea : ((a : Int) + 1) / 2 = (((a + 1) / 2 : Nat) : Int) := by
            omega
          by_cases hbp : b % 2 = 0
          · have hbInt : ((b : Int)) % 2 = 0 := by omega
            rw [if_pos hbInt, if_pos hbInt, Int.toNat_ofNat,
              segNodeAt_spec data size b, mergeSegNodes_spec]
            have heb : ((b : Int) - 1) / 2 =
                (((b - 1) / 2 : Nat) : Int) := by omega
            rw [hea, heb,
              ih ((a + 1) / 2) ((b - 1) / 2) (JL ++ segContent data size a)
                (segContent data size b ++ JR) (by omega) (by omega)
                (by omega)]
            have hlt : a < b := by omega
            have hj1 := joinContent_peel_left data size a b (by omega)
            have hj2 := joinContent_peel_right data size (a + 1) b
              (by omega) (by omega)
            have hj3 := joinContent_halve data size (b + 1 - a) (a + 1)
              (b - 1) (by omega) (by omega) (by omega) (by omega) (by omega)
              (by omega)
            rw [hj1, hj2, hj3]
            simp [List.append_assoc]
          · have hbInt : ¬ ((b : Int)) % 2 = 0 := by omega
            rw [if_neg hbInt, if_neg hbInt]
            have heb : ((b : Int)) / 2 = ((b / 2 : Nat) : Int) := by
              omega
            rw [hea, heb,
              ih ((a + 1) / 2) (b / 2) (JL ++ segContent data size a) JR
                (by omega) (by omega) (by omega)]
            have hj1 := joinContent_peel_left data size a b (by omega)
            have hj3 := joinContent_halve data size (b + 1 - a) (a + 1) b
              (by omega) (by omega) (by omega) (by omega) (by omega) hbs
            rw [hj1, hj3]
            simp [List.append_assoc]
        · have haInt : ¬ ((a : Int)) % 2 = 1 := by omega
          rw [if_neg haInt, if_neg haInt]
          have hea : ((a : Int)) / 2 = ((a / 2 : Nat) : Int) := by
            omega
          by_cases hbp : b % 2 = 0
          · have hbInt : ((b : Int)) % 2 = 0 := by omega
            rw [if_pos hbInt, if_pos hbInt, Int.toNat_ofNat,
              segNodeAt_spec data size b, mergeSegNodes_spec]
            have heb : ((b : Int) - 1) / 2 =
                (((b - 1) / 2 : Nat) : Int) := by omega
            rw [hea, heb,
              ih (a / 2) ((b - 1) / 2) JL (segContent data size b ++ JR)
                (by omega) (by omega) (by omega)]
            have hj2 := joinContent_peel_right data size a b hba (by omega)
            have hj3 := joinContent_halve data size (b + 1 - a) a (b - 1)
              (by omega) (by omega) (by omega) (by omega) (by omega)
              (by omega)
            rw [hj2, hj3]
            simp [List.append_assoc]
          · have hbInt : ¬ ((b : Int)) % 2 = 0 := by omega
            rw [if_neg hbInt, if_neg hbInt]
            have heb : ((b : Int)) / 2 = ((b / 2 : Nat) : Int) := by
              omega
            rw [hea, heb,
              ih (a / 2) (b / 2) JL JR (by omega) (by omega) (by omega)]
            have hj3 := joinContent_halve data size (b + 1 - a) a b
              (by omega) (by omega) (by omega) (by omega) (by omega) hbs
            rw [hj3]

/-- SegStreak.query over the freshly built tree of the stored bit data:
clamp both ends into [0, n-1], empty node when n = 0 or the clamped ends
cross, else run the bottom-up walk from the leaf positions. -/
def segQuery (data : List ℤ) (l r : Int) : SegNode :=
  if data.length = 0 then emptyNode
  else if max 0 (min l ((data.length : Int) - 1)) >
      max 0 (min r ((data.length : Int) - 1)) then emptyNode
  else
    segQueryGo
      (segNodeAt data (nextPowerOfTwo (max 1 data.length)))
      (max 0 (min l ((data.length : Int) - 1)) +
        (nextPowerOfTwo (max 1 data.length) : Int))
      (max 0 (min r ((data.length : Int) - 1)) +
        (nextPowerOfTwo (max 1 data.length) : Int))
      emptyNode emptyNode

/-- The window of data bits on [l, r]. -/
def segWindow (data : List ℤ) (l r : Nat) : List Bool :=
  (List.range' l (r + 1 - l)).map fun i => decide (0 < data.getD i 0)

/-- Leaf ranges of the tree join to the corresponding data window. -/
theorem joinContent_leaves (data : List ℤ) (size : Nat)
    (hn : data.length ≤ size) (hs : 1 ≤ size) :
    ∀ cnt l, l + cnt < data.length →
      joinContent data size (size + l) (size + l + cnt) =
        (List.range' l (cnt + 1)).map fun i => decide (0 < data.getD i 0) := by
  intro cnt
  induction cnt with
  | zero =>
      intro l hl
      rw [joinContent]
      have h1 : size + l + 0 + 1 - (size + l) = 1 := by omega
      rw [h1]
      have hleaf : segContent data size (size + l) =
          [decide (0 < data.getD l 0)] := by
        rw [segContent, if_neg (by omega), if_pos (by omega)]
        have h2 : size + l - size = l := by omega
        rw [h2, if_pos (by omega)]
      simp [hleaf]
  | succ cnt ih =>
      intro l hl
      rw [joinContent_peel_left data size _ _ (by omega)]
      have hleaf : segContent data size (size + l) =
          [decide (0 < data.getD l 0)] := by
        rw [segContent, if_neg (by omega), if_pos (by omega)]
        have h2 : size + l - size = l := by omega
        rw [h2, if_pos (by omega)]
      have hstep : size + l + 1 = size + (l + 1) := by omega
      have hstep2 : size + l + (cnt + 1) = size + (l + 1) + cnt := by omega
      rw [hleaf, hstep, hstep2, ih (l + 1) (by omega)]
      have hr : List.range' l (cnt + 1 + 1) = l :: List.range' (l + 1) (cnt + 1) :=
        List.range'_succ l (cnt + 1) 1
      rw [hr]
      simp

/-- C3 (SegStreak half): query over the built tree returns the spec node
of the clamped window. -/
theorem segQuery_correct (data : List ℤ) (l r : Nat) (hlr : l ≤ r)
    (hr : r < data.length) :
    segQuery data (l : Int) (r : Int) = specNode (segWindow data l r) := by
  have hn0 : data.length ≠ 0 := by omega
  rw [segQuery, if_neg hn0]
  have hleft : max 0 (min (l : Int) ((data.length : Int) - 1)) = (l : Int) := by
    omega
  have hright : max 0 (min (r : Int) ((data.length : Int) - 1)) = (r : Int) := by
    omega
  rw [hleft, hright, if_neg (by omega)]
  obtain ⟨hge, hpos⟩ := nextPowerOfTwo_ge (max 1 data.length)
  set size := nextPowerOfTwo (max 1 data.length) with hsize
  have hcast1 : (l : Int) + (size : Int) = ((size + l : Nat) : Int) := by
    omega
  have hcast2 : (r : Int) + (size : Int) = ((size + r : Nat) : Int) := by
    omega
  rw [hcast1, hcast2, emptyNode_spec,
    segQueryGo_correct data size (size + r + 2 - (size + l)) (size + l)
      (size + r) [] [] le_rfl (by omega) (by omega)]
  have hjoin : size + r = size + l + (r - l) := by omega
  rw [hjoin, joinContent_leaves data size (by omega) (by omega) (r - l) l
    (by omega)]
  have hcnt : r - l + 1 = r + 1 - l := by omega
  rw [hcnt]
  simp [segWindow]

/-- Reading a consecutive index range through getD is the drop/take
slice. -/
theorem range_map_getD_eq {α : Type} (L : List α) (d : α) :
    ∀ cnt a, a + cnt ≤ L.length →
      (List.range' a cnt).map (fun i => L.getD i d) = (L.drop a).take cnt := by
  intro cnt
  induction cnt with
  | zero =>
      intro a _
      simp
  | succ cnt ih =>
      intro a ha
      rw [List.range'_succ a cnt 1]
      simp only [List.map_cons]
      rw [ih (a + 1) (by omega)]
      have hlt : a < L.length := by omega
      rw [List.drop_eq_getElem_cons hlt, List.take_succ_cons]
      congr 1
      rw [List.getD_eq_getElem?_getD, List.getElem?_eq_getElem hlt]
      rfl

/-- sliceSum as a drop/take sum. -/
theorem sliceSum_eq (data : List ℤ) (a b : Nat) (hab : a ≤ b)
    (hb : b ≤ data.length) :
    sliceSum data a b = ((data.drop a).take (b - a)).sum := by
  rw [sliceSum, range_map_getD_eq data 0 (b - a) a (by omega)]

/-- Integer image of a bit sequence (the number[] the structures store). -/
def bitsToInt (bits : List Bool) : List ℤ :=
  bits.map fun b => if b then 1 else 0

/-- The query window of the integer image is the bit slice. -/
theorem segWindow_eq (bits : List Bool) (l r : Nat) (hlr : l ≤ r)
    (hr : r < bits.length) :
    segWindow (bitsToInt bits) l r = (bits.drop l).take (r + 1 - l) := by
  rw [segWindow]
  have hstep : ∀ i ∈ List.range' l (r + 1 - l),
      decide (0 < (bitsToInt bits).getD i 0) = bits.getD i false := by
    intro i hi
    have hir : i < bits.length := by
      have := List.mem_range'_1.mp hi
      omega
    rw [List.getD_eq_getElem?_getD, List.getD_eq_getElem?_getD, bitsToInt,
      List.getElem?_map]
    cases ho : bits[i]? with
    | none => simp
    | some bb =>
        simp only [Option.map_some', Option.getD_some]
        cases bb
        all_goals simp
  rw [List.map_congr_left hstep,
    range_map_getD_eq bits false (r + 1 - l) l (by omega)]

/-- C3: for every bit sequence and window 0 <= l <= r < n, rangeSum of the
rebuilt Fenwick equals the slice sum of the stored data, and query of the
streak tree reports the longest run of ones (best1) and of zeroes (best0)
inside the window. -/
theorem fenwick_segstreak_window (bits : List Bool) (l r : Nat)
    (hlr : l ≤ r) (hr : r < bits.length) :
    fenRangeSum
        (fenBuildTree (bitsToInt bits) bits.length (max 1 bits.length))
        bits.length (l : Int) (r : Int) =
      (((bitsToInt bits).drop l).take (r + 1 - l)).sum ∧
    (segQuery (bitsToInt bits) (l : Int) (r : Int)).best1 =
      bestRun true ((bits.drop l).take (r + 1 - l)) ∧
    (segQuery (bitsToInt bits) (l : Int) (r : Int)).best0 =
      bestRun false ((bits.drop l).take (r + 1 - l)) := by
  have hlen : (bitsToInt bits).length = bits.length := List.length_map _ _
  refine ⟨?_, ?_, ?_⟩
  · rw [← hlen]
    rw [fenRangeSum_correct (bitsToInt bits) (max 1 (bitsToInt bits).length)
      l r (by omega) hlr (by omega)]
    rw [sliceSum_eq (bitsToInt bits) l (r + 1) (by omega) (by omega)]
  · rw [segQuery_correct (bitsToInt bits) l r hlr (by omega),
      ← segWindow_eq bits l r hlr hr]
    rfl
  · rw [segQuery_correct (bitsToInt bits) l r hlr (by omega),
      ← segWindow_eq bits l r hlr hr]
    rfl

/-- Witness for C3: the window [1, 3] of the bit sequence 1 0 1 1. -/
theorem fenwick_segstreak_window_witness :
    ((1 ≤ 3 ∧ 3 < [true, false, true, true].length) ∧
      (fenRangeSum
          (fenBuildTree (bitsToInt [true, false, true, true])
            [true, false, true, true].length
            (max 1 [true, false, true, true].length))
          [true, false, true, true].length ((1 : Nat) : Int)
          ((3 : Nat) : Int) =
        (((bitsToInt [true, false, true, true]).drop 1).take (3 + 1 - 1)).sum ∧
      (segQuery (bitsToInt [true, false, true, true]) ((1 : Nat) : Int)
          ((3 : Nat) : Int)).best1 =
        bestRun true (([true, false, true, true].drop 1).take (3 + 1 - 1)) ∧
      (segQuery (bitsToInt [true, false, true, true]) ((1 : Nat) : Int)
          ((3 : Nat) : Int)).best0 =
        bestRun false (([true, false, true, true].drop 1).take (3 + 1 - 1)))) :=
  ⟨⟨by decide, by decide⟩,
    fenwick_segstreak_window [true, false, true, true] 1 3 (by decide)
      (by decide)⟩

/-- Lists with equal getD profiles and lengths are equal. -/
theorem list_eq_of_getD {α : Type} (d : α) (l1 l2 : List α)
    (hlen : l1.length = l2.length)
    (h : ∀ j, j < l1.length → l1.getD j d = l2.getD j d) : l1 = l2 := by
  apply List.ext_getElem hlen
  intro i h1 h2
  have := h i h1
  rw [List.getD_eq_getElem?_getD, List.getD_eq_getElem?_getD,
    List.getElem?_eq_getElem h1, List.getElem?_eq_getElem h2] at this
  simpa using this

/-- getD of a mapped range. -/
theorem range_map_getD {α : Type} (f : Nat → α) (n i : Nat) (d : α) :
    ((List.range n).map f).getD i d = if i < n then f i else d := by
  by_cases hi : i < n
  · rw [if_pos hi, List.getD_eq_getElem?_getD, List.getElem?_map,
      List.getElem?_eq_getElem (by simpa using hi)]
    simp
  · rw [if_neg hi, List.getD_eq_getElem?_getD, List.getElem?_eq_none]
    · rfl
    · simpa using hi

/-- Position 0 is never on an update chain. -/
theorem inChain_zero (capacity s : Nat) : inChain capacity s 0 = false := by
  by_contra hc
  rw [Bool.not_eq_false] at hc
  have hle := inChain_le_aux capacity (capacity + 1 - s) s 0 le_rfl hc
  have hs0 : s = 0 := by omega
  subst hs0
  rw [inChain, dif_pos (Or.inl rfl)] at hc
  cases hc

/-- Slot 0 of the built tree stays 0. -/
theorem fenBuildTree_getD_zero (data : List ℤ) (n capacity : Nat) :
    (fenBuildTree data n capacity).getD 0 0 = 0 := by
  induction n with
  | zero =>
      rw [fenBuildTree]
      simp [List.getD_eq_getElem?_getD]
  | succ n ih =>
      have hstep : fenBuildTree data (n + 1) capacity =
          fenAddChain (fenBuildTree data n capacity) capacity (n + 1)
            (data.getD n 0) := by
        rw [fenBuildTree, fenBuildTree, List.range_succ, List.foldl_append]
        simp
      rw [hstep, fenAddChain_getD _ _ _ _ _
        (by rw [fenBuildTree_length]; omega), inChain_zero, ih]
      simp

/-- Slice sums only read entries below the right end. -/
theorem sliceSum_congr (d1 d2 : List ℤ) (a b : Nat)
    (h : ∀ i, i < b → d1.getD i 0 = d2.getD i 0) :
    sliceSum d1 a b = sliceSum d2 a b := by
  rw [sliceSum, sliceSum]
  congr 1
  refine List.map_congr_left ?_
  intro i hi
  have := List.mem_range'_1.mp hi
  exact h i (by omega)

/-- Slice sums of all-zero data vanish. -/
theorem sliceSum_zero (data : List ℤ) (a b : Nat)
    (h : ∀ i, data.getD i 0 = 0) : sliceSum data a b = 0 := by
  rw [sliceSum]
  refine List.sum_eq_zero ?_
  intro x hx
  rw [List.mem_map] at hx
  obtain ⟨i, _, hxi⟩ := hx
  rw [← hxi, h i]

/-- The built tree only reads data below n. -/
theorem fenBuildTree_congr (d1 d2 : List ℤ) (n capacity : Nat)
    (hn : n ≤ capacity)
    (h : ∀ i, i < n → d1.getD i 0 = d2.getD i 0) :
    fenBuildTree d1 n capacity = fenBuildTree d2 n capacity := by
  refine list_eq_of_getD 0 _ _ (by rw [fenBuildTree_length, fenBuildTree_length]) ?_
  intro j hj
  rw [fenBuildTree_length] at hj
  by_cases hj0 : j = 0
  · subst hj0
    rw [fenBuildTree_getD_zero, fenBuildTree_getD_zero]
  · rw [fenBuildTree_getD d1 capacity n hn j (by omega) (by omega),
      fenBuildTree_getD d2 capacity n hn j (by omega) (by omega)]
    refine sliceSum_congr _ _ _ _ ?_
    intro i hi
    exact h i (by omega)

/-- Effect of a point update on a slice sum. -/
theorem sliceSum_set (data : List ℤ) (idx : Nat) (x : ℤ)
    (hidx : idx < data.length) :
    ∀ b a, sliceSum (data.set idx x) a b =
      sliceSum data a b +
        (if a ≤ idx ∧ idx < b then x - data.getD idx 0 else 0) := by
  intro b
  induction b with
  | zero =>
      intro a
      rw [sliceSum_nil _ _ _ (by omega), sliceSum_nil _ _ _ (by omega),
        if_neg (by omega)]
      ring
  | succ b ih =>
      intro a
      by_cases hab : a ≤ b
      · rw [sliceSum_succ _ _ _ hab, sliceSum_succ _ _ _ hab, ih a]
        have hget : (data.set idx x).getD b 0 =
            if idx = b then x else data.getD b 0 := by
          by_cases he : idx = b
          · subst he
            rw [if_pos rfl, List.getD_eq_getElem?_getD,
              List.getElem?_set_eq_of_lt _ hidx]
            rfl
          · rw [if_neg he, List.getD_eq_getElem?_getD,
              List.getElem?_set_ne he, ← List.getD_eq_getElem?_getD]
        rw [hget]
        by_cases he : idx = b
        · subst he
          rw [if_pos rfl, if_neg (by omega : ¬ (a ≤ idx ∧ idx < idx)),
            if_pos (show a ≤ idx ∧ idx < idx + 1 by omega)]
          ring
        · rw [if_neg he]
          by_cases hc : a ≤ idx ∧ idx < b
          · rw [if_pos hc, if_pos (by omega : a ≤ idx ∧ idx < b + 1)]
            ring
          · rw [if_neg hc, if_neg (by omega : ¬ (a ≤ idx ∧ idx < b + 1))]
            ring
      · rw [sliceSum_nil _ _ _ (by omega), sliceSum_nil _ _ _ (by omega),
          if_neg (by omega)]
        ring

/-- State of a Fenwick instance (n, capacity, tree array, data array). -/
structure FenState where
  n : Nat
  capacity : Nat
  tree : List ℤ
  data : List ℤ
  deriving Repr

/-- new Fenwick(n). -/
def fenNew (n : Nat) : FenState :=
  { n := n, capacity := max 1 n,
    tree := List.replicate (max 1 n + 1) 0,
    data := List.replicate (max 1 n) 0 }

/-- Fenwick.rebuild(newCapacity): fresh tree and data arrays of the new
capacity, refilled from the first n stored values. -/
def fenRebuildTo (s : FenState) (newCapacity : Nat) : FenState :=
  { n := s.n, capacity := max 1 newCapacity,
    tree := fenBuildTree s.data s.n (max 1 newCapacity),
    data := (List.range (max 1 newCapacity)).map fun i =>
      if i < s.n then s.data.getD i 0 else 0 }

/-- Fenwick.ensureCapacity: double the capacity until it fits, then
rebuild. -/
def fenEnsure (s : FenState) (targetSize : Nat) : FenState :=
  if targetSize ≤ s.capacity then s
  else fenRebuildTo s (nextPowTwoGo targetSize s.capacity)

/-- Fenwick.add(i, delta). -/
def fenAdd (s : FenState) (i : Int) (delta : ℤ) : FenState :=
  if i < 0 ∨ (s.n : Int) ≤ i then s
  else if delta = 0 then s
  else
    { s with data := s.data.set i.toNat (s.data.getD i.toNat 0 + delta),
             tree := fenAddChain s.tree s.capacity (i.toNat + 1) delta }

/-- Fenwick.set(i, value). -/
def fenSet (s : FenState) (i : Int) (value : ℤ) : FenState :=
  if i < 0 ∨ (s.n : Int) ≤ i then s
  else fenAdd s i (value - s.data.getD i.toNat 0)

/-- Fenwick.append(value). -/
def fenAppend (s : FenState) (value : ℤ) : FenState :=
  let s₁ := fenEnsure s (s.n + 1)
  let s₂ := { s₁ with n := s₁.n + 1 }
  let s₃ := { s₂ with data := s₂.data.set (s₂.n - 1) 0 }
  fenAdd s₃ (((s₂.n - 1 : Nat) : Int)) value

/-- Well-formed Fenwick state: the tree is exactly the array rebuild would
produce from the stored data, which is zero from n on. -/
def FenWF (s : FenState) : Prop :=
  s.n ≤ s.capacity ∧ 1 ≤ s.capacity ∧ s.data.length = s.capacity ∧
  (∀ i, s.n ≤ i → s.data.getD i 0 = 0) ∧
  s.tree = fenBuildTree s.data s.n s.capacity

/-- A fresh Fenwick is well-formed and all-zero. -/
theorem fenNew_WF (n : Nat) :
    FenWF (fenNew n) ∧ (fenNew n).n = n ∧
    (∀ i, (fenNew n).data.getD i 0 = 0) := by
  have hz : ∀ i, (List.replicate (max 1 n) (0 : ℤ)).getD i 0 = 0 := by
    intro i
    rw [List.getD_eq_getElem?_getD]
    by_cases hi : i < max 1 n
    · rw [List.getElem?_eq_getElem (by
        simp only [List.length_replicate]
        omega)]
      simp
    · rw [List.getElem?_eq_none (by
        simp only [List.length_replicate]
        omega)]
      rfl
  refine ⟨⟨by simp [fenNew], by simp [fenNew], by simp [fenNew],
    fun i _ => hz i, ?_⟩, rfl, hz⟩
  refine list_eq_of_getD 0 _ _ (by simp [fenNew, fenBuildTree_length]) ?_
  intro j hj
  simp only [fenNew] at hj ⊢
  rw [List.length_replicate] at hj
  have hrep : (List.replicate (max 1 n + 1) (0 : ℤ)).getD j 0 = 0 := by
    rw [List.getD_eq_getElem?_getD, List.getElem?_eq_getElem (by simpa using hj)]
    simp
  rw [hrep]
  by_cases hj0 : j = 0
  · subst hj0
    rw [fenBuildTree_getD_zero]
  · rw [fenBuildTree_getD _ _ n (by omega) j (by omega) (by omega),
      sliceSum_zero _ _ _ hz]

/-- add outside the range or with zero delta is the identity. -/
theorem fenAdd_skip (s : FenState) (i : Int) (delta : ℤ)
    (h : i < 0 ∨ (s.n : Int) ≤ i ∨ delta = 0) : fenAdd s i delta = s := by
  rw [fenAdd]
  by_cases h1 : i < 0 ∨ (s.n : Int) ≤ i
  · rw [if_pos h1]
  · rw [if_neg h1, if_pos (by tauto)]

/-- In-range add with nonzero delta: well-formedness is preserved and the
data receives the delta at the index. -/
theorem fenAdd_main (s : FenState) (idx : Nat) (delta : ℤ)
    (hidx : idx < s.n) (hδ : delta ≠ 0) (hwf : FenWF s) :
    FenWF (fenAdd s (idx : Int) delta) ∧
    (fenAdd s (idx : Int) delta).n = s.n ∧
    (fenAdd s (idx : Int) delta).capacity = s.capacity ∧
    (fenAdd s (idx : Int) delta).data =
      s.data.set idx (s.data.getD idx 0 + delta) := by
  obtain ⟨hnc, hc1, hdl, hz, ht⟩ := hwf
  have hguard : ¬ ((idx : Int) < 0 ∨ (s.n : Int) ≤ (idx : Int)) := by omega
  rw [fenAdd, if_neg hguard, if_neg hδ]
  have htn : ((idx : Int)).toNat = idx := Int.toNat_ofNat idx
  rw [htn]
  have hidxl : idx < s.data.length := by omega
  refine ⟨⟨hnc, hc1, by rw [List.length_set]; exact hdl, ?_, ?_⟩, rfl, rfl, rfl⟩
  · intro i hi
    have hne : idx ≠ i := by
      intro hc
      rw [← hc] at hi
      simp only [fenNew] at hi
      omega
    rw [List.getD_eq_getElem?_getD, List.getElem?_set_ne hne,
      ← List.getD_eq_getElem?_getD]
    exact hz i (le_trans (le_of_eq rfl) hi)
  · rw [ht]
    refine list_eq_of_getD 0 _ _ ?_ ?_
    · rw [fenAddChain_length, fenBuildTree_length, fenBuildTree_length]
    · intro j hj
      rw [fenAddChain_length, fenBuildTree_length] at hj
      rw [fenAddChain_getD _ _ _ _ _ (by rw [fenBuildTree_length]; omega)]
      by_cases hj0 : j = 0
      · subst hj0
        rw [inChain_zero, fenBuildTree_getD_zero, fenBuildTree_getD_zero]
        simp
      · rw [fenBuildTree_getD _ _ _ hnc j (by omega) (by omega),
          fenBuildTree_getD _ _ _ hnc j (by omega) (by omega),
          sliceSum_set s.data idx _ hidxl (min j s.n) (j - lowbit j)]
        have hchain := inChain_iff s.capacity (idx + 1) j (by omega)
          (by omega) (by omega)
        by_cases hin : inChain s.capacity (idx + 1) j = true
        · rw [hin]
          obtain ⟨h1, h2⟩ := hchain.mp hin
          rw [if_pos (by omega : j - lowbit j ≤ idx ∧ idx < min j s.n)]
          simp
        · rw [Bool.not_eq_true] at hin
          rw [hin]
          have hnot : ¬ (j - lowbit j < idx + 1 ∧ idx + 1 ≤ j) := by
            intro hc
            rw [← Bool.not_eq_true] at hin
            exact hin (hchain.mpr hc)
          rw [if_neg (by omega : ¬ (j - lowbit j ≤ idx ∧ idx < min j s.n))]
          simp [hin]

/-- The doubling loop never shrinks. -/
theorem nextPowTwoGo_ge_start (value : Nat) :
    ∀ m next, value - next ≤ m → next ≤ nextPowTwoGo value next := by
  intro m
  induction m with
  | zero =>
      intro next hm
      rw [nextPowTwoGo]
      by_cases hg : next < value ∧ 0 < next
      · omega
      · rw [dif_neg hg]
  | succ m ih =>
      intro next hm
      rw [nextPowTwoGo]
      by_cases hg : next < value ∧ 0 < next
      · rw [dif_pos hg]
        have := ih (2 * next) (by omega)
        omega
      · rw [dif_neg hg]

/-- rebuild to a capacity that still holds all n entries: well-formed,
same logical content. -/
theorem fenRebuildTo_WF (s : FenState) (newCapacity : Nat)
    (hwf : FenWF s) (hn : s.n ≤ max 1 newCapacity) :
    FenWF (fenRebuildTo s newCapacity) ∧
    (fenRebuildTo s newCapacity).n = s.n ∧
    (fenRebuildTo s newCapacity).capacity = max 1 newCapacity ∧
    (∀ i, (fenRebuildTo s newCapacity).data.getD i 0 = s.data.getD i 0) := by
  obtain ⟨hnc, hc1, hdl, hz, _⟩ := hwf
  have hdget : ∀ i, ((List.range (max 1 newCapacity)).map fun i =>
      if i < s.n then s.data.getD i 0 else 0).getD i 0 = s.data.getD i 0 := by
    intro i
    rw [range_map_getD]
    by_cases hi : i < max 1 newCapacity
    · rw [if_pos hi]
      by_cases hin : i < s.n
      · rw [if_pos hin]
      · rw [if_neg hin, hz i (by omega)]
    · rw [if_neg hi, hz i (by omega)]
  refine ⟨⟨hn, le_max_left 1 newCapacity, by simp [fenRebuildTo], ?_, ?_⟩,
    rfl, rfl, hdget⟩
  · intro i hi
    have := hdget i
    simp only [fenRebuildTo] at *
    rw [this, hz i hi]
  · simp only [fenRebuildTo]
    refine fenBuildTree_congr _ _ _ _ hn ?_
    intro i hi
    rw [hdget i]

/-- ensureCapacity: well-formed, same content, capacity at least the
target. -/
theorem fenEnsure_WF (s : FenState) (t : Nat) (hwf : FenWF s) :
    FenWF (fenEnsure s t) ∧ (fenEnsure s t).n = s.n ∧
    t ≤ (fenEnsure s t).capacity ∧
    (∀ i, (fenEnsure s t).data.getD i 0 = s.data.getD i 0) := by
  rw [fenEnsure]
  by_cases hg : t ≤ s.capacity
  · rw [if_pos hg]
    exact ⟨hwf, rfl, hg, fun i => rfl⟩
  · rw [if_neg hg]
    have hge := nextPowTwoGo_ge t (t - s.capacity) s.capacity (by omega)
      (by have := hwf.2.1; omega)
    have hst := nextPowTwoGo_ge_start t (t - s.capacity) s.capacity
      (by omega)
    obtain ⟨h1, h2, h3, h4⟩ := fenRebuildTo_WF s (nextPowTwoGo t s.capacity)
      hwf (by have := hwf.1; omega)
    exact ⟨h1, h2, by omega, h4⟩

/-- append: well-formed, n grows by one, the new cell holds the value. -/
theorem fenAppend_WF (s : FenState) (v : ℤ) (hwf : FenWF s) :
    FenWF (fenAppend s v) ∧ (fenAppend s v).n = s.n + 1 ∧
    (∀ j, (fenAppend s v).data.getD j 0 =
      if j < s.n then s.data.getD j 0 else if j = s.n then v else 0) := by
  obtain ⟨hwf₁, hn₁, hcap₁, hget₁⟩ := fenEnsure_WF s (s.n + 1) hwf
  set s₁ := fenEnsure s (s.n + 1) with hs₁
  obtain ⟨hnc₁, hc1₁, hdl₁, hz₁, ht₁⟩ := hwf₁
  have hzs : s.data.getD s.n 0 = 0 := hwf.2.2.2.1 s.n le_rfl
  have hznth : s₁.data.getD s₁.n 0 = 0 := hz₁ s₁.n le_rfl
  have hsetid : ∀ j, (s₁.data.set s₁.n 0).getD j 0 = s₁.data.getD j 0 := by
    intro j
    by_cases hj : j = s₁.n
    · rw [hj]
      by_cases hlt : s₁.n < s₁.data.length
      · rw [List.getD_eq_getElem?_getD, List.getElem?_set_eq_of_lt _ hlt,
          hznth]
        rfl
      · rw [List.getD_eq_getElem?_getD, List.getElem?_eq_none (by
          rw [List.length_set]
          omega), List.getD_eq_getElem?_getD,
          List.getElem?_eq_none (by omega)]
    · rw [List.getD_eq_getElem?_getD, List.getElem?_set_ne (by omega),
        ← List.getD_eq_getElem?_getD]
  have hs₃wf : FenWF ⟨s₁.n + 1, s₁.capacity, s₁.tree,
      s₁.data.set s₁.n 0⟩ := by
    refine ⟨by simp only []; omega, hc1₁,
      by simp only [List.length_set]; omega, ?_, ?_⟩
    · intro i hi
      simp only [] at hi ⊢
      rw [hsetid i]
      exact hz₁ i (by omega)
    · simp only []
      have hcongr : fenBuildTree (s₁.data.set s₁.n 0) (s₁.n + 1)
          s₁.capacity = fenBuildTree s₁.data (s₁.n + 1) s₁.capacity :=
        fenBuildTree_congr _ _ _ _ (by omega) (fun i _ => hsetid i)
      rw [hcongr]
      have hstep : fenBuildTree s₁.data (s₁.n + 1) s₁.capacity =
          fenAddChain (fenBuildTree s₁.data s₁.n s₁.capacity) s₁.capacity
            (s₁.n + 1) (s₁.data.getD s₁.n 0) := by
        rw [fenBuildTree, fenBuildTree, List.range_succ, List.foldl_append]
        simp
      rw [hstep, hznth, ht₁]
      refine (list_eq_of_getD 0 _ _ (by rw [fenAddChain_length]) ?_).symm
      intro j hj
      rw [fenAddChain_length] at hj
      rw [fenAddChain_getD _ _ _ _ _ hj]
      by_cases hc : inChain s₁.capacity (s₁.n + 1) j = true
      · rw [hc]
        simp
      · rw [Bool.not_eq_true] at hc
        rw [hc]
        simp
  have hunf : fenAppend s v =
      fenAdd ⟨s₁.n + 1, s₁.capacity, s₁.tree, s₁.data.set (s₁.n + 1 - 1) 0⟩
        (((s₁.n + 1 - 1 : Nat) : Int)) v := rfl
  have hminus : s₁.n + 1 - 1 = s₁.n := rfl
  rw [hunf, hminus]
  by_cases hv : v = 0
  · subst hv
    rw [fenAdd_skip ⟨s₁.n + 1, s₁.capacity, s₁.tree, s₁.data.set s₁.n 0⟩ _ 0
      (Or.inr (Or.inr rfl))]
    refine ⟨hs₃wf, by show s₁.n + 1 = s.n + 1; omega, ?_⟩
    intro j
    show (s₁.data.set s₁.n 0).getD j 0 = _
    rw [hsetid j]
    by_cases hj : j < s.n
    · rw [if_pos hj, hget₁ j]
    · rw [if_neg hj]
      by_cases hj2 : j = s.n
      · rw [if_pos hj2, hj2, hget₁ s.n, hzs]
      · rw [if_neg hj2, hz₁ j (by omega)]
  · obtain ⟨hwfF, hnF, hcF, hdF⟩ :=
      fenAdd_main ⟨s₁.n + 1, s₁.capacity, s₁.tree, s₁.data.set s₁.n 0⟩
        s₁.n v (by show s₁.n < s₁.n + 1; omega) hv hs₃wf
    refine ⟨hwfF, ?_, ?_⟩
    · rw [hnF]
      show s₁.n + 1 = s.n + 1
      omega
    · intro j
      rw [hdF]
      show ((s₁.data.set s₁.n 0).set s₁.n
        ((s₁.data.set s₁.n 0).getD s₁.n 0 + v)).getD j 0 = _
      rw [hsetid s₁.n, hznth]
      have hlen3 : s₁.n < (s₁.data.set s₁.n 0).length := by
        rw [List.length_set]
        omega
      by_cases hj : j = s₁.n
      · rw [hj, List.getD_eq_getElem?_getD,
          List.getElem?_set_eq_of_lt _ hlen3]
        simp only [Option.getD_some]
        rw [if_neg (by omega), if_pos (by omega)]
        ring
      · rw [List.getD_eq_getElem?_getD, List.getElem?_set_ne (by omega),
          ← List.getD_eq_getElem?_getD, hsetid j]
        by_cases hjn : j < s.n
        · rw [if_pos hjn, hget₁ j]
        · rw [if_neg hjn, if_neg (by omega), hz₁ j (by omega)]

/-- Prefix sums of a built tree at logical size n. -/
theorem fenSum_correct' (data : List ℤ) (n capacity i : Nat)
    (hn : n ≤ capacity) (hi : i < n) :
    fenSum (fenBuildTree data n capacity) n (i : Int) =
      sliceSum data 0 (i + 1) := by
  have hn0 : n ≠ 0 := by omega
  rw [fenSum, if_neg hn0]
  have hmin : min (i : Int) ((n : Int) - 1) = (i : Int) := by omega
  rw [hmin, if_neg (by omega), Int.toNat_ofNat]
  exact fenSumChain_correct data n capacity hn (i + 1) (i + 1) le_rfl
    (by omega)

/-- Range sums of a built tree at logical size n. -/
theorem fenRangeSum_correct' (data : List ℤ) (n capacity l r : Nat)
    (hn : n ≤ capacity) (hlr : l ≤ r) (hr : r < n) :
    fenRangeSum (fenBuildTree data n capacity) n (l : Int) (r : Int) =
      sliceSum data l (r + 1) := by
  have hn0 : n ≠ 0 := by omega
  rw [fenRangeSum, if_neg hn0]
  have hleft : max 0 (min (l : Int) ((n : Int) - 1)) = (l : Int) := by omega
  have hright : max 0 (min (r : Int) ((n : Int) - 1)) = (r : Int) := by omega
  rw [hleft, hright, if_neg (by omega), fenSum_correct' data n capacity r hn hr]
  by_cases hl0 : l = 0
  · subst hl0
    have hneg : min (((0 : Nat) : Int) - 1) ((n : Int) - 1) < 0 := by omega
    rw [fenSum, if_neg hn0, if_pos hneg]
    ring
  · have hminl : min ((l : Int) - 1) ((n : Int) - 1) = (l : Int) - 1 := by
      omega
    rw [fenSum, if_neg hn0, hminl, if_neg (by omega)]
    have htn : ((l : Int) - 1).toNat + 1 = l := by omega
    rw [htn, fenSumChain_correct data n capacity hn l l le_rfl (by omega)]
    rw [sliceSum_split data 0 l (r + 1) (by omega) (by omega)]
    ring

/-- Range sums of a well-formed Fenwick state. -/
theorem fenRangeSum_WF (s : FenState) (hwf : FenWF s) (l r : Nat)
    (hlr : l ≤ r) (hr : r < s.n) :
    fenRangeSum s.tree s.n (l : Int) (r : Int) = sliceSum s.data l (r + 1) := by
  rw [hwf.2.2.2.2]
  exact fenRangeSum_correct' s.data s.n s.capacity l r hwf.1 hlr hr

/-- State of a SegStreak instance (n, size, node array, stored bits). -/
structure SegState where
  n : Nat
  size : Nat
  tree : List SegNode
  data : List ℤ
  deriving Repr

/-- Leaf phase of SegStreak.build: fresh empty array, one leaf per stored
entry. -/
def segBuildLeaves (data : List ℤ) (size : Nat) : List SegNode :=
  (List.range data.length).foldl
    (fun t i => t.set (size + i) (makeLeaf (data.getD i 0)))
    (List.replicate (2 * size) emptyNode)

/-- Internal phase of SegStreak.build: merge children from size-1 down
to 1. -/
def segBuildTree (data : List ℤ) (size : Nat) : List SegNode :=
  (List.range (size - 1)).foldl
    (fun t k =>
      t.set (size - 1 - k)
        (mergeSegNodes (t.getD (2 * (size - 1 - k)) emptyNode)
          (t.getD (2 * (size - 1 - k) + 1) emptyNode)))
    (segBuildLeaves data size)

/-- new SegStreak(values). -/
def segNew (values : List ℤ) : SegState :=
  { n := (values.map fun v => if 0 < v then (1 : ℤ) else 0).length,
    size := nextPowerOfTwo
      (max 1 (values.map fun v => if 0 < v then (1 : ℤ) else 0).length),
    tree := segBuildTree (values.map fun v => if 0 < v then (1 : ℤ) else 0)
      (nextPowerOfTwo
        (max 1 (values.map fun v => if 0 < v then (1 : ℤ) else 0).length)),
    data := values.map fun v => if 0 < v then (1 : ℤ) else 0 }

/-- SegStreak.ensureCapacity. -/
def segEnsure (s : SegState) (minSize : Nat) : SegState :=
  if minSize ≤ s.size then s
  else
    { s with size := nextPowerOfTwo minSize,
             tree := segBuildTree s.data (nextPowerOfTwo minSize) }

/-- Ancestor walk of SegStreak.update (while treeIndex >= 1: recompute the
node from its children; treeIndex >>= 1). -/
def segPathUp (tree : List SegNode) (i : Nat) : List SegNode :=
  if _h : i = 0 then tree
  else
    segPathUp
      (tree.set i (mergeSegNodes (tree.getD (2 * i) emptyNode)
        (tree.getD (2 * i + 1) emptyNode))) (i / 2)
termination_by i
decreasing_by omega

/-- SegStreak.update(pos, value). -/
def segUpdate (s : SegState) (pos : Int) (value : ℤ) : SegState :=
  if pos < 0 ∨ (s.n : Int) ≤ pos then s
  else if s.data.getD pos.toNat 0 = (if 0 < value then 1 else 0) then s
  else
    { s with
      data := s.data.set pos.toNat (if 0 < value then 1 else 0),
      tree := segPathUp
        (s.tree.set (s.size + pos.toNat)
          (makeLeaf (if 0 < value then 1 else 0)))
        ((s.size + pos.toNat) / 2) }

/-- SegStreak.append(value): grow, push a -1 placeholder, then update the
new last slot with the bit. -/
def segAppend (s : SegState) (value : ℤ) : SegState :=
  let s₁ := segEnsure s (s.n + 1)
  let s₂ := { s₁ with data := s₁.data ++ [-1], n := s₁.n + 1 }
  segUpdate s₂ (((s₂.n - 1 : Nat) : Int)) (if 0 < value then 1 else 0)

/-- Well-formed SegStreak state: node array is the canonical recurrence of
the stored data. -/
def SegWF (s : SegState) : Prop :=
  s.data.length = s.n ∧ s.n ≤ s.size ∧ 1 ≤ s.size ∧
  s.tree.length = 2 * s.size ∧
  ∀ j, s.tree.getD j emptyNode = segNodeAt s.data s.size j

/-- getD profile after the leaf phase. -/
theorem segBuildLeaves_getD (data : List ℤ) (size : Nat)
    (hn : data.length ≤ size) :
    (segBuildLeaves data size).length = 2 * size ∧
    ∀ j, (segBuildLeaves data size).getD j emptyNode =
      if size ≤ j ∧ j - size < data.length
      then makeLeaf (data.getD (j - size) 0) else emptyNode := by
  rw [segBuildLeaves]
  have hrep : ∀ j, (List.replicate (2 * size) emptyNode).getD j emptyNode =
      emptyNode := by
    intro j
    rw [List.getD_eq_getElem?_getD]
    by_cases hj : j < 2 * size
    · rw [List.getElem?_eq_getElem (by simp only [List.length_replicate]; omega)]
      simp
    · rw [List.getElem?_eq_none (by simp only [List.length_replicate]; omega)]
      rfl
  suffices h : ∀ m, m ≤ data.length →
      ((List.range m).foldl
        (fun t i => t.set (size + i) (makeLeaf (data.getD i 0)))
        (List.replicate (2 * size) emptyNode)).length = 2 * size ∧
      ∀ j, ((List.range m).foldl
        (fun t i => t.set (size + i) (makeLeaf (data.getD i 0)))
        (List.replicate (2 * size) emptyNode)).getD j emptyNode =
        if size ≤ j ∧ j - size < m
        then makeLeaf (data.getD (j - size) 0) else emptyNode by
    obtain ⟨h1, h2⟩ := h data.length le_rfl
    exact ⟨h1, h2⟩
  intro m
  induction m with
  | zero =>
      intro _
      refine ⟨by simp, ?_⟩
      intro j
      simp only [List.range_zero, List.foldl_nil]
      rw [hrep j, if_neg (by omega)]
  | succ m ih =>
      intro hm
      obtain ⟨ihlen, ihget⟩ := ih (by omega)
      rw [List.range_succ, List.foldl_append]
      simp only [List.foldl_cons, List.foldl_nil]
      refine ⟨by rw [List.length_set]; exact ihlen, ?_⟩
      intro j
      by_cases hj : j = size + m
      · rw [hj, List.getD_eq_getElem?_getD,
          List.getElem?_set_eq_of_lt _ (by rw [ihlen]; omega)]
        simp only [Option.getD_some]
        rw [if_pos (by omega)]
        have : size + m - size = m := by omega
        rw [this]
      · rw [List.getD_eq_getElem?_getD, List.getElem?_set_ne (by omega),
          ← List.getD_eq_getElem?_getD, ihget j]
        by_cases hc : size ≤ j ∧ j - size < m
        · rw [if_pos hc, if_pos (by omega)]
        · rw [if_neg hc, if_neg (by omega)]

/-- The descending merge loop makes every node canonical. -/
theorem segBuildTree_getD (data : List ℤ) (size : Nat)
    (hn : data.length ≤ size) (hs : 1 ≤ size) :
    (segBuildTree data size).length = 2 * size ∧
    ∀ j, (segBuildTree data size).getD j emptyNode =
      segNodeAt data size j := by
  obtain ⟨hllen, hlget⟩ := segBuildLeaves_getD data size hn
  have hleafcanon : ∀ j, size ≤ j →
      (segBuildLeaves data size).getD j emptyNode = segNodeAt data size j := by
    intro j hj
    rw [hlget j]
    rw [segNodeAt, if_neg (show ¬ j = 0 by omega), if_pos hj]
    by_cases hin : j - size < data.length
    · rw [if_pos (show size ≤ j ∧ j - size < data.length from ⟨hj, hin⟩),
        if_pos hin]
    · rw [if_neg (show ¬ (size ≤ j ∧ j - size < data.length) from
        fun hc => hin hc.2), if_neg hin]
  rw [segBuildTree]
  suffices h : ∀ t, t ≤ size - 1 →
      ((List.range t).foldl
        (fun tr k =>
          tr.set (size - 1 - k)
            (mergeSegNodes (tr.getD (2 * (size - 1 - k)) emptyNode)
              (tr.getD (2 * (size - 1 - k) + 1) emptyNode)))
        (segBuildLeaves data size)).length = 2 * size ∧
      (∀ j, size - t ≤ j →
        ((List.range t).foldl
          (fun tr k =>
            tr.set (size - 1 - k)
              (mergeSegNodes (tr.getD (2 * (size - 1 - k)) emptyNode)
                (tr.getD (2 * (size - 1 - k) + 1) emptyNode)))
          (segBuildLeaves data size)).getD j emptyNode =
          segNodeAt data size j) ∧
      (∀ j, j < size - t →
        ((List.range t).foldl
          (fun tr k =>
            tr.set (size - 1 - k)
              (mergeSegNodes (tr.getD (2 * (size - 1 - k)) emptyNode)
                (tr.getD (2 * (size - 1 - k) + 1) emptyNode)))
          (segBuildLeaves data size)).getD j emptyNode = emptyNode) by
    obtain ⟨h1, h2, h3⟩ := h (size - 1) le_rfl
    refine ⟨h1, ?_⟩
    intro j
    by_cases hj : size - (size - 1) ≤ j
    · exact h2 j hj
    · have hj0 : j = 0 := by omega
      rw [h3 j (by omega), hj0, segNodeAt, if_pos rfl]
  intro t
  induction t with
  | zero =>
      intro _
      refine ⟨hllen, ?_, ?_⟩
      · intro j hj
        exact hleafcanon j (by omega)
      · intro j hj
        show (segBuildLeaves data size).getD j emptyNode = emptyNode
        rw [hlget j, if_neg (by omega)]
  | succ t ih =>
      intro ht
      obtain ⟨ihlen, ihcan, ihemp⟩ := ih (by omega)
      rw [List.range_succ, List.foldl_append]
      simp only [List.foldl_cons, List.foldl_nil]
      set T := (List.range t).foldl
        (fun tr k =>
          tr.set (size - 1 - k)
            (mergeSegNodes (tr.getD (2 * (size - 1 - k)) emptyNode)
              (tr.getD (2 * (size - 1 - k) + 1) emptyNode)))
        (segBuildLeaves data size) with hT
      have hi : size - 1 - t = size - (t + 1) := by omega
      have hi1 : 1 ≤ size - 1 - t := by omega
      have hilt : size - 1 - t < size := by omega
      have hmerge : mergeSegNodes (T.getD (2 * (size - 1 - t)) emptyNode)
          (T.getD (2 * (size - 1 - t) + 1) emptyNode) =
          segNodeAt data size (size - 1 - t) := by
        rw [ihcan (2 * (size - 1 - t)) (by omega),
          ihcan (2 * (size - 1 - t) + 1) (by omega)]
        have hrhs : segNodeAt data size (size - 1 - t) =
            mergeSegNodes (segNodeAt data size (2 * (size - 1 - t)))
              (segNodeAt data size (2 * (size - 1 - t) + 1)) := by
          rw [segNodeAt, if_neg (show ¬ (size - 1 - t) = 0 by omega),
            if_neg (show ¬ size ≤ size - 1 - t by omega)]
        rw [hrhs]
      refine ⟨by rw [List.length_set]; exact ihlen, ?_, ?_⟩
      · intro j hj
        by_cases hje : j = size - 1 - t
        · rw [hje, List.getD_eq_getElem?_getD,
            List.getElem?_set_eq_of_lt _ (by rw [ihlen]; omega)]
          simp only [Option.getD_some]
          exact hmerge
        · rw [List.getD_eq_getElem?_getD, List.getElem?_set_ne (by omega),
            ← List.getD_eq_getElem?_getD]
          exact ihcan j (by omega)
      · intro j hj
        rw [List.getD_eq_getElem?_getD, List.getElem?_set_ne (by omega),
          ← List.getD_eq_getElem?_getD]
        exact ihemp j (by omega)

/-- Nodes off the ancestor path of leaf slot p never read the changed
entry: data agreeing away from p - size gives equal nodes. -/
theorem segNodeAt_off_path (d1 d2 : List ℤ) (size idx : Nat)
    (hag : ∀ i, i ≠ idx → d1.getD i 0 = d2.getD i 0)
    (hlen : ∀ i, i ≠ idx → (i < d1.length ↔ i < d2.length)) :
    ∀ m j, 2 * size - j ≤ m →
      ¬ (∃ k, (size + idx) / 2 ^ k = j ∧ 1 ≤ j) →
      segNodeAt d1 size j = segNodeAt d2 size j := by
  intro m
  induction m with
  | zero =>
      intro j hm hp
      by_cases h0 : j = 0
      · rw [segNodeAt, if_pos h0, segNodeAt, if_pos h0]
      · have hge : size ≤ j := by omega
        have hne : j - size ≠ idx := by
          intro hc
          exact hp ⟨0, by simp; omega, by omega⟩
        rw [segNodeAt, if_neg h0, if_pos hge, segNodeAt, if_neg h0,
          if_pos hge, hag (j - size) hne]
        by_cases hin : j - size < d1.length
        · rw [if_pos hin, if_pos ((hlen (j - size) hne).mp hin)]
        · rw [if_neg hin, if_neg (fun hc => hin ((hlen (j - size) hne).mpr hc))]
  | succ m ih =>
      intro j hm hp
      by_cases h0 : j = 0
      · rw [segNodeAt, if_pos h0, segNodeAt, if_pos h0]
      · by_cases hge : size ≤ j
        · have hne : j - size ≠ idx := by
            intro hc
            exact hp ⟨0, by simp; omega, by omega⟩
          rw [segNodeAt, if_neg h0, if_pos hge, segNodeAt, if_neg h0,
            if_pos hge, hag (j - size) hne]
          by_cases hin : j - size < d1.length
          · rw [if_pos hin, if_pos ((hlen (j - size) hne).mp hin)]
          · rw [if_neg hin,
              if_neg (fun hc => hin ((hlen (j - size) hne).mpr hc))]
        · have hchild : ∀ c, c = 2 * j ∨ c = 2 * j + 1 →
              ¬ (∃ k, (size + idx) / 2 ^ k = c ∧ 1 ≤ c) := by
            intro c hc hex
            obtain ⟨k, hk, hc1⟩ := hex
            refine hp ⟨k + 1, ?_, by omega⟩
            have hdiv : (size + idx) / 2 ^ (k + 1) =
                (size + idx) / 2 ^ k / 2 := by
              rw [pow_succ, Nat.div_div_eq_div_mul]
            rw [hdiv, hk]
            rcases hc with hc | hc
            · rw [hc]
              omega
            · rw [hc]
              omega
          have hL : segNodeAt d1 size j = mergeSegNodes
              (segNodeAt d1 size (2 * j)) (segNodeAt d1 size (2 * j + 1)) := by
            rw [segNodeAt, if_neg h0, if_neg hge]
          have hR : segNodeAt d2 size j = mergeSegNodes
              (segNodeAt d2 size (2 * j)) (segNodeAt d2 size (2 * j + 1)) := by
            rw [segNodeAt, if_neg h0, if_neg hge]
          rw [hL, hR,
            ih (2 * j) (by omega) (hchild (2 * j) (Or.inl rfl)),
            ih (2 * j + 1) (by omega) (hchild (2 * j + 1) (Or.inr rfl))]

/-- The ancestor walk restores canonicity: if everything off the walk is
already canonical, everything is canonical afterwards. -/
theorem segPathUp_correct (data : List ℤ) (size : Nat) :
    ∀ i tree, i < size → 1 ≤ size → tree.length = 2 * size →
      (∀ j, ¬ (∃ k, i / 2 ^ k = j ∧ 1 ≤ j) →
        tree.getD j emptyNode = segNodeAt data size j) →
      (segPathUp tree i).length = 2 * size ∧
      ∀ j, (segPathUp tree i).getD j emptyNode = segNodeAt data size j := by
  intro i
  induction i using Nat.strong_induction_on with
  | _ i ihs =>
      intro tree hi hs hlen hcan
      by_cases h0 : i = 0
      · subst h0
        rw [segPathUp, dif_pos rfl]
        refine ⟨hlen, ?_⟩
        intro j
        refine hcan j ?_
        intro ⟨k, hk, hj1⟩
        rw [Nat.zero_div] at hk
        omega
      · rw [segPathUp, dif_neg h0]
        have hchildcan : ∀ c, c = 2 * i ∨ c = 2 * i + 1 →
            tree.getD c emptyNode = segNodeAt data size c := by
          intro c hc
          refine hcan c ?_
          intro ⟨k, hk, hc1⟩
          have : i / 2 ^ k ≤ i := Nat.div_le_self i _
          rcases hc with hc | hc
          all_goals omega
        have hmerge : mergeSegNodes (tree.getD (2 * i) emptyNode)
            (tree.getD (2 * i + 1) emptyNode) = segNodeAt data size i := by
          rw [hchildcan (2 * i) (Or.inl rfl), hchildcan (2 * i + 1) (Or.inr rfl)]
          have hrhs : segNodeAt data size i =
              mergeSegNodes (segNodeAt data size (2 * i))
                (segNodeAt data size (2 * i + 1)) := by
            rw [segNodeAt, if_neg h0, if_neg (show ¬ size ≤ i by omega)]
          rw [hrhs]
        refine ihs (i / 2) (by omega) _ (by omega) hs
          (by rw [List.length_set]; exact hlen) ?_
        intro j hj
        by_cases hji : j = i
        · rw [hji, List.getD_eq_getElem?_getD,
            List.getElem?_set_eq_of_lt _ (by rw [hlen]; omega)]
          simp only [Option.getD_some]
          exact hmerge
        · rw [List.getD_eq_getElem?_getD, List.getElem?_set_ne (by omega),
            ← List.getD_eq_getElem?_getD]
          refine hcan j ?_
          intro ⟨k, hk, hj1⟩
          rcases Nat.eq_zero_or_pos k with hk0 | hkpos
          · subst hk0
            rw [pow_zero, Nat.div_one] at hk
            exact hji hk.symm
          · refine hj ⟨k - 1, ?_, hj1⟩
            have hdiv : i / 2 / 2 ^ (k - 1) = i / 2 ^ k := by
              rw [Nat.div_div_eq_div_mul]
              congr 1
              rw [← pow_succ']
              congr 1
              omega
            rw [hdiv]
            exact hk

/-- getD after set at a different index. -/
theorem getD_set_ne {α : Type} (l : List α) (d : α) (i j : Nat) (a : α)
    (h : i ≠ j) : (l.set i a).getD j d = l.getD j d := by
  rw [List.getD_eq_getElem?_getD, List.getElem?_set_ne h,
    ← List.getD_eq_getElem?_getD]

/-- getD after set at the same in-range index. -/
theorem getD_set_eq {α : Type} (l : List α) (d : α) (i : Nat) (a : α)
    (h : i < l.length) : (l.set i a).getD i d = a := by
  rw [List.getD_eq_getElem?_getD, List.getElem?_set_eq_of_lt _ h]
  rfl

/-- getD beyond the length is the default. -/
theorem getD_of_len_le {α : Type} (l : List α) (d : α) (i : Nat)
    (h : l.length ≤ i) : l.getD i d = d := by
  rw [List.getD_eq_getElem?_getD, List.getElem?_eq_none h]
  rfl

/-- Halving steps compose on the 2-adic ancestor chain. -/
theorem div_pow_shift (x k : Nat) (hk : 1 ≤ k) :
    x / 2 ^ k = x / 2 / 2 ^ (k - 1) := by
  rw [Nat.div_div_eq_div_mul]
  congr 1
  rw [← pow_succ']
  congr 1
  omega

/-- Setting the leaf slot of a changed entry and walking the ancestors
restores the canonical node array for the updated data. -/
theorem segTreeFix_canon (dold dnew : List ℤ) (size idx : Nat) (v : ℤ)
    (tree : List SegNode) (hidx : idx < size) (hs : 1 ≤ size)
    (hlen : tree.length = 2 * size)
    (hcanon : ∀ j, tree.getD j emptyNode = segNodeAt dold size j)
    (hag : ∀ i, i ≠ idx → dold.getD i 0 = dnew.getD i 0)
    (hil : ∀ i, i ≠ idx → (i < dold.length ↔ i < dnew.length))
    (hin : idx < dnew.length) (hv : dnew.getD idx 0 = v) :
    (segPathUp (tree.set (size + idx) (makeLeaf v))
      ((size + idx) / 2)).length = 2 * size ∧
    ∀ j, (segPathUp (tree.set (size + idx) (makeLeaf v))
      ((size + idx) / 2)).getD j emptyNode = segNodeAt dnew size j := by
  refine segPathUp_correct dnew size ((size + idx) / 2) _ (by omega) hs
    (by rw [List.length_set]; exact hlen) ?_
  intro j hj
  by_cases hjl : j = size + idx
  · rw [hjl, List.getD_eq_getElem?_getD,
      List.getElem?_set_eq_of_lt _ (by rw [hlen]; omega)]
    simp only [Option.getD_some]
    have hnode : segNodeAt dnew size (size + idx) = makeLeaf v := by
      rw [segNodeAt, if_neg (show ¬ size + idx = 0 by omega),
        if_pos (show size ≤ size + idx by omega)]
      have hsub : size + idx - size = idx := by omega
      rw [hsub, if_pos hin, hv]
    rw [hnode]
  · rw [List.getD_eq_getElem?_getD, List.getElem?_set_ne (by omega),
      ← List.getD_eq_getElem?_getD, hcanon j]
    refine segNodeAt_off_path dold dnew size idx hag hil (2 * size - j) j
      le_rfl ?_
    intro ⟨k, hk, h1⟩
    rcases Nat.eq_zero_or_pos k with hk0 | hkpos
    · subst hk0
      rw [pow_zero, Nat.div_one] at hk
      exact hjl hk.symm
    · refine hj ⟨k - 1, ?_, h1⟩
      rw [← div_pow_shift (size + idx) k hkpos]
      exact hk

/-- The update that passes both early-return guards takes the set-and-fix
branch. -/
theorem segUpdate_main (s : SegState) (pos : Int) (value : ℤ)
    (hg : ¬ (pos < 0 ∨ (s.n : Int) ≤ pos))
    (hne : ¬ s.data.getD pos.toNat 0 = (if 0 < value then 1 else 0)) :
    segUpdate s pos value = { s with
      data := s.data.set pos.toNat (if 0 < value then 1 else 0),
      tree := segPathUp (s.tree.set (s.size + pos.toNat)
        (makeLeaf (if 0 < value then 1 else 0)))
        ((s.size + pos.toNat) / 2) } := by
  rw [segUpdate, if_neg hg, if_neg hne]

/-- SegStreak.update: well-formedness is preserved, n and size are
untouched, and the stored data receives the bit at an in-range index. -/
theorem segUpdate_WF (s : SegState) (pos : Int) (value : ℤ) (hwf : SegWF s) :
    SegWF (segUpdate s pos value) ∧ (segUpdate s pos value).n = s.n ∧
    (segUpdate s pos value).size = s.size ∧
    ∀ i, (segUpdate s pos value).data.getD i 0 =
      if 0 ≤ pos ∧ pos < (s.n : Int) ∧ i = pos.toNat
      then (if 0 < value then 1 else 0) else s.data.getD i 0 := by
  obtain ⟨hdl, hns, hs1, htl, hcanon⟩ := hwf
  by_cases hg : pos < 0 ∨ (s.n : Int) ≤ pos
  · rw [segUpdate, if_pos hg]
    refine ⟨⟨hdl, hns, hs1, htl, hcanon⟩, rfl, rfl, fun i => ?_⟩
    rw [if_neg (by omega)]
  · by_cases heq : s.data.getD pos.toNat 0 = (if 0 < value then (1 : ℤ) else 0)
    · rw [segUpdate, if_neg hg, if_pos heq]
      refine ⟨⟨hdl, hns, hs1, htl, hcanon⟩, rfl, rfl, fun i => ?_⟩
      by_cases hi : 0 ≤ pos ∧ pos < (s.n : Int) ∧ i = pos.toNat
      · rw [if_pos hi, hi.2.2, heq]
      · rw [if_neg hi]
    · have hg' : 0 ≤ pos ∧ pos < (s.n : Int) := by omega
      have hidxn : pos.toNat < s.n := by omega
      have hag : ∀ i, i ≠ pos.toNat → s.data.getD i 0 =
          (s.data.set pos.toNat (if 0 < value then (1 : ℤ) else 0)).getD i 0 := by
        intro i hi
        exact (getD_set_ne s.data 0 pos.toNat i _ (fun hc => hi hc.symm)).symm
      have hil : ∀ i, i ≠ pos.toNat → (i < s.data.length ↔
          i < (s.data.set pos.toNat (if 0 < value then (1 : ℤ) else 0)).length) := by
        intro i hi
        rw [List.length_set]
      have hin : pos.toNat <
          (s.data.set pos.toNat (if 0 < value then (1 : ℤ) else 0)).length := by
        rw [List.length_set]
        omega
      have hv : (s.data.set pos.toNat
          (if 0 < value then (1 : ℤ) else 0)).getD pos.toNat 0 =
          (if 0 < value then (1 : ℤ) else 0) :=
        getD_set_eq s.data 0 pos.toNat _ (by omega)
      obtain ⟨hfixlen, hfixget⟩ := segTreeFix_canon s.data
        (s.data.set pos.toNat (if 0 < value then (1 : ℤ) else 0)) s.size
        pos.toNat (if 0 < value then (1 : ℤ) else 0) s.tree (by omega) hs1
        htl hcanon hag hil hin hv
      rw [segUpdate_main s pos value hg heq]
      refine ⟨⟨?_, hns, hs1, hfixlen, hfixget⟩, rfl, rfl, fun i => ?_⟩
      · show (s.data.set pos.toNat (if 0 < value then (1 : ℤ) else 0)).length
          = s.n
        rw [List.length_set]
        exact hdl
      · by_cases hi : i = pos.toNat
        · rw [if_pos (show 0 ≤ pos ∧ pos < (s.n : Int) ∧ i = pos.toNat from
            ⟨hg'.1, hg'.2, hi⟩)]
          show (s.data.set pos.toNat
            (if 0 < value then (1 : ℤ) else 0)).getD i 0 = _
          rw [hi]
          exact getD_set_eq s.data 0 pos.toNat _ (by omega)
        · rw [if_neg (show ¬ (0 ≤ pos ∧ pos < (s.n : Int) ∧ i = pos.toNat)
            from fun hc => hi hc.2.2)]
          show (s.data.set pos.toNat
            (if 0 < value then (1 : ℤ) else 0)).getD i 0 = s.data.getD i 0
          exact getD_set_ne s.data 0 pos.toNat i _ (fun hc => hi hc.symm)

/-- SegStreak.ensureCapacity: well-formed, same content, size at least the
target. -/
theorem segEnsure_WF (s : SegState) (minSize : Nat) (hwf : SegWF s) :
    SegWF (segEnsure s minSize) ∧ (segEnsure s minSize).n = s.n ∧
    (segEnsure s minSize).data = s.data ∧
    minSize ≤ (segEnsure s minSize).size := by
  obtain ⟨hdl, hns, hs1, htl, hcanon⟩ := hwf
  rw [segEnsure]
  by_cases hg : minSize ≤ s.size
  · rw [if_pos hg]
    exact ⟨⟨hdl, hns, hs1, htl, hcanon⟩, rfl, rfl, hg⟩
  · rw [if_neg hg]
    obtain ⟨hge, hpos⟩ := nextPowerOfTwo_ge minSize
    obtain ⟨hbl, hbg⟩ := segBuildTree_getD s.data (nextPowerOfTwo minSize)
      (by omega) (by omega)
    refine ⟨⟨?_, ?_, ?_, hbl, hbg⟩, rfl, rfl, ?_⟩
    · show s.data.length = s.n
      exact hdl
    · show s.n ≤ nextPowerOfTwo minSize
      omega
    · show 1 ≤ nextPowerOfTwo minSize
      omega
    · show minSize ≤ nextPowerOfTwo minSize
      omega

/-- A fresh SegStreak is well-formed and stores the bitified values. -/
theorem segNew_WF (values : List ℤ) :
    SegWF (segNew values) ∧ (segNew values).n = values.length ∧
    (segNew values).data = values.map fun v => if 0 < v then (1 : ℤ) else 0 := by
  obtain ⟨hge, hpos⟩ := nextPowerOfTwo_ge
    (max 1 (values.map fun v => if 0 < v then (1 : ℤ) else 0).length)
  obtain ⟨hbl, hbg⟩ := segBuildTree_getD
    (values.map fun v => if 0 < v then (1 : ℤ) else 0)
    (nextPowerOfTwo
      (max 1 (values.map fun v => if 0 < v then (1 : ℤ) else 0).length))
    (by omega) (by omega)
  refine ⟨⟨rfl, ?_, ?_, hbl, hbg⟩, by simp [segNew], rfl⟩
  · show (values.map fun v => if 0 < v then (1 : ℤ) else 0).length ≤
      nextPowerOfTwo
        (max 1 (values.map fun v => if 0 < v then (1 : ℤ) else 0).length)
    omega
  · show 1 ≤ nextPowerOfTwo
      (max 1 (values.map fun v => if 0 < v then (1 : ℤ) else 0).length)
    omega

/-- Setting the slot right after a one-element extension replaces it. -/
theorem set_append_last {α : Type} (l : List α) (a b : α) :
    (l ++ [a]).set l.length b = l ++ [b] := by
  induction l with
  | nil => rfl
  | cons x xs ih =>
      show x :: ((xs ++ [a]).set xs.length b) = x :: (xs ++ [b])
      rw [ih]

/-- getD just past a list, after a one-element extension. -/
theorem getD_append_length {α : Type} (l : List α) (a d : α) :
    (l ++ [a]).getD l.length d = a := by
  rw [List.getD_eq_getElem?_getD, List.getElem?_append_right le_rfl]
  simp

/-- getD below the left part of an append reads the left part. -/
theorem getD_append_lt {α : Type} (l l' : List α) (d : α) (i : Nat)
    (h : i < l.length) : (l ++ l').getD i d = l.getD i d := by
  rw [List.getD_eq_getElem?_getD, List.getElem?_append, if_pos h,
    ← List.getD_eq_getElem?_getD]

/-- SegStreak.append: well-formed state preserved, n grows by one, and the
stored data gains the bit of the pushed value. -/
theorem segAppend_WF (s : SegState) (value : ℤ) (hwf : SegWF s) :
    SegWF (segAppend s value) ∧ (segAppend s value).n = s.n + 1 ∧
    (segAppend s value).data = s.data ++ [if 0 < value then 1 else 0] := by
  obtain ⟨hwf₁, hn₁, hd₁, hsz₁⟩ := segEnsure_WF s (s.n + 1) hwf
  set s₁ := segEnsure s (s.n + 1) with hs₁def
  obtain ⟨hdl₁, hns₁, hs1₁, htl₁, hcanon₁⟩ := hwf₁
  have hbit2 : (if 0 < (if 0 < value then (1 : ℤ) else 0) then (1 : ℤ) else 0)
      = (if 0 < value then (1 : ℤ) else 0) := by
    by_cases hv : 0 < value
    · rw [if_pos hv, if_pos (by omega : (0 : ℤ) < 1)]
    · rw [if_neg hv, if_neg (by omega : ¬ (0 : ℤ) < 0)]
  have hunf : segAppend s value =
      segUpdate (⟨s₁.n + 1, s₁.size, s₁.tree, s₁.data ++ [-1]⟩ : SegState)
        ((s₁.n : Nat) : Int) (if 0 < value then 1 else 0) := rfl
  have hg2 : ¬ (((s₁.n : Nat) : Int) < 0 ∨
      ((s₁.n + 1 : Nat) : Int) ≤ ((s₁.n : Nat) : Int)) := by omega
  have hne2 : ¬ (s₁.data ++ [(-1 : ℤ)]).getD s₁.n 0 =
      (if 0 < (if 0 < value then (1 : ℤ) else 0) then (1 : ℤ) else 0) := by
    rw [hbit2, ← hdl₁, getD_append_length]
    by_cases hv : 0 < value
    · rw [if_pos hv]
      omega
    · rw [if_neg hv]
      omega
  rw [hunf, segUpdate_main _ _ _ hg2 hne2, hbit2, Int.toNat_ofNat]
  have hset : (s₁.data ++ [(-1 : ℤ)]).set s₁.n
      (if 0 < value then (1 : ℤ) else 0) =
      s₁.data ++ [if 0 < value then (1 : ℤ) else 0] := by
    rw [← hdl₁, set_append_last]
  rw [hset]
  have hag : ∀ i, i ≠ s₁.n → s₁.data.getD i 0 =
      (s₁.data ++ [if 0 < value then (1 : ℤ) else 0]).getD i 0 := by
    intro i hi
    by_cases hlt : i < s₁.data.length
    · exact (getD_append_lt s₁.data _ 0 i hlt).symm
    · rw [getD_of_len_le s₁.data 0 i (by omega),
        getD_of_len_le _ 0 i (by
          simp only [List.length_append, List.length_singleton]
          omega)]
  have hil : ∀ i, i ≠ s₁.n → (i < s₁.data.length ↔
      i < (s₁.data ++ [if 0 < value then (1 : ℤ) else 0]).length) := by
    intro i hi
    simp only [List.length_append, List.length_singleton]
    omega
  have hin : s₁.n <
      (s₁.data ++ [if 0 < value then (1 : ℤ) else 0]).length := by
    simp only [List.length_append, List.length_singleton]
    omega
  have hv2 : (s₁.data ++ [if 0 < value then (1 : ℤ) else 0]).getD s₁.n 0 =
      (if 0 < value then (1 : ℤ) else 0) := by
    rw [← hdl₁, getD_append_length]
  obtain ⟨hfixlen, hfixget⟩ := segTreeFix_canon s₁.data
    (s₁.data ++ [if 0 < value then (1 : ℤ) else 0]) s₁.size s₁.n
    (if 0 < value then (1 : ℤ) else 0) s₁.tree (by omega) hs1₁ htl₁
    hcanon₁ hag hil hin hv2
  refine ⟨⟨?_, ?_, ?_, hfixlen, hfixget⟩, ?_, ?_⟩
  · show (s₁.data ++ [if 0 < value then (1 : ℤ) else 0]).length = s₁.n + 1
    simp only [List.length_append, List.length_singleton]
    omega
  · show s₁.n + 1 ≤ s₁.size
    omega
  · show 1 ≤ s₁.size
    exact hs1₁
  · show s₁.n + 1 = s.n + 1
    omega
  · show s₁.data ++ [if 0 < value then (1 : ℤ) else 0] =
      s.data ++ [if 0 < value then (1 : ℤ) else 0]
    rw [hd₁]

/-- SegStreak.query on a live state: clamp both ends into [0, n-1], empty
node when n = 0 or the clamped ends cross, else run the bottom-up walk
over the node array from the leaf positions. -/
def segQueryState (s : SegState) (l r : Int) : SegNode :=
  if s.n = 0 then emptyNode
  else if max 0 (min l ((s.n : Int) - 1)) >
      max 0 (min r ((s.n : Int) - 1)) then emptyNode
  else
    segQueryGo (fun i => s.tree.getD i emptyNode)
      (max 0 (min l ((s.n : Int) - 1)) + (s.size : Int))
      (max 0 (min r ((s.n : Int) - 1)) + (s.size : Int))
      emptyNode emptyNode

/-- Query of a well-formed state returns the spec node of the window. -/
theorem segQueryState_correct (s : SegState) (hwf : SegWF s) (l r : Nat)
    (hlr : l ≤ r) (hr : r < s.n) :
    segQueryState s (l : Int) (r : Int) = specNode (segWindow s.data l r) := by
  obtain ⟨hdl, hns, hs1, htl, hcanon⟩ := hwf
  have hn0 : ¬ s.n = 0 := by omega
  rw [segQueryState, if_neg hn0]
  have hleft : max 0 (min (l : Int) ((s.n : Int) - 1)) = (l : Int) := by omega
  have hright : max 0 (min (r : Int) ((s.n : Int) - 1)) = (r : Int) := by
    omega
  rw [hleft, hright, if_neg (by omega)]
  have hacc : (fun i => s.tree.getD i emptyNode) = segNodeAt s.data s.size :=
    funext fun i => hcanon i
  rw [hacc]
  have hcast1 : (l : Int) + (s.size : Int) = ((s.size + l : Nat) : Int) := by
    omega
  have hcast2 : (r : Int) + (s.size : Int) = ((s.size + r : Nat) : Int) := by
    omega
  rw [hcast1, hcast2, emptyNode_spec,
    segQueryGo_correct s.data s.size (s.size + r + 2 - (s.size + l))
      (s.size + l) (s.size + r) [] [] le_rfl (by omega) (by omega)]
  have hjoin : s.size + r = s.size + l + (r - l) := by omega
  rw [hjoin,
    joinContent_leaves s.data s.size (by omega) hs1 (r - l) l (by omega)]
  have hcnt : r - l + 1 = r + 1 - l := by omega
  rw [hcnt]
  simp [segWindow]

/-- toBusyBit from TimelineAnalytics: 1 for a non-empty pid other than
IDLE (an undefined cell is modelled as the empty string). -/
def toBusyBit (pid : String) : ℤ :=
  if pid = "" ∨ pid = "IDLE" then 0 else 1

/-- The bits array built by rebuild: gantt.map(toBusyBit). -/
def busyBits (gantt : List String) : List ℤ := gantt.map toBusyBit

/-- clampTick from the analytics module (the floor of an integer input is
itself). -/
def clampTick (value maxTick : Int) : Int :=
  max 0 (min value (max 0 maxTick))

/-- The stats record returned by getRangeStats. -/
structure RangeStats where
  busyTicks : ℤ
  idleTicks : ℤ
  utilPct : ℚ
  longestBusyStreak : Nat
  longestIdleStreak : Nat
  totalTicks : ℤ
  deriving DecidableEq, Repr

/-- EMPTY_STATS. -/
def EMPTY_STATS : RangeStats := ⟨0, 0, 0, 0, 0, 0⟩

/-- State of a TimelineAnalytics instance. -/
structure TAState where
  gantt : List String
  fenwickBusy : FenState
  fenwickIdle : FenState
  segStreakBusyIdle : SegState

/-- The fill loop of rebuild: one fenwickBusy.add and one fenwickIdle.add
per bit. -/
def taRebuildFens (bits : List ℤ) : FenState × FenState :=
  (List.range bits.length).foldl
    (fun p (index : Nat) => (fenAdd p.1 (index : Int) (bits.getD index 0),
      fenAdd p.2 (index : Int) (1 - bits.getD index 0)))
    (fenNew bits.length, fenNew bits.length)

/-- TimelineAnalytics.rebuild (also the constructor). -/
def taRebuild (gantt : List String) : TAState :=
  { gantt := gantt,
    fenwickBusy := (taRebuildFens (busyBits gantt)).1,
    fenwickIdle := (taRebuildFens (busyBits gantt)).2,
    segStreakBusyIdle := segNew (busyBits gantt) }

/-- TimelineAnalytics.updateTick. -/
def taUpdateTick (st : TAState) (index : Nat) (nextPid : String) : TAState :=
  if toBusyBit (st.gantt.getD index "") = toBusyBit nextPid then st
  else
    { st with
      fenwickBusy := fenAdd st.fenwickBusy (index : Int)
        (toBusyBit nextPid - toBusyBit (st.gantt.getD index "")),
      fenwickIdle := fenAdd st.fenwickIdle (index : Int)
        (toBusyBit (st.gantt.getD index "") - toBusyBit nextPid),
      segStreakBusyIdle := segUpdate st.segStreakBusyIdle (index : Int)
        (toBusyBit nextPid) }

/-- TimelineAnalytics.appendTick. -/
def taAppendTick (st : TAState) (pid : String) : TAState :=
  { st with
    fenwickBusy := fenAppend st.fenwickBusy (toBusyBit pid),
    fenwickIdle := fenAppend st.fenwickIdle (1 - toBusyBit pid),
    segStreakBusyIdle := segAppend st.segStreakBusyIdle (toBusyBit pid) }

/-- TimelineAnalytics.sync: rebuild when shorter; per-tick updates when
the length is unchanged; rebuild on a prefix mismatch; otherwise append
the extension. -/
def taSync (st : TAState) (next : List String) : TAState :=
  if next.length < st.gantt.length then taRebuild next
  else if next.length = st.gantt.length then
    { (List.range next.length).foldl
        (fun acc index =>
          if next.getD index "" = acc.gantt.getD index "" then acc
          else taUpdateTick acc index (next.getD index "")) st
      with gantt := next }
  else if (List.range st.gantt.length).any
      (fun index => ! (next.getD index "" == st.gantt.getD index "")) then
    taRebuild next
  else
    { (List.range' st.gantt.length (next.length - st.gantt.length)).foldl
        (fun acc index => taAppendTick acc (next.getD index "")) st
      with gantt := next }

/-- TimelineAnalytics.getRangeStats. -/
def taGetRangeStats (st : TAState) (l r : Int) : RangeStats :=
  if st.gantt.length = 0 then EMPTY_STATS
  else if clampTick (min l r) ((st.gantt.length : Int) - 1) >
      clampTick (max l r) ((st.gantt.length : Int) - 1) then EMPTY_STATS
  else
    { busyTicks := fenRangeSum st.fenwickBusy.tree st.fenwickBusy.n
        (clampTick (min l r) ((st.gantt.length : Int) - 1))
        (clampTick (max l r) ((st.gantt.length : Int) - 1)),
      idleTicks := (clampTick (max l r) ((st.gantt.length : Int) - 1) -
        clampTick (min l r) ((st.gantt.length : Int) - 1) + 1) -
        fenRangeSum st.fenwickBusy.tree st.fenwickBusy.n
          (clampTick (min l r) ((st.gantt.length : Int) - 1))
          (clampTick (max l r) ((st.gantt.length : Int) - 1)),
      utilPct := if clampTick (max l r) ((st.gantt.length : Int) - 1) -
          clampTick (min l r) ((st.gantt.length : Int) - 1) + 1 > 0
        then ((fenRangeSum st.fenwickBusy.tree st.fenwickBusy.n
            (clampTick (min l r) ((st.gantt.length : Int) - 1))
            (clampTick (max l r) ((st.gantt.length : Int) - 1)) : ℚ) /
          ((clampTick (max l r) ((st.gantt.length : Int) - 1) -
            clampTick (min l r) ((st.gantt.length : Int) - 1) + 1 : Int) : ℚ))
          * 100
        else 0,
      longestBusyStreak := (segQueryState st.segStreakBusyIdle
        (clampTick (min l r) ((st.gantt.length : Int) - 1))
        (clampTick (max l r) ((st.gantt.length : Int) - 1))).best1,
      longestIdleStreak := (segQueryState st.segStreakBusyIdle
        (clampTick (min l r) ((st.gantt.length : Int) - 1))
        (clampTick (max l r) ((st.gantt.length : Int) - 1))).best0,
      totalTicks := clampTick (max l r) ((st.gantt.length : Int) - 1) -
        clampTick (min l r) ((st.gantt.length : Int) - 1) + 1 }

/-- The well-formedness tying a TimelineAnalytics state to its timeline:
the busy Fenwick and the streak tree both hold the busy bits of the
timeline (the idle Fenwick is never read by getRangeStats). -/
def TAWF (st : TAState) (g : List String) : Prop :=
  st.gantt = g ∧
  FenWF st.fenwickBusy ∧ st.fenwickBusy.n = g.length ∧
  (∀ i, st.fenwickBusy.data.getD i 0 = (busyBits g).getD i 0) ∧
  SegWF st.segStreakBusyIdle ∧ st.segStreakBusyIdle.n = g.length ∧
  (∀ i, st.segStreakBusyIdle.data.getD i 0 = (busyBits g).getD i 0)

/-- Rebitifying a busy bit is the identity. -/
theorem toBusyBit_bit (p : String) :
    (if 0 < toBusyBit p then (1 : ℤ) else 0) = toBusyBit p := by
  rw [toBusyBit]
  by_cases hc : p = "" ∨ p = "IDLE"
  · rw [if_pos hc, if_neg (by omega : ¬ (0 : ℤ) < 0)]
  · rw [if_neg hc, if_pos (by omega : (0 : ℤ) < 1)]

/-- Reading the bits array inside the range. -/
theorem busyBits_getD (g : List String) (i : Nat) (h : i < g.length) :
    (busyBits g).getD i 0 = toBusyBit (g.getD i "") := by
  rw [busyBits, List.getD_eq_getElem?_getD, List.getElem?_map,
    List.getElem?_eq_getElem h, List.getD_eq_getElem?_getD,
    List.getElem?_eq_getElem h]
  rfl

/-- Bitifying the bits array is the identity. -/
theorem busyBits_bitify (g : List String) :
    ((busyBits g).map fun v => if 0 < v then (1 : ℤ) else 0) = busyBits g := by
  induction g with
  | nil => rfl
  | cons p t ih =>
      show (if 0 < toBusyBit p then (1 : ℤ) else 0) ::
        ((busyBits t).map fun v => if 0 < v then (1 : ℤ) else 0) =
        toBusyBit p :: busyBits t
      rw [ih, toBusyBit_bit]

/-- A product fold of two independent updates splits componentwise. -/
theorem foldl_prod {α β γ : Type} (f : α → γ → α) (g : β → γ → β) :
    ∀ (l : List γ) (a : α) (b : β),
      l.foldl (fun p c => (f p.1 c, g p.2 c)) (a, b) =
        (l.foldl f a, l.foldl g b) := by
  intro l
  induction l with
  | nil =>
      intro a b
      rfl
  | cons x xs ih =>
      intro a b
      exact ih (f a x) (g b x)

/-- The rebuild fill loop of the busy Fenwick: after adding every bit the
stored data is the bits array. -/
theorem fenFillLoop_inv (bits : List ℤ) :
    ∀ cnt m f, m + cnt = bits.length → FenWF f → f.n = bits.length →
      (∀ i, f.data.getD i 0 = if i < m then bits.getD i 0 else 0) →
      FenWF ((List.range' m cnt).foldl
        (fun acc (index : Nat) => fenAdd acc (index : Int) (bits.getD index 0)) f) ∧
      ((List.range' m cnt).foldl
        (fun acc (index : Nat) => fenAdd acc (index : Int) (bits.getD index 0)) f).n
        = bits.length ∧
      ∀ i, ((List.range' m cnt).foldl
        (fun acc (index : Nat) => fenAdd acc (index : Int) (bits.getD index 0))
          f).data.getD i 0 = bits.getD i 0 := by
  intro cnt
  induction cnt with
  | zero =>
      intro m f hm hwf hn hd
      refine ⟨hwf, hn, fun i => ?_⟩
      show f.data.getD i 0 = bits.getD i 0
      rw [hd i]
      by_cases hi : i < m
      · rw [if_pos hi]
      · rw [if_neg hi, getD_of_len_le bits 0 i (by omega)]
  | succ cnt ih =>
      intro m f hm hwf hn hd
      rw [List.range'_succ, List.foldl_cons]
      by_cases hz : bits.getD m 0 = 0
      · rw [fenAdd_skip f (m : Int) _ (Or.inr (Or.inr hz))]
        refine ih (m + 1) f (by omega) hwf hn ?_
        intro i
        rw [hd i]
        by_cases him : i = m
        · rw [him, if_neg (by omega), if_pos (by omega), hz]
        · by_cases hlt : i < m
          · rw [if_pos hlt, if_pos (by omega)]
          · rw [if_neg hlt, if_neg (by omega)]
      · obtain ⟨hwf', hn', hc', hd'⟩ := fenAdd_main f m (bits.getD m 0)
          (by omega) hz hwf
        have hflen : f.data.length = f.capacity := hwf.2.2.1
        have hfnc : f.n ≤ f.capacity := hwf.1
        refine ih (m + 1) _ (by omega) hwf' (by rw [hn']; exact hn) ?_
        intro i
        rw [hd']
        by_cases him : i = m
        · rw [him, getD_set_eq f.data 0 m _ (by omega),
            if_pos (by omega : m < m + 1), hd m, if_neg (by omega : ¬ m < m)]
          omega
        · rw [getD_set_ne f.data 0 m i _ (fun hc => him hc.symm), hd i]
          by_cases hlt : i < m
          · rw [if_pos hlt, if_pos (by omega)]
          · rw [if_neg hlt, if_neg (by omega)]

/-- rebuild (and the constructor) produce a well-formed analytics
state. -/
theorem taRebuild_WF (g : List String) : TAWF (taRebuild g) g := by
  have hbl : (busyBits g).length = g.length := by
    rw [busyBits, List.length_map]
  obtain ⟨hnwf, hnn, hnz⟩ := fenNew_WF (busyBits g).length
  have hz0 : ∀ i, (fenNew (busyBits g).length).data.getD i 0 =
      if i < 0 then (busyBits g).getD i 0 else 0 := by
    intro i
    rw [hnz i, if_neg (by omega)]
  obtain ⟨hfw, hfn, hfd⟩ := fenFillLoop_inv (busyBits g) (busyBits g).length
    0 (fenNew (busyBits g).length) (by omega) hnwf hnn hz0
  have hpair : taRebuildFens (busyBits g) =
      ((List.range (busyBits g).length).foldl
        (fun acc (index : Nat) =>
          fenAdd acc (index : Int) ((busyBits g).getD index 0))
        (fenNew (busyBits g).length),
       (List.range (busyBits g).length).foldl
        (fun acc (index : Nat) =>
          fenAdd acc (index : Int) (1 - (busyBits g).getD index 0))
        (fenNew (busyBits g).length)) :=
    foldl_prod
      (fun acc (index : Nat) =>
        fenAdd acc (index : Int) ((busyBits g).getD index 0))
      (fun acc (index : Nat) =>
        fenAdd acc (index : Int) (1 - (busyBits g).getD index 0))
      (List.range (busyBits g).length)
      (fenNew (busyBits g).length) (fenNew (busyBits g).length)
  have hfens : (taRebuildFens (busyBits g)).1 =
      (List.range' 0 (busyBits g).length).foldl
        (fun acc (index : Nat) =>
          fenAdd acc (index : Int) ((busyBits g).getD index 0))
        (fenNew (busyBits g).length) := by
    rw [hpair, List.range_eq_range']
  obtain ⟨hsw, hsn, hsd⟩ := segNew_WF (busyBits g)
  refine ⟨rfl, ?_, ?_, ?_, hsw, ?_, ?_⟩
  · show FenWF (taRebuildFens (busyBits g)).1
    rw [hfens]
    exact hfw
  · show (taRebuildFens (busyBits g)).1.n = g.length
    rw [hfens, hfn, hbl]
  · intro i
    show (taRebuildFens (busyBits g)).1.data.getD i 0 = (busyBits g).getD i 0
    rw [hfens, hfd i]
  · show (segNew (busyBits g)).n = g.length
    rw [hsn, hbl]
  · intro i
    show (segNew (busyBits g)).data.getD i 0 = (busyBits g).getD i 0
    rw [hsd, busyBits_bitify]

/-- Invariant of the equal-length sync loop: processed ticks hold the new
bits, the rest still hold the old ones. -/
def TAMix (st : TAState) (g0 next : List String) (m : Nat) : Prop :=
  st.gantt = g0 ∧
  FenWF st.fenwickBusy ∧ st.fenwickBusy.n = g0.length ∧
  (∀ i, st.fenwickBusy.data.getD i 0 =
    if i < m then (busyBits next).getD i 0 else (busyBits g0).getD i 0) ∧
  SegWF st.segStreakBusyIdle ∧ st.segStreakBusyIdle.n = g0.length ∧
  (∀ i, st.segStreakBusyIdle.data.getD i 0 =
    if i < m then (busyBits next).getD i 0 else (busyBits g0).getD i 0)

/-- Invariant of the append loop: m ticks of the new timeline absorbed. -/
def TAGrow (st : TAState) (next : List String) (m : Nat) : Prop :=
  FenWF st.fenwickBusy ∧ st.fenwickBusy.n = m ∧
  (∀ i, st.fenwickBusy.data.getD i 0 =
    if i < m then (busyBits next).getD i 0 else 0) ∧
  SegWF st.segStreakBusyIdle ∧ st.segStreakBusyIdle.n = m ∧
  (∀ i, st.segStreakBusyIdle.data.getD i 0 =
    if i < m then (busyBits next).getD i 0 else 0)

/-- One step of the equal-length sync loop preserves the mixed
invariant. -/
theorem taEqStep_mix (g0 next : List String) (hlen : next.length = g0.length)
    (m : Nat) (st : TAState) (hm : m < next.length) (h : TAMix st g0 next m) :
    TAMix (if next.getD m "" = st.gantt.getD m "" then st
      else taUpdateTick st m (next.getD m "")) g0 next (m + 1) := by
  obtain ⟨hg, hfw, hfn, hfd, hsw, hsn, hsd⟩ := h
  rw [hg]
  have hshift : ∀ (L : List ℤ),
      (∀ i, L.getD i 0 =
        if i < m then (busyBits next).getD i 0 else (busyBits g0).getD i 0) →
      toBusyBit (g0.getD m "") = toBusyBit (next.getD m "") →
      ∀ i, L.getD i 0 =
        if i < m + 1 then (busyBits next).getD i 0
        else (busyBits g0).getD i 0 := by
    intro L hL hb i
    rw [hL i]
    by_cases him : i = m
    · rw [him, if_neg (by omega), if_pos (by omega),
        busyBits_getD g0 m (by omega), busyBits_getD next m (by omega), hb]
    · by_cases hlt : i < m
      · rw [if_pos hlt, if_pos (by omega)]
      · rw [if_neg hlt, if_neg (by omega)]
  by_cases hpid : next.getD m "" = g0.getD m ""
  · rw [if_pos hpid]
    have hb : toBusyBit (g0.getD m "") = toBusyBit (next.getD m "") := by
      rw [hpid]
    exact ⟨hg, hfw, hfn, hshift _ hfd hb, hsw, hsn, hshift _ hsd hb⟩
  · rw [if_neg hpid, taUpdateTick, hg]
    by_cases hbits : toBusyBit (g0.getD m "") = toBusyBit (next.getD m "")
    · rw [if_pos hbits]
      exact ⟨hg, hfw, hfn, hshift _ hfd hbits, hsw, hsn, hshift _ hsd hbits⟩
    · rw [if_neg hbits]
      have hδ : toBusyBit (next.getD m "") - toBusyBit (g0.getD m "") ≠ 0 := by
        omega
      obtain ⟨hfa, hfan, hfac, hfad⟩ := fenAdd_main st.fenwickBusy m
        (toBusyBit (next.getD m "") - toBusyBit (g0.getD m ""))
        (by omega) hδ hfw
      obtain ⟨hsa, hsan, hsas, hsad⟩ := segUpdate_WF st.segStreakBusyIdle
        ((m : Nat) : Int) (toBusyBit (next.getD m "")) hsw
      have hflen : st.fenwickBusy.data.length = st.fenwickBusy.capacity :=
        hfw.2.2.1
      have hfnc : st.fenwickBusy.n ≤ st.fenwickBusy.capacity := hfw.1
      refine ⟨rfl, hfa, ?_, ?_, hsa, ?_, ?_⟩
      · show (fenAdd st.fenwickBusy ((m : Nat) : Int)
          (toBusyBit (next.getD m "") - toBusyBit (g0.getD m ""))).n
          = g0.length
        rw [hfan]
        exact hfn
      · intro i
        show (fenAdd st.fenwickBusy ((m : Nat) : Int)
          (toBusyBit (next.getD m "") - toBusyBit (g0.getD m ""))).data.getD
            i 0 = _
        rw [hfad]
        by_cases him : i = m
        · rw [him, getD_set_eq st.fenwickBusy.data 0 m _ (by omega),
            if_pos (by omega : m < m + 1), hfd m, if_neg (by omega : ¬ m < m),
            busyBits_getD g0 m (by omega), busyBits_getD next m (by omega)]
          ring
        · rw [getD_set_ne st.fenwickBusy.data 0 m i _ (fun hc => him hc.symm),
            hfd i]
          by_cases hlt : i < m
          · rw [if_pos hlt, if_pos (by omega)]
          · rw [if_neg hlt, if_neg (by omega)]
      · show (segUpdate st.segStreakBusyIdle ((m : Nat) : Int)
          (toBusyBit (next.getD m ""))).n = g0.length
        rw [hsan]
        exact hsn
      · intro i
        show (segUpdate st.segStreakBusyIdle ((m : Nat) : Int)
          (toBusyBit (next.getD m ""))).data.getD i 0 = _
        rw [hsad i]
        by_cases him : i = m
        · rw [if_pos (show 0 ≤ ((m : Nat) : Int) ∧
            ((m : Nat) : Int) < (st.segStreakBusyIdle.n : Int) ∧
            i = (((m : Nat) : Int)).toNat from ⟨by omega, by omega, by omega⟩),
            toBusyBit_bit, him, if_pos (by omega : m < m + 1),
            busyBits_getD next m (by omega)]
        · rw [if_neg (show ¬ (0 ≤ ((m : Nat) : Int) ∧
            ((m : Nat) : Int) < (st.segStreakBusyIdle.n : Int) ∧
            i = (((m : Nat) : Int)).toNat) from fun hc => him (by omega)),
            hsd i]
          by_cases hlt : i < m
          · rw [if_pos hlt, if_pos (by omega)]
          · rw [if_neg hlt, if_neg (by omega)]

/-- The whole equal-length sync loop turns the mixed invariant into the
fully-updated one. -/
theorem taEqLoop (g0 next : List String) (hlen : next.length = g0.length) :
    ∀ cnt m st, m + cnt = next.length → TAMix st g0 next m →
      TAMix ((List.range' m cnt).foldl
        (fun acc index =>
          if next.getD index "" = acc.gantt.getD index "" then acc
          else taUpdateTick acc index (next.getD index "")) st) g0 next
        next.length := by
  intro cnt
  induction cnt with
  | zero =>
      intro m st hm h
      have hmm : m = next.length := by omega
      rw [hmm] at h
      exact h
  | succ cnt ih =>
      intro m st hm h
      rw [List.range'_succ, List.foldl_cons]
      exact ih (m + 1) _ (by omega) (taEqStep_mix g0 next hlen m st (by omega) h)

/-- One append step absorbs one more tick of the new timeline. -/
theorem taAppendTick_grow (next : List String) (m : Nat) (st : TAState)
    (hm : m < next.length) (h : TAGrow st next m) :
    TAGrow (taAppendTick st (next.getD m "")) next (m + 1) := by
  obtain ⟨hfw, hfn, hfd, hsw, hsn, hsd⟩ := h
  obtain ⟨hfa, hfan, hfad⟩ := fenAppend_WF st.fenwickBusy
    (toBusyBit (next.getD m "")) hfw
  obtain ⟨hsa, hsan, hsad⟩ := segAppend_WF st.segStreakBusyIdle
    (toBusyBit (next.getD m "")) hsw
  have hslen : st.segStreakBusyIdle.data.length = m := by
    rw [hsw.1, hsn]
  refine ⟨hfa, ?_, ?_, hsa, ?_, ?_⟩
  · show (fenAppend st.fenwickBusy (toBusyBit (next.getD m ""))).n = m + 1
    rw [hfan, hfn]
  · intro i
    show (fenAppend st.fenwickBusy
      (toBusyBit (next.getD m ""))).data.getD i 0 = _
    rw [hfad i, hfn]
    by_cases h1 : i < m
    · rw [if_pos h1, if_pos (by omega), hfd i, if_pos h1]
    · rw [if_neg h1]
      by_cases h2 : i = m
      · rw [if_pos h2, if_pos (by omega), h2, busyBits_getD next m hm]
      · rw [if_neg h2, if_neg (by omega)]
  · show (segAppend st.segStreakBusyIdle (toBusyBit (next.getD m ""))).n
      = m + 1
    rw [hsan, hsn]
  · intro i
    show (segAppend st.segStreakBusyIdle
      (toBusyBit (next.getD m ""))).data.getD i 0 = _
    rw [hsad, toBusyBit_bit]
    by_cases h1 : i < m
    · rw [getD_append_lt _ _ 0 i (by omega), hsd i, if_pos h1,
        if_pos (by omega)]
    · by_cases h2 : i = m
      · have hlast : (st.segStreakBusyIdle.data ++
            [toBusyBit (next.getD m "")]).getD i 0 =
            toBusyBit (next.getD m "") := by
          rw [h2, ← hslen, getD_append_length]
        rw [hlast, if_pos (by omega), h2, busyBits_getD next m hm]
      · rw [getD_of_len_le _ 0 i (by
          simp only [List.length_append, List.length_singleton]
          omega), if_neg (by omega)]

/-- The whole append loop absorbs the extension of the timeline. -/
theorem taAppendLoop (next : List String) :
    ∀ cnt m st, m + cnt = next.length → TAGrow st next m →
      TAGrow ((List.range' m cnt).foldl
        (fun acc index => taAppendTick acc (next.getD index "")) st) next
        next.length := by
  intro cnt
  induction cnt with
  | zero =>
      intro m st hm h
      have hmm : m = next.length := by omega
      rw [hmm] at h
      exact h
  | succ cnt ih =>
      intro m st hm h
      rw [List.range'_succ, List.foldl_cons]
      exact ih (m + 1) _ (by omega) (taAppendTick_grow next m st (by omega) h)

/-- The finished mixed invariant is full well-formedness after the gantt
swap. -/
theorem TAMix_final (g0 next : List String) (hlen : next.length = g0.length)
    (st : TAState) (h : TAMix st g0 next next.length) :
    TAWF { st with gantt := next } next := by
  obtain ⟨hg, hfw, hfn, hfd, hsw, hsn, hsd⟩ := h
  have hconv : ∀ (L : List ℤ),
      (∀ i, L.getD i 0 = if i < next.length then (busyBits next).getD i 0
        else (busyBits g0).getD i 0) →
      ∀ i, L.getD i 0 = (busyBits next).getD i 0 := by
    intro L hL i
    rw [hL i]
    by_cases hi : i < next.length
    · rw [if_pos hi]
    · rw [if_neg hi,
        getD_of_len_le (busyBits g0) 0 i (by
          rw [busyBits, List.length_map]
          omega),
        getD_of_len_le (busyBits next) 0 i (by
          rw [busyBits, List.length_map]
          omega)]
  exact ⟨rfl, hfw, hfn.trans hlen.symm, hconv _ hfd, hsw,
    hsn.trans hlen.symm, hconv _ hsd⟩

/-- The finished append invariant is full well-formedness after the gantt
swap. -/
theorem TAGrow_final (next : List String) (st : TAState)
    (h : TAGrow st next next.length) : TAWF { st with gantt := next } next := by
  obtain ⟨hfw, hfn, hfd, hsw, hsn, hsd⟩ := h
  have hconv : ∀ (L : List ℤ),
      (∀ i, L.getD i 0 = if i < next.length then (busyBits next).getD i 0
        else 0) →
      ∀ i, L.getD i 0 = (busyBits next).getD i 0 := by
    intro L hL i
    rw [hL i]
    by_cases hi : i < next.length
    · rw [if_pos hi]
    · rw [if_neg hi,
        getD_of_len_le (busyBits next) 0 i (by
          rw [busyBits, List.length_map]
          omega)]
  exact ⟨rfl, hfw, hfn, hconv _ hfd, hsw, hsn, hconv _ hsd⟩

/-- sync carries well-formedness from the old timeline to the new one in
all four branches. -/
theorem taSync_WF (st : TAState) (g0 next : List String) (h : TAWF st g0) :
    TAWF (taSync st next) next := by
  obtain ⟨hg, hbwf, hbn, hbd, hswf, hsn, hsd⟩ := h
  rw [taSync, hg]
  by_cases h1 : next.length < g0.length
  · rw [if_pos h1]
    exact taRebuild_WF next
  · rw [if_neg h1]
    by_cases h2 : next.length = g0.length
    · rw [if_pos h2]
      have hmix0 : TAMix st g0 next 0 := by
        refine ⟨hg, hbwf, hbn, fun i => ?_, hswf, hsn, fun i => ?_⟩
        · rw [hbd i, if_neg (by omega)]
        · rw [hsd i, if_neg (by omega)]
      rw [List.range_eq_range']
      exact TAMix_final g0 next h2 _
        (taEqLoop g0 next h2 next.length 0 st (by omega) hmix0)
    · rw [if_neg h2]
      by_cases h3 : (List.range g0.length).any
          (fun index => ! (next.getD index "" == g0.getD index "")) = true
      · rw [if_pos h3]
        exact taRebuild_WF next
      · rw [if_neg h3]
        have hpref : ∀ i, i < g0.length → next.getD i "" = g0.getD i "" := by
          intro i hi
          by_contra hne
          apply h3
          rw [List.any_eq_true]
          refine ⟨i, List.mem_range.mpr hi, ?_⟩
          rw [Bool.not_eq_true', beq_eq_false_iff_ne]
          exact hne
        have hgrow0 : TAGrow st next g0.length := by
          refine ⟨hbwf, hbn, fun i => ?_, hswf, hsn, fun i => ?_⟩
          · rw [hbd i]
            by_cases hi : i < g0.length
            · rw [if_pos hi, busyBits_getD g0 i hi,
                busyBits_getD next i (by omega), hpref i hi]
            · rw [if_neg hi, getD_of_len_le (busyBits g0) 0 i (by
                rw [busyBits, List.length_map]
                omega)]
          · rw [hsd i]
            by_cases hi : i < g0.length
            · rw [if_pos hi, busyBits_getD g0 i hi,
                busyBits_getD next i (by omega), hpref i hi]
            · rw [if_neg hi, getD_of_len_le (busyBits g0) 0 i (by
                rw [busyBits, List.length_map]
                omega)]
        exact TAGrow_final next _
          (taAppendLoop next (next.length - g0.length) g0.length st
            (by omega) hgrow0)

/-- Any two well-formed analytics states for the same timeline answer
every range query identically. -/
theorem taGetRangeStats_congr (st₁ st₂ : TAState) (g : List String)
    (h₁ : TAWF st₁ g) (h₂ : TAWF st₂ g) (l r : Int) :
    taGetRangeStats st₁ l r = taGetRangeStats st₂ l r := by
  obtain ⟨hg₁, hbwf₁, hbn₁, hbd₁, hswf₁, hsn₁, hsd₁⟩ := h₁
  obtain ⟨hg₂, hbwf₂, hbn₂, hbd₂, hswf₂, hsn₂, hsd₂⟩ := h₂
  rw [taGetRangeStats, taGetRangeStats, hg₁, hg₂]
  by_cases hg0 : g.length = 0
  · rw [if_pos hg0, if_pos hg0]
  · rw [if_neg hg0, if_neg hg0]
    have hngt : ¬ clampTick (min l r) ((g.length : Int) - 1) >
        clampTick (max l r) ((g.length : Int) - 1) := by
      rw [clampTick, clampTick]
      omega
    rw [if_neg hngt, if_neg hngt]
    set L := clampTick (min l r) ((g.length : Int) - 1) with hLdef
    set R := clampTick (max l r) ((g.length : Int) - 1) with hRdef
    have hL0 : 0 ≤ L := by
      rw [hLdef, clampTick]
      omega
    have hR0 : 0 ≤ R := by
      rw [hRdef, clampTick]
      omega
    have hLR : L ≤ R := by
      rw [hLdef, hRdef, clampTick, clampTick]
      omega
    have hRlt : R < (g.length : Int) := by
      rw [hRdef, clampTick]
      omega
    have hLcast : L = ((L.toNat : Nat) : Int) := by omega
    have hRcast : R = ((R.toNat : Nat) : Int) := by omega
    have hLRn : L.toNat ≤ R.toNat := by omega
    have hbusy : fenRangeSum st₁.fenwickBusy.tree st₁.fenwickBusy.n L R =
        fenRangeSum st₂.fenwickBusy.tree st₂.fenwickBusy.n L R := by
      rw [hLcast, hRcast,
        fenRangeSum_WF st₁.fenwickBusy hbwf₁ L.toNat R.toNat hLRn (by
          rw [hbn₁]
          omega),
        fenRangeSum_WF st₂.fenwickBusy hbwf₂ L.toNat R.toNat hLRn (by
          rw [hbn₂]
          omega),
        sliceSum_congr st₁.fenwickBusy.data (busyBits g) L.toNat
          (R.toNat + 1) (fun i _ => hbd₁ i),
        sliceSum_congr st₂.fenwickBusy.data (busyBits g) L.toNat
          (R.toNat + 1) (fun i _ => hbd₂ i)]
    have hwin : segWindow st₁.segStreakBusyIdle.data L.toNat R.toNat =
        segWindow st₂.segStreakBusyIdle.data L.toNat R.toNat := by
      rw [segWindow, segWindow]
      have hfun : (fun i => decide (0 < st₁.segStreakBusyIdle.data.getD i 0))
          = fun i => decide (0 < st₂.segStreakBusyIdle.data.getD i 0) := by
        funext i
        rw [hsd₁ i, hsd₂ i]
      rw [hfun]
    have hstreak : segQueryState st₁.segStreakBusyIdle L R =
        segQueryState st₂.segStreakBusyIdle L R := by
      rw [hLcast, hRcast,
        segQueryState_correct st₁.segStreakBusyIdle hswf₁ L.toNat R.toNat
          hLRn (by
            rw [hsn₁]
            omega),
        segQueryState_correct st₂.segStreakBusyIdle hswf₂ L.toNat R.toNat
          hLRn (by
            rw [hsn₂]
            omega),
        hwin]
    rw [hbusy, hstreak]

/-- C4: for every initial timeline g0 and successor timeline g1 (shorter,
same length with point differences, an extension, or differing inside the
shared prefix), syncing an analytics instance built from g0 to g1 answers
every getRangeStats query exactly as a fresh instance rebuilt from g1. -/
theorem timeline_sync_matches_rebuild (g0 g1 : List String) (l r : Int) :
    taGetRangeStats (taSync (taRebuild g0) g1) l r =
      taGetRangeStats (taRebuild g1) l r :=
  taGetRangeStats_congr (taSync (taRebuild g0) g1) (taRebuild g1) g1
    (taSync_WF (taRebuild g0) g0 g1 (taRebuild_WF g0)) (taRebuild_WF g1) l r
